/-
Verification development for the KLL quantile sketch of apache-datasketches-go.

The Go sources are shallowly embedded as Lean functions:
  * machine integers are modelled as `Nat`; where a Go operation can wrap and the
    wrap is observable (the `uint16` shift in `intCapAuxAux`, the `uint8`
    multiplication `numLevels*4` in serialization) the wrap is written as an
    explicit `% 2^w`.  `uint32` index arithmetic uses truncated `Nat`
    subtraction; every such subtraction is performed on monotone level arrays
    (an invariant proved below), where truncated and wrapping subtraction agree.
    The `uint64` item counter `n` is modelled as an unbounded `Nat`.
  * array reads and writes are bounds-checked (`Option`): an out-of-bounds
    access models the Go runtime panic.
  * Go loops become fuelled structural recursions whose fuel is the exact trip
    count of the loop (or an upper bound after which the source is certain to
    fault, noted at each definition).
-/
import Mathlib

namespace DS

/-- Bounds-checked array write: Go `arr[i] = a` panics when `i` is out of range. -/
def setO {α : Type} (l : List α) (i : ℕ) (a : α) : Option (List α) :=
  if i < l.length then some (l.set i a) else none

/-- Table of powers of three, `3^0 … 3^30` (items_sketch.go / helper.go `powersOfThree`). -/
def powersOfThree : List ℕ :=
  [1, 3, 9, 27, 81, 243, 729, 2187, 6561, 19683, 59049, 177147, 531441,
   1594323, 4782969, 14348907, 43046721, 129140163, 387420489, 1162261467,
   3486784401, 10460353203, 31381059609, 94143178827, 282429536481,
   847288609443, 2541865828329, 7625597484987, 22876792454961, 68630377364883,
   205891132094649]

/-! ### Level-capacity arithmetic, generic items version (kll/items_sketch.go 844-862)

`intCapAuxAux` receives `k` as a `uint16`.  The source computes
`twok := uint64(k << 1)`: the shift is performed in `uint16` and wraps modulo
2^16 *before* the widening conversion, hence the explicit `% 65536` below.
The subsequent `uint64` arithmetic cannot overflow (`twok < 2^16`,
`depth ≤ 30` whenever the table access is in bounds) and is modelled exactly.
The table access `powersOfThree[depth]` panics for `depth > 30`; modelled by
the bounds-checked read. -/
def intCapAuxAux (k depth : ℕ) : Option ℕ := do
  let twok := (k * 2) % 65536
  let p ← powersOfThree[depth]?
  let tmp := (twok * 2 ^ depth) / p
  let result := (tmp + 1) / 2
  pure (if result ≤ k then result else k)

/-- kll/items_sketch.go `intCapAux`: direct for `depth ≤ 30`, otherwise split in two
halves; the intermediate is narrowed by `uint16(tmp)` (`tmp ≤ k < 2^16`, so the
`% 65536` is the identity there, kept for faithfulness). -/
def intCapAux (k depth : ℕ) : Option ℕ :=
  if depth ≤ 30 then intCapAuxAux k depth
  else do
    let half := depth / 2
    let rest := depth - half
    let tmp ← intCapAuxAux k half
    intCapAuxAux (tmp % 65536) rest

/-- kll/items_sketch.go `levelCapacity`.  `depth := numLevels - level - 1` is `uint8`
arithmetic in the source; all in-invariant calls have `level < numLevels` so the
subtraction does not wrap (out-of-invariant calls fault in the source before an
answer is produced, and fault in this model as well — see `findLevelToCompact`). -/
def levelCapacity (k numLevels level m : ℕ) : Option ℕ := do
  let depth := numLevels - level - 1
  let v ← intCapAux k depth
  pure (max m v)

/-- The capacity formula exactly as the specification states it:
`max(M, IntCapAux(K, depth))` with `IntCapAux(K, depth) = ⌈(2K·(2/3)^depth + 1)/2⌉`
clamped at `K` (spec §4.1).  Written over exact rational arithmetic:
`(2K·(2/3)^d + 1)/2 = (2K·2^d + 3^d)/(2·3^d)`. -/
def specLevelCapacity (k numLevels level m : ℕ) : ℕ :=
  let depth := numLevels - level - 1
  let num := 2 * k * 2 ^ depth + 3 ^ depth
  let den := 2 * 3 ^ depth
  max m (min k ((num + den - 1) / den))

/-! ### Level-capacity arithmetic, doubles version (kll/helper.go 56-95)

This variant takes `int`/`int64` arguments and reports invariant violations as
errors.  `twok << depth` stays below `2^60` for the admitted `k ≤ 2^29`,
`depth ≤ 30`, so the `int64` arithmetic is exact. -/
def intCapAuxAuxD (k depth : ℕ) : Option ℕ := do
  let p ← powersOfThree[depth]?
  let tmp := (k * 2 * 2 ^ depth) / p
  let result := (tmp + 1) / 2
  if result > k then none else pure result

/-- kll/helper.go `intCapAux`. -/
def intCapAuxD (k depth : ℕ) : Option ℕ :=
  if depth ≤ 30 then intCapAuxAuxD k depth
  else do
    let half := depth / 2
    let rest := depth - half
    let tmp ← intCapAuxAuxD k half
    intCapAuxAuxD tmp rest

/-- kll/helper.go `levelCapacity` with its argument validation. -/
def levelCapacityD (k numLevels level m : ℕ) : Option ℕ :=
  if k > 2 ^ 29 then none
  else if numLevels < 1 ∨ numLevels > 61 then none
  else if level ≥ numLevels then none
  else do
    let v ← intCapAuxD k (numLevels - level - 1)
    pure (max m v)

/-! ### convertToCumulative (src/unnamed/part_000 182-190)

The loop body is
`newSubtotal := subtotal + array[i]; subtotal = array[i]; array[i] = newSubtotal`,
i.e. the running subtotal is reset to the *current element* rather than to the
new subtotal.  Transcribed verbatim; weights are `int64`, modelled as `ℤ`. -/
def convertToCumulativeGo (subtotal : ℤ) : List ℤ → (List ℤ × ℤ)
  | [] => ([], subtotal)
  | a :: rest =>
      let newSubtotal := subtotal + a
      let r := convertToCumulativeGo a rest
      (newSubtotal :: r.1, r.2)

/-- `convertToCumulative(array)` of src/unnamed/part_000: returns the modified
array and the final `subtotal`. -/
def convertToCumulative (array : List ℤ) : (List ℤ × ℤ) :=
  convertToCumulativeGo 0 array

/-- The cumulative-weight array the spec describes: `CW[i] = Σ_{j≤i} W[j]`,
with total `Σ W` (spec §4.6 step 4). -/
def specCumulative (array : List ℤ) : (List ℤ × ℤ) :=
  ((List.range array.length).map fun i => ((array.take (i + 1)).sum), array.sum)

/-! ### Randomized halving, generic items version (kll/items_sketch.go 864-884)

In the items variants the draw `offset := rand.Intn(2)` is commented out and
replaced by the constant `offset := 1`: both functions always keep the elements
at odd offsets and are deterministic. -/
def halveDownLoop {α : Type} : List α → ℕ → ℕ → ℕ → Option (List α)
  | buf, _, _, 0 => some buf
  | buf, i, j, cnt + 1 => do
      let v ← buf[j]?
      let buf ← setO buf i v
      halveDownLoop buf (i + 1) (j + 2) cnt

/-- kll/items_sketch.go `randomlyHalveDownItems` (the offset is the constant 1). -/
def randomlyHalveDownItems {α : Type} (buf : List α) (start length : ℕ) : Option (List α) :=
  let halfLength := length / 2
  let offset := 1
  halveDownLoop buf start (start + offset) halfLength

def halveUpLoop {α : Type} : List α → ℕ → ℕ → ℕ → Option (List α)
  | buf, _, _, 0 => some buf
  | buf, i, j, cnt + 1 => do
      let v ← buf[j]?
      let buf ← setO buf i v
      halveUpLoop buf (i - 1) (j - 2) cnt

/-- kll/items_sketch.go `randomlyHalveUpItems` (the offset is the constant 1).
The loop runs from `start+length-1` down to `start+halfLength`, i.e.
`length - length/2` iterations; `j` starts at `start+length-1-offset` and
decreases by 2 (it never wraps for the even lengths the sketch passes). -/
def randomlyHalveUpItems {α : Type} (buf : List α) (start length : ℕ) : Option (List α) :=
  let halfLength := length / 2
  let offset := 1
  halveUpLoop buf (start + length - 1) (start + length - 1 - offset) (length - halfLength)

/-! ### The doubles sketch (kll/double_sketch.go, src/unnamed/part_003)

Finite IEEE doubles are modelled as `ℚ` (only order comparisons occur on this
code path); the `NaN` sentinel used for an absent min/max is modelled as
`none`.  `math.Min`/`math.Max` on finite doubles are the order min/max. -/
structure DoubleSketch where
  k : ℕ
  m : ℕ
  n : ℕ
  minK : ℕ
  isLevelZeroSorted : Bool
  readOnly : Bool
  minDoubleItem : Option ℚ
  maxDoubleItem : Option ℚ
  levelsArr : List ℕ
  doubleItems : List ℚ
  deriving DecidableEq

/-- kll/double_sketch.go `getNumLevels` (the structure is always `updatable` for a
sketch built by `NewKllDoubleSketch`). -/
def getNumLevelsD (s : DoubleSketch) : ℕ := s.levelsArr.length - 1

/-- kll/helper.go `checkK`. -/
def checkKD (k m : ℕ) : Bool := decide (m ≤ k ∧ k ≤ 65535)

/-- kll/helper.go `checkM`. -/
def checkMD (m : ℕ) : Bool := decide (2 ≤ m ∧ m ≤ 8 ∧ m % 2 = 0)

/-- kll/double_sketch.go `NewKllDoubleSketch`: fresh sketch with levels `[k,k]`,
a `k`-slot zeroed buffer and NaN (`none`) min/max. -/
def newKllDoubleSketch (k m : ℕ) : Option DoubleSketch :=
  if checkKD k m ∧ checkMD m then
    some ⟨k, m, 0, k, false, false, none, none, [k, k], List.replicate k 0⟩
  else none

def findLevelToCompactDGo (k m numLevels : ℕ) (levels : List ℕ) :
    ℕ → ℕ → Option ℕ
  | _, 0 => none
  | level, fuel + 1 =>
      if level ≥ numLevels then none
      else do
        let a ← levels[level]?
        let b ← levels[level + 1]?
        let pop := b - a
        let capacity ← levelCapacityD k numLevels level m
        if pop ≥ capacity then some level
        else findLevelToCompactDGo k m numLevels levels (level + 1) fuel

/-- kll/helper.go `findLevelToCompact`: first level whose population reaches its
capacity; errors out when `level ≥ numLevels` is reached (fuel `numLevels + 1`
covers every iteration the source can perform). -/
def findLevelToCompactD (k m numLevels : ℕ) (levels : List ℕ) : Option ℕ :=
  findLevelToCompactDGo k m numLevels levels 0 (numLevels + 1)

/-- src/unnamed/part_003 `compressWhileUpdatingSketch` for doubles: the first
compaction any update-reachable doubles sketch performs selects level 0, where
the source executes `panic("implement me")` (the level-zero sort is
unimplemented); the higher-level path additionally depends on `rand` and is
unreachable without a prior level-0 compaction.  Modelled as failure after the
level selection. -/
def compressWhileUpdatingDoubleP3 (s : DoubleSketch) : Option DoubleSketch := do
  let _level ← findLevelToCompactD s.k s.m (getNumLevelsD s) s.levelsArr
  none

/-- src/unnamed/part_003 `updateDouble` (lines 313-347).  After updating the
minimum, the source fetches `GetMinItem` a second time — not `GetMaxItem` — and
stores `max(thatValue, item)` as the new maximum; the transcription keeps that
read.  The `math.IsNaN(item)` guard is vacuous in the `ℚ` model of finite
doubles. -/
def updateDoubleP3 (s : DoubleSketch) (item : ℚ) : Option DoubleSketch := do
  let s ←
    if s.n = 0 then
      some { s with minDoubleItem := some item, maxDoubleItem := some item }
    else do
      let mi ← s.minDoubleItem
      let s := { s with minDoubleItem := some (min mi item) }
      let ma ← s.minDoubleItem
      some { s with maxDoubleItem := some (max ma item) }
  let level0space ← s.levelsArr[0]?
  let (s, level0space) ←
    if level0space = 0 then do
      let s ← compressWhileUpdatingDoubleP3 s
      let l0 ← s.levelsArr[0]?
      some (s, l0)
    else some (s, level0space)
  let nextPos := level0space - 1
  let levels ← setO s.levelsArr 0 nextPos
  let items ← setO s.doubleItems nextPos item
  some { s with n := s.n + 1, isLevelZeroSorted := false,
                levelsArr := levels, doubleItems := items }

/-- Failure modes of the doubles `addEmptyTopLevelToCompletelyFullSketch`:
an out-of-bounds array access (a Go runtime panic) versus an ordinary error
return. -/
inductive DFail where
  | oob
  | errReturn
  deriving DecidableEq

/-- Bounds-checked read distinguishing the out-of-bounds panic. -/
def getX (l : List ℕ) (i : ℕ) : Except DFail ℕ :=
  match l[i]? with
  | some v => .ok v
  | none => .error .oob

/-- src/unnamed/part_003 `addEmptyTopLevelToCompletelyFullSketch` (lines 422-497).
`getLevelsArray(updatable)` returns a copy of the levels array.  Note the
growth test `growLevelsArr := myCurLevelsArr[myCurNumLevels+1] < myCurNumLevels+2`:
it *indexes* the levels array at `numLevels+1` (the Java original compares the
array's *length*), an out-of-bounds read whenever the levels array has its
minimal length `numLevels+1`. -/
def addEmptyTopLevelDoubleP3 (s : DoubleSketch) : Except DFail DoubleSketch := do
  let myCurLevelsArr := s.levelsArr
  let myCurNumLevels := getNumLevelsD s
  let myCurTotalItemsCapacity ← getX myCurLevelsArr myCurNumLevels
  let myCurDoubleItemsArr := s.doubleItems
  if s.n = 0 then .error .errReturn else   -- GetMinItem / GetMaxItem fail on empty
  let minDouble := s.minDoubleItem
  let maxDouble := s.maxDoubleItem
  if myCurDoubleItemsArr.length ≠ myCurTotalItemsCapacity then .error .errReturn else
  let lv0 ← getX myCurLevelsArr 0
  if lv0 ≠ 0 then .error .errReturn else
  let deltaItemsCap ←
    match levelCapacityD s.k (myCurNumLevels + 1) 0 s.m with
    | some v => .ok v
    | none => .error .errReturn
  let myNewTotalItemsCapacity := myCurTotalItemsCapacity + deltaItemsCap
  let glaVal ← getX myCurLevelsArr (myCurNumLevels + 1)
  let growLevelsArr := glaVal < myCurNumLevels + 2
  let (myNewLevelsArr, myNewNumLevels) :=
    if growLevelsArr then
      (myCurLevelsArr ++ List.replicate (myCurNumLevels + 2 - myCurLevelsArr.length) 0,
       myCurNumLevels + 1)
    else (myCurLevelsArr, myCurNumLevels)
  let myNewLevelsArr :=
    (myNewLevelsArr.take myNewNumLevels |>.map (· + deltaItemsCap)) ++
      myNewLevelsArr.drop myNewNumLevels
  let myNewLevelsArr ←
    match setO myNewLevelsArr myNewNumLevels myNewTotalItemsCapacity with
    | some l => .ok l
    | none => .error .oob
  let myNewDoubleItemsArr :=
    List.replicate deltaItemsCap (0 : ℚ) ++ myCurDoubleItemsArr
  if s.readOnly then .error .errReturn else   -- setLevelsArray checks readOnly
  .ok { s with minDoubleItem := minDouble, maxDoubleItem := maxDouble,
               levelsArr := myNewLevelsArr, doubleItems := myNewDoubleItemsArr }

/-- src/unnamed/part_003 `GetMinItem`: error on an empty sketch, otherwise the
stored minimum field. -/
def getMinItemDbl (s : DoubleSketch) : Except Unit (Option ℚ) :=
  if s.n = 0 then .error () else .ok s.minDoubleItem

/-- src/unnamed/part_003 `GetMaxItem`. -/
def getMaxItemDbl (s : DoubleSketch) : Except Unit (Option ℚ) :=
  if s.n = 0 then .error () else .ok s.maxDoubleItem

/-! ### The doubles sorted view (kll/double_sketch_sorted_view.go) -/

structure DoubleSortedView where
  quantiles : List ℚ
  cumWeights : List ℤ
  totalN : ℤ
  maxItem : ℚ
  minItem : ℚ
  deriving DecidableEq

/-- kll/double_sketch_sorted_view.go `getRank` (lines 103-119): error on an empty
view; otherwise the source executes `panic("not implemented")` (the inequality
search is commented out), modelled as `none` either way. -/
def getRankSV (v : DoubleSortedView) (_quantile : ℚ) : Option ℚ :=
  if v.totalN = 0 then none
  else none

/-- kll/helper.go / src/unnamed/part_000 `checkDoublesSplitPointsOrder`: values
must be strictly increasing (the single-element NaN test is vacuous over `ℚ`). -/
def checkDoublesSplitPointsOrder (values : List ℚ) : Bool :=
  decide (values.Chain' (· < ·))

/-- Fill loop of `getCDF`: `buckets[i] = getRank(splitPoints[i])` for `i < len`. -/
def cdfLoop (v : DoubleSortedView) : List ℚ → Option (List ℚ)
  | [] => some []
  | sp :: rest => do
      let r ← getRankSV v sp
      let tail ← cdfLoop v rest
      some (r :: tail)

/-- kll/double_sketch_sorted_view.go `getCDF` (lines 84-101): validates the split
points, fills `buckets[i] = getRank(splitPoints[i])` for `i < len`, and sets the
final bucket to 1.0. -/
def getCDFSV (v : DoubleSortedView) (splitPoints : List ℚ) : Option (List ℚ) := do
  if ¬ checkDoublesSplitPointsOrder splitPoints then none else
  let front ← cdfLoop v splitPoints
  some (front ++ [1])

/-- Difference loop of kll/double_sketch_sorted_view.go `getPMF` (lines 78-80):
`for i := len(buckets); i > 1; i-- { buckets[i] -= buckets[i-1] }`.
The first iteration accesses `buckets[len(buckets)]`, one past the end. -/
def pmfLoopGo : List ℚ → ℕ → ℕ → Option (List ℚ)
  | buckets, _, 0 => some buckets
  | buckets, i, cnt + 1 => do
      let bi ← buckets[i]?
      let bim ← buckets[i - 1]?
      let buckets ← setO buckets i (bi - bim)
      pmfLoopGo buckets (i - 1) cnt

/-- kll/double_sketch_sorted_view.go `getPMF` (lines 73-82): computes `getCDF`
and then runs the (out-of-bounds) difference loop, `len(buckets) - 1` times
starting at index `len(buckets)`. -/
def getPMFSV (v : DoubleSortedView) (splitPoints : List ℚ) : Option (List ℚ) := do
  let buckets ← getCDFSV v splitPoints
  pmfLoopGo buckets buckets.length (buckets.length - 1)

/-! ### The generic items sketch (kll/items_sketch.go)

The item type `α` carries the Go zero value as `default` ([Inhabited]).  The
caller-supplied item operations mirror the `ItemSketchOp` interface; `isNil`
models `internal.IsNil` (not under src/), the "missing value" guard of spec
§4.3. -/
structure ItemOps (α : Type) where
  lt : α → α → Bool
  isNil : α → Bool
  serializeOne : α → List ℕ
  serializeMany : List α → List ℕ
  sizeOf : α → ℕ
  deserialize : List ℕ → ℕ → ℕ → Option (List α)

structure ItemsSketch (α : Type) where
  k : ℕ
  m : ℕ
  minK : ℕ
  numLevels : ℕ
  isLevelZeroSorted : Bool
  n : ℕ
  levels : List ℕ
  items : List α
  minItem : Option α
  maxItem : Option α
  sortedViewCached : Bool
  deriving DecidableEq

/-- kll/items_sketch.go `NewItemsSketch`: `k ∈ [8, 65535]`, `m = 8`, fresh levels
`[k, k]`, `k`-slot zeroed buffer. -/
def newItemsSketch (α : Type) [Inhabited α] (k : ℕ) : Option (ItemsSketch α) :=
  if k < 8 ∨ k > 65535 then none
  else some ⟨k, 8, k, 1, false, 0, [k, k], List.replicate k default, none, none, false⟩

/-- kll/items_sketch.go `GetNumRetained`: `levels[numLevels] - levels[0]`. -/
def getNumRetained {α : Type} (s : ItemsSketch α) : ℕ :=
  s.levels.getD s.numLevels 0 - s.levels.getD 0 0

/-- kll/items_sketch.go `GetTotalItemsArray`: a fresh zeroed `k`-array when the
sketch is empty, otherwise a copy of the buffer. -/
def getTotalItemsArray {α : Type} [Inhabited α] (s : ItemsSketch α) : List α :=
  if s.n = 0 then List.replicate s.k default else s.items

/-- kll/items_sketch.go `getRetainedItemsArray`: `numRetained` items copied from
`items[levels[0]:]` into a zeroed array (`takeD` pads with the zero value
exactly as a short `copy` would leave zeros). -/
def getRetainedItemsArray {α : Type} [Inhabited α] (s : ItemsSketch α) : List α :=
  (s.items.drop (s.levels.getD 0 0)).takeD (getNumRetained s) default

def findLevelToCompactGo (k m numLevels : ℕ) (levels : List ℕ) :
    ℕ → ℕ → Option ℕ
  | _, 0 => none
  | level, fuel + 1 => do
      let a ← levels[level]?
      let b ← levels[level + 1]?
      let pop := b - a
      let capacity ← levelCapacity k numLevels level m
      if pop ≥ capacity then some level
      else findLevelToCompactGo k m numLevels levels (level + 1) fuel

/-- kll/items_sketch.go `findLevelToCompact` (lines 819-829).  The source loop has
no bound check: when no level is full it runs off the end of `levels` and
panics; fuel `levels.length + 1` strictly exceeds the number of iterations the
source can perform before that read faults, so exhaustion is unreachable. -/
def findLevelToCompact (k m numLevels : ℕ) (levels : List ℕ) : Option ℕ :=
  findLevelToCompactGo k m numLevels levels 0 (levels.length + 1)

def totalCapLoop (k m numLevels : ℕ) : ℕ → Option ℕ
  | 0 => some 0
  | c + 1 => do
      let acc ← totalCapLoop k m numLevels c
      let cap ← levelCapacity k numLevels c m
      some (acc + cap)

/-- kll/items_sketch.go `computeTotalItemCapacity`: sum of `levelCapacity` over all
levels. -/
def computeTotalItemCapacity (k m numLevels : ℕ) : Option ℕ :=
  totalCapLoop k m numLevels numLevels

/-- Go `sort.Slice(arr[start:start+len], less)`: sorts that subrange in place (an
out-of-range slice bound panics).  Go's sort is an unstable comparison sort;
it is modelled by `mergeSort` with the same comparator. -/
def sortRange {α : Type} (lt : α → α → Bool) (arr : List α) (start len : ℕ) :
    Option (List α) :=
  if start + len ≤ arr.length then
    some (arr.take start ++ (((arr.drop start).take len).mergeSort fun a b => ! lt b a)
          ++ arr.drop (start + len))
  else none

def mergeSelfLoop {α : Type} (lt : α → α → Bool) :
    List α → ℕ → ℕ → ℕ → ℕ → ℕ → ℕ → Option (List α)
  | buf, _, _, _, _, _, 0 => some buf
  | buf, a, limA, b, limB, c, fuel + 1 =>
      if a = limA then do
        let v ← buf[b]?
        let buf ← setO buf c v
        mergeSelfLoop lt buf a limA (b + 1) limB (c + 1) fuel
      else if b = limB then do
        let v ← buf[a]?
        let buf ← setO buf c v
        mergeSelfLoop lt buf (a + 1) limA b limB (c + 1) fuel
      else do
        let va ← buf[a]?
        let vb ← buf[b]?
        if lt va vb then do
          let buf ← setO buf c va
          mergeSelfLoop lt buf (a + 1) limA b limB (c + 1) fuel
        else do
          let buf ← setO buf c vb
          mergeSelfLoop lt buf a limA (b + 1) limB (c + 1) fuel

/-- kll/items_sketch.go `mergeSortedItemsArrays` (lines 886-912) at the aliased
call sites `bufA = bufB = bufC` (the in-place compaction merges): one shared
buffer, reads and writes interleaved element by element exactly as in the
source; the fuel `lenA + lenB` is the exact trip count of the `for c` loop. -/
def mergeSortedItemsArraysSelf {α : Type} (lt : α → α → Bool) (buf : List α)
    (startA lenA startB lenB startC : ℕ) : Option (List α) :=
  mergeSelfLoop lt buf startA (startA + lenA) startB (startB + lenB) startC (lenA + lenB)

def mergeGenLoop {α : Type} (lt : α → α → Bool) (bufA bufB : List α) :
    List α → ℕ → ℕ → ℕ → ℕ → ℕ → ℕ → Option (List α)
  | bufC, _, _, _, _, _, 0 => some bufC
  | bufC, a, limA, b, limB, c, fuel + 1 =>
      if a = limA then do
        let v ← bufB[b]?
        let bufC ← setO bufC c v
        mergeGenLoop lt bufA bufB bufC a limA (b + 1) limB (c + 1) fuel
      else if b = limB then do
        let v ← bufA[a]?
        let bufC ← setO bufC c v
        mergeGenLoop lt bufA bufB bufC (a + 1) limA b limB (c + 1) fuel
      else do
        let va ← bufA[a]?
        let vb ← bufB[b]?
        if lt va vb then do
          let bufC ← setO bufC c va
          mergeGenLoop lt bufA bufB bufC (a + 1) limA b limB (c + 1) fuel
        else do
          let bufC ← setO bufC c vb
          mergeGenLoop lt bufA bufB bufC a limA (b + 1) limB (c + 1) fuel

/-- kll/items_sketch.go `mergeSortedItemsArrays` at the distinct-buffers call site
(`populateItemWorkArrays`, where the two sources and the destination are three
different arrays). -/
def mergeSortedItemsArraysGen {α : Type} (lt : α → α → Bool)
    (bufA : List α) (startA lenA : ℕ) (bufB : List α) (startB lenB : ℕ)
    (bufC : List α) (startC : ℕ) : Option (List α) :=
  mergeGenLoop lt bufA bufB bufC startA (startA + lenA) startB (startB + lenB)
    startC (lenA + lenB)

/-- Go loop `for i ... dst[dstOff+i] = src[srcOff+i]` over two distinct arrays;
`src` is never modified, so the iteration order is immaterial and the recursion
processes index `cnt - 1` last. -/
def copyLoop {α : Type} (src : List α) : List α → ℕ → ℕ → ℕ → Option (List α)
  | dst, _, _, 0 => some dst
  | dst, srcOff, dstOff, c + 1 => do
      let dst ← copyLoop src dst srcOff dstOff c
      let v ← src[srcOff + c]?
      setO dst (dstOff + c) v

/-- Same loop over a single shared buffer (`generalItemsCompress` copies a level
downward within `workbuf`): ascending element-by-element reads and writes on
the same array, transcribed exactly. -/
def copySelfLoop {α : Type} : List α → ℕ → ℕ → ℕ → Option (List α)
  | buf, _, _, 0 => some buf
  | buf, srcOff, dstOff, c + 1 => do
      let buf ← copySelfLoop buf srcOff dstOff c
      let v ← buf[srcOff + c]?
      setO buf (dstOff + c) v

/-- Shift loop of `compressWhileUpdatingSketch` (lines 749-755): for
`i = amount … 1`, `buf[base+half+i-1] = buf[base+i-1]`, iterated from the end. -/
def shiftRightLoop {α : Type} : List α → ℕ → ℕ → ℕ → Option (List α)
  | buf, _, _, 0 => some buf
  | buf, base, half, i + 1 => do
      let v ← buf[base + i]?
      let buf ← setO buf (base + half + i) v
      shiftRightLoop buf base half i

/-- Boundary-adjust loop `for lvl := 0; lvl < cnt; lvl++ { levels[lvl] += add }`. -/
def bumpLoop (add : ℕ) : List ℕ → ℕ → Option (List ℕ)
  | levels, 0 => some levels
  | levels, c + 1 => do
      let arr ← bumpLoop add levels c
      let v ← arr[c]?
      setO arr c (v + add)

/-- kll/items_sketch.go `addEmptyTopLevelToCompletelyFullSketch` (lines 764-817).
The levels array grows only when its length is below `numLevels + 2`; in the
non-growing branch (possible only after a merge over-allocated the levels
array, which — as proved below — never happens for a reachable sketch)
`numLevels` is left unchanged. -/
def addEmptyTopLevelToCompletelyFullSketch {α : Type} [Inhabited α]
    (s : ItemsSketch α) : Option (ItemsSketch α) := do
  let myCurLevelsArr := s.levels
  let myCurNumLevels := s.numLevels
  let myCurTotalItemsCapacity ← myCurLevelsArr[myCurNumLevels]?
  let myCurItemsArr := getTotalItemsArray s
  let deltaItemsCap ← levelCapacity s.k (myCurNumLevels + 1) 0 s.m
  let myNewTotalItemsCapacity := myCurTotalItemsCapacity + deltaItemsCap
  let growLevelsArr := myCurLevelsArr.length < myCurNumLevels + 2
  let (myNewLevelsArr, myNewNumLevels) :=
    if growLevelsArr then
      (myCurLevelsArr ++ List.replicate (myCurNumLevels + 2 - myCurLevelsArr.length) 0,
       myCurNumLevels + 1)
    else (myCurLevelsArr, myCurNumLevels)
  let myNewLevelsArr ← bumpLoop deltaItemsCap myNewLevelsArr myNewNumLevels
  let myNewLevelsArr ← setO myNewLevelsArr myNewNumLevels myNewTotalItemsCapacity
  let base := List.replicate myNewTotalItemsCapacity (default : α)
  let myNewItemsArr ← copyLoop myCurItemsArr base 0 deltaItemsCap myCurTotalItemsCapacity
  some { s with numLevels := myNewNumLevels, levels := myNewLevelsArr,
                items := myNewItemsArr }

/-- kll/items_sketch.go `compressWhileUpdatingSketch` (lines 692-762).  After the
possible `addEmptyTopLevel`, `myLevelsArr` aliases `s.levels`, so the odd-case
write `s.levels[level] = myLevelsArr[level+1] - 1` reads the already-updated
`level+1` entry. -/
def compressWhileUpdatingSketch {α : Type} [Inhabited α] (ops : ItemOps α)
    (s : ItemsSketch α) : Option (ItemsSketch α) := do
  let level ← findLevelToCompact s.k s.m s.numLevels s.levels
  let s ← (if level = s.numLevels - 1 then addEmptyTopLevelToCompletelyFullSketch s
           else some s)
  let rawBeg ← s.levels[level]?
  let rawEnd ← s.levels[level + 1]?
  let lvl2 ← s.levels[level + 2]?
  let popAbove := lvl2 - rawEnd
  let rawPop := rawEnd - rawBeg
  let oddPop := rawPop % 2 = 1
  let adjBeg := if oddPop then rawBeg + 1 else rawBeg
  let adjPop := if oddPop then rawPop - 1 else rawPop
  let halfAdjPop := adjPop / 2
  let myItemsArr := getTotalItemsArray s
  let myItemsArr ← (if level = 0 then sortRange ops.lt myItemsArr adjBeg adjPop
                    else some myItemsArr)
  let myItemsArr ←
    (if popAbove = 0 then randomlyHalveUpItems myItemsArr adjBeg adjPop
     else do
       let arr ← randomlyHalveDownItems myItemsArr adjBeg adjPop
       mergeSortedItemsArraysSelf ops.lt arr adjBeg halfAdjPop rawEnd popAbove
         (adjBeg + halfAdjPop))
  let newIndex := rawEnd - halfAdjPop
  let levels1 ← setO s.levels (level + 1) newIndex
  let (levels2, myItemsArr) ←
    (if oddPop then do
       let lv ← setO levels1 level (newIndex - 1)
       let leftover ← myItemsArr[rawBeg]?
       let arr ← setO myItemsArr (newIndex - 1) leftover
       some (lv, arr)
     else do
       let lv ← setO levels1 level newIndex
       some (lv, myItemsArr))
  let myItemsArr ←
    (if 0 < level then do
       let lv0 ← levels2[0]?
       let amount := rawBeg - lv0
       shiftRightLoop myItemsArr lv0 halfAdjPop amount
     else some myItemsArr)
  let levels3 ← bumpLoop halfAdjPop levels2 level
  some { s with levels := levels3, items := myItemsArr }

/-- kll/items_sketch.go `updateItem` (lines 528-553): min/max maintenance, a
compaction when level 0 has no free slot, then the item is written at
`levels[0] - 1`.  `internal.IsNil` items are ignored. -/
def updateItem {α : Type} [Inhabited α] (ops : ItemOps α) (s : ItemsSketch α)
    (item : α) : Option (ItemsSketch α) := do
  if ops.isNil item then some s else
  let s ←
    (if s.n = 0 then
       some { s with minItem := some item, maxItem := some item }
     else do
       let mi ← s.minItem
       let ma ← s.maxItem
       some { s with minItem := if ops.lt item mi then some item else some mi,
                     maxItem := if ops.lt ma item then some item else some ma })
  let level0space ← s.levels[0]?
  let (s, level0space) ←
    (if level0space = 0 then do
       let s ← compressWhileUpdatingSketch ops s
       let l0 ← s.levels[0]?
       some (s, l0)
     else some (s, level0space))
  let nextPos := level0space - 1
  let levels ← setO s.levels 0 nextPos
  let items ← setO s.items nextPos item
  some { s with n := s.n + 1, isLevelZeroSorted := false,
                levels := levels, items := items }

/-- kll/items_sketch.go `Update`: `updateItem` followed by clearing the cached
sorted view. -/
def update {α : Type} [Inhabited α] (ops : ItemOps α) (s : ItemsSketch α)
    (item : α) : Option (ItemsSketch α) :=
  (updateItem ops s item).map fun s => { s with sortedViewCached := false }

/-- Modelled from the spec: `currentLevelSizeItems` is not under src/; per §4.5c a
missing level contributes population 0, an existing level `levels[l+1]-levels[l]`. -/
def currentLevelSizeItems (lvl numLevels : ℕ) (levels : List ℕ) : Option ℕ :=
  if lvl ≥ numLevels then some 0
  else do
    let a ← levels[lvl]?
    let b ← levels[lvl + 1]?
    some (b - a)

/-- Modelled from the spec: `getNumRetainedAboveLevelZero` is not under src/; per
§4.5a it is `sum(levels[l+1]−levels[l] for l ≥ 1)`, i.e. (the levels array being
monotone) `levels[numLevels] - levels[1]`. -/
def getNumRetainedAboveLevelZero (numLevels : ℕ) (levels : List ℕ) : Option ℕ := do
  let a ← levels[1]?
  let b ← levels[numLevels]?
  some (b - a)

/-- Modelled from the spec: `ubOnNumLevels` is not under src/; §4.5b computes
`ub = upperBoundOnNumLevels(N_self + N_other)`, the DataSketches bound
`⌊log₂ n⌋ + 1`. -/
def ubOnNumLevels (n : ℕ) : ℕ :=
  Nat.log2 n + 1

def populateLoop {α : Type} (lt : α → α → Bool)
    (myCurNumLevels : ℕ) (myCurLevelsArr : List ℕ) (myCurItemsArr : List α)
    (otherNumLevels : ℕ) (otherLevelsArr : List ℕ) (otherItemsArr : List α) :
    List α → List ℕ → ℕ → ℕ → Option (List α × List ℕ)
  | workbuf, worklevels, _, 0 => some (workbuf, worklevels)
  | workbuf, worklevels, lvl, c + 1 => do
      let selfPop ← currentLevelSizeItems lvl myCurNumLevels myCurLevelsArr
      let otherPop ← currentLevelSizeItems lvl otherNumLevels otherLevelsArr
      let wl ← worklevels[lvl]?
      let worklevels ← setO worklevels (lvl + 1) (wl + selfPop + otherPop)
      let workbuf ←
        (if 0 < selfPop ∧ otherPop = 0 then do
           let src ← myCurLevelsArr[lvl]?
           copyLoop myCurItemsArr workbuf src wl selfPop
         else if selfPop = 0 ∧ 0 < otherPop then do
           let src ← otherLevelsArr[lvl]?
           copyLoop otherItemsArr workbuf src wl otherPop
         else if 0 < selfPop ∧ 0 < otherPop then do
           let sa ← myCurLevelsArr[lvl]?
           let sb ← otherLevelsArr[lvl]?
           mergeSortedItemsArraysGen lt myCurItemsArr sa selfPop
             otherItemsArr sb otherPop workbuf wl
         else some workbuf)
      populateLoop lt myCurNumLevels myCurLevelsArr myCurItemsArr otherNumLevels
        otherLevelsArr otherItemsArr workbuf worklevels (lvl + 1) c

/-- kll/items_sketch.go `populateItemWorkArrays` (lines 914-947): level 0 is self's
level 0 alone (the other's level 0 was already streamed through `update`);
higher levels are copied or merge-sorted into `workbuf`. -/
def populateItemWorkArrays {α : Type} (lt : α → α → Bool)
    (workbuf : List α) (worklevels : List ℕ) (provisionalNumLevels : ℕ)
    (myCurNumLevels : ℕ) (myCurLevelsArr : List ℕ) (myCurItemsArr : List α)
    (otherNumLevels : ℕ) (otherLevelsArr : List ℕ) (otherItemsArr : List α) :
    Option (List α × List ℕ) := do
  let worklevels ← setO worklevels 0 0
  let selfPopZero ← currentLevelSizeItems 0 myCurNumLevels myCurLevelsArr
  let src ← myCurLevelsArr[0]?
  let workbuf ← copyLoop myCurItemsArr workbuf src 0 selfPopZero
  let worklevels ← setO worklevels 1 selfPopZero
  populateLoop lt myCurNumLevels myCurLevelsArr myCurItemsArr otherNumLevels
    otherLevelsArr otherItemsArr workbuf worklevels 1 (provisionalNumLevels - 1)

def gcLoop {α : Type} [Inhabited α] (lt : α → α → Bool) (k m : ℕ)
    (isLevelZeroSorted : Bool) :
    ℕ → ℕ → ℕ → List α → List ℕ → List ℕ → ℕ → ℕ →
    Option (ℕ × ℕ × ℕ × List α × List ℕ × List ℕ)
  | _, _, _, _, _, _, _, 0 => none
  | nl, cur, tgt, buf, inL, outL, curLevel, fuel + 1 => do
      let inL ←
        (if curLevel = nl - 1 then do
           let v ← inL[curLevel + 1]?
           setO inL (curLevel + 2) v
         else some inL)
      let rawBeg ← inL[curLevel]?
      let rawLim ← inL[curLevel + 1]?
      let rawPop := rawLim - rawBeg
      let cap ← levelCapacity k nl curLevel m
      let outBase ← outL[curLevel]?
      if cur < tgt ∨ rawPop < cap then do
        let buf ← copySelfLoop buf rawBeg outBase rawPop
        let outL ← setO outL (curLevel + 1) (outBase + rawPop)
        if curLevel = nl - 1 then some (nl, tgt, cur, buf, inL, outL)
        else gcLoop lt k m isLevelZeroSorted nl cur tgt buf inL outL (curLevel + 1) fuel
      else do
        let lvl2 ← inL[curLevel + 2]?
        let popAbove := lvl2 - rawLim
        let oddPop := rawPop % 2 = 1
        let adjBeg := if oddPop then rawBeg + 1 else rawBeg
        let adjPop := if oddPop then rawPop - 1 else rawPop
        let halfAdjPop := adjPop / 2
        let (buf, outL) ←
          (if oddPop then do
             let v ← buf[rawBeg]?
             let buf ← setO buf outBase v
             let outL ← setO outL (curLevel + 1) (outBase + 1)
             some (buf, outL)
           else do
             let outL ← setO outL (curLevel + 1) outBase
             some (buf, outL))
        let buf ← (if curLevel = 0 ∧ ¬ isLevelZeroSorted then sortRange lt buf adjBeg adjPop
                   else some buf)
        let buf ←
          (if popAbove = 0 then randomlyHalveUpItems buf adjBeg adjPop
           else do
             let buf ← randomlyHalveDownItems buf adjBeg adjPop
             mergeSortedItemsArraysSelf lt buf adjBeg halfAdjPop rawLim popAbove
               (adjBeg + halfAdjPop))
        let cur := cur - halfAdjPop
        let inL ← setO inL (curLevel + 1) (rawLim - halfAdjPop)
        let (nl, tgt) ←
          (if curLevel = nl - 1 then do
             let newCap ← levelCapacity k (nl + 1) 0 m
             some (nl + 1, tgt + newCap)
           else some (nl, tgt))
        if curLevel = nl - 1 then some (nl, tgt, cur, buf, inL, outL)
        else gcLoop lt k m isLevelZeroSorted nl cur tgt buf inL outL (curLevel + 1) fuel

/-- kll/items_sketch.go `generalItemsCompress` (lines 949-1045) at its only call
site, where `inBuf` and `outBuf` are the same `workbuf` array: a single shared
buffer carries both roles.  Returns `(numLevels, targetItemCount,
currentItemCount)` together with the final buffer and both levels arrays.  The
fuel `inLevels.length + 1` exceeds the iterations the source can perform: each
iteration reads `inLevels[curLevel+1]`, which faults once `curLevel + 1`
reaches the array length. -/
def generalItemsCompress {α : Type} [Inhabited α] (lt : α → α → Bool)
    (k m numLevelsIn : ℕ) (buf : List α) (inLevels outLevels : List ℕ)
    (isLevelZeroSorted : Bool) :
    Option (ℕ × ℕ × ℕ × List α × List ℕ × List ℕ) := do
  let a ← inLevels[numLevelsIn]?
  let b ← inLevels[0]?
  let currentItemCount := a - b
  let targetItemCount ← computeTotalItemCapacity k m numLevelsIn
  let outLevels ← setO outLevels 0 0
  gcLoop lt k m isLevelZeroSorted numLevelsIn currentItemCount targetItemCount
    buf inLevels outLevels 0 (inLevels.length + 1)

def streamLoop {α : Type} [Inhabited α] (ops : ItemOps α) :
    ItemsSketch α → List α → ℕ → ℕ → Option (ItemsSketch α)
  | s, _, _, 0 => some s
  | s, src, idx, c + 1 => do
      let v ← src[idx]?
      let s ← updateItem ops s v
      streamLoop ops s src (idx + 1) c

def buildLevelsLoop (outlevels : List ℕ) (shift : ℕ) :
    ℕ → List ℕ → Option (List ℕ)
  | 0, dst => some dst
  | c + 1, dst => do
      let dst ← buildLevelsLoop outlevels shift c dst
      let v ← outlevels[c]?
      setO dst c (v + shift)

/-- kll/items_sketch.go `mergeItemsSketch` (lines 563-690): stream the other's
level-0 items through `updateItem`, then (when the other has higher levels)
populate a work buffer, run `generalItemsCompress` on it in place, and rebuild
the levels and items arrays with the free space at the bottom. -/
def mergeItemsSketch {α : Type} [Inhabited α] (ops : ItemOps α)
    (s other : ItemsSketch α) : Option (ItemsSketch α) := do
  if other.n = 0 then some s else
  let myEmpty := s.n = 0
  let myMinMax ←
    (if myEmpty then some none
     else do
       let mi ← s.minItem
       let ma ← s.maxItem
       some (some (mi, ma)))
  let myMinK := s.minK
  let finalN := s.n + other.n
  let otherNumLevels := other.numLevels
  let otherLevelsArr := other.levels
  let otherItemsArr := getTotalItemsArray other
  let lo ← otherLevelsArr[0]?
  let hi ← otherLevelsArr[1]?
  let s ← streamLoop ops s otherItemsArr lo (hi - lo)
  let myCurNumLevels := s.numLevels
  let myCurLevelsArr := s.levels
  let myCurItemsArr := getTotalItemsArray s
  let (myNewNumLevels, myNewLevelsArr, myNewItemsArr) ←
    (if 1 < otherNumLevels then do
      let aboveZero ← getNumRetainedAboveLevelZero otherNumLevels otherLevelsArr
      let ra ← myCurLevelsArr[myCurNumLevels]?
      let rb ← myCurLevelsArr[0]?
      let tmpSpaceNeeded := (ra - rb) + aboveZero
      let workbuf := List.replicate tmpSpaceNeeded (default : α)
      let ub := ubOnNumLevels finalN
      let worklevels := List.replicate (ub + 2) (0 : ℕ)
      let outlevels := List.replicate (ub + 2) (0 : ℕ)
      let provisionalNumLevels := max myCurNumLevels otherNumLevels
      let (workbuf, worklevels) ← populateItemWorkArrays ops.lt workbuf worklevels
        provisionalNumLevels myCurNumLevels myCurLevelsArr myCurItemsArr
        otherNumLevels otherLevelsArr otherItemsArr
      let (resNl, resTgt, resCur, workbuf, _inL, outlevels) ←
        generalItemsCompress ops.lt s.k s.m provisionalNumLevels workbuf worklevels
          outlevels s.isLevelZeroSorted
      let myNewNumLevels := resNl
      let targetItemCount := resTgt
      let curItemCount := resCur
      let myNewItemsArr0 :=
        if targetItemCount = myCurItemsArr.length then myCurItemsArr
        else List.replicate targetItemCount (default : α)
      let freeSpaceAtBottom := targetItemCount - curItemCount
      let ol0 ← outlevels[0]?
      let myNewItemsArr ← copyLoop workbuf myNewItemsArr0 ol0 freeSpaceAtBottom curItemCount
      let theShift := freeSpaceAtBottom - ol0
      let finalLevelsArrLen :=
        if myCurLevelsArr.length < myNewNumLevels + 1 then myNewNumLevels + 1
        else myCurLevelsArr.length
      let myNewLevelsArr ← buildLevelsLoop outlevels theShift (myNewNumLevels + 1)
        (List.replicate finalLevelsArrLen 0)
      some (myNewNumLevels, myNewLevelsArr, myNewItemsArr)
     else some (myCurNumLevels, myCurLevelsArr, myCurItemsArr))
  let minK := if 1 < otherNumLevels then min myMinK other.minK else myMinK
  let (newMin, newMax) ←
    (if myEmpty then some (other.minItem, other.maxItem)
     else
       match myMinMax with
       | some (myMin, myMax) => do
           let omin ← other.minItem
           let omax ← other.maxItem
           some (if ops.lt myMin omin then some myMin else some omin,
                 if ops.lt omax myMax then some myMax else some omax)
       | none => none)
  some { s with n := finalN, minK := minK, numLevels := myNewNumLevels,
                levels := myNewLevelsArr, items := myNewItemsArr,
                minItem := newMin, maxItem := newMax }

/-- kll/items_sketch.go `Merge`: no-op on an empty argument, otherwise
`mergeItemsSketch` followed by clearing the cached sorted view. -/
def mergeSketch {α : Type} [Inhabited α] (ops : ItemOps α)
    (s other : ItemsSketch α) : Option (ItemsSketch α) :=
  if other.n = 0 then some s
  else (mergeItemsSketch ops s other).map fun s => { s with sortedViewCached := false }

/-- States reachable from a fresh sketch by any sequence of updates and merges
(merging another reachable sketch), spec §8 quantification. -/
inductive Reachable {α : Type} [Inhabited α] (ops : ItemOps α) : ItemsSketch α → Prop
  | new (k : ℕ) (s : ItemsSketch α) : newItemsSketch α k = some s → Reachable ops s
  | update (s s' : ItemsSketch α) (item : α) : Reachable ops s →
      update ops s item = some s' → Reachable ops s'
  | merge (s other s' : ItemsSketch α) : Reachable ops s → Reachable ops other →
      mergeSketch ops s other = some s' → Reachable ops s'

/-- Weight of the levels `[lo, hi)` of a levels array: level `l` holds
`levels[l+1] - levels[l]` items of weight `2^l` each. -/
def segWeight (levels : List ℕ) (lo hi : ℕ) : ℕ :=
  ∑ l ∈ Finset.Ico lo hi, 2 ^ l * (levels.getD (l + 1) 0 - levels.getD l 0)

/-- Total weight of the retained items: each item of level `l` (the run
`[levels[l], levels[l+1])`) weighs `2^l` (spec invariant 7). -/
def levelsWeight (numLevels : ℕ) (levels : List ℕ) : ℕ :=
  segWeight levels 0 numLevels

/-- The inductive well-formedness invariant of a reachable items sketch: fixed
`m = 8`, `k` in range, minimal levels array of length `numLevels + 1`, monotone
level boundaries, top boundary = buffer length, total retained weight = `n`, a
level count justified by `n`, and the fixed shapes of the empty and the
single-item states. -/
structure Inv {α : Type} (s : ItemsSketch α) : Prop where
  hm : s.m = 8
  hkLo : 8 ≤ s.k
  hkHi : s.k ≤ 65535
  hminK : s.minK ≤ s.k
  hnl : 1 ≤ s.numLevels
  hlen : s.levels.length = s.numLevels + 1
  hmono : ∀ i, i < s.numLevels → s.levels.getD i 0 ≤ s.levels.getD (i + 1) 0
  hitems : s.items.length = s.levels.getD s.numLevels 0
  hweight : levelsWeight s.numLevels s.levels = s.n
  hJ : s.numLevels = 1 ∨ 2 ^ (s.numLevels + 1) ≤ s.n
  hminmax : s.n ≠ 0 → (∃ a, s.minItem = some a) ∧ (∃ b, s.maxItem = some b)
  hn0 : s.n = 0 → s.levels = [s.k, s.k] ∧ s.minK = s.k ∧ s.minItem = none ∧
    s.maxItem = none
  hn1 : s.n = 1 → s.levels = [s.k - 1, s.k] ∧ s.minK = s.k ∧
    ∃ it, s.minItem = some it ∧ s.maxItem = some it ∧ s.items[s.k - 1]? = some it

/-! ### Quantile-domain query guards (kll/items_sketch.go 175-314)

Each query first rejects an empty sketch (and `GetQuantile` additionally a
normalized rank outside [0,1]) before touching the sorted view; the sorted-view
construction itself (`newItemsSketchSortedView`, not under src/) is represented
by the outcome `fromSortedView` together with the state mutation
`sortedViewCached := true` performed by `setupSortedView`.  Normalized ranks
are exact rationals (only comparisons occur on the guard paths). -/
inductive QueryOut where
  | err
  | fromSortedView
  deriving DecidableEq

/-- kll/items_sketch.go `GetMinItem`: error on empty, else the stored minimum. -/
def getMinItemQ {α : Type} (s : ItemsSketch α) : Option α :=
  if s.n = 0 then none else s.minItem

/-- kll/items_sketch.go `GetMaxItem`. -/
def getMaxItemQ {α : Type} (s : ItemsSketch α) : Option α :=
  if s.n = 0 then none else s.maxItem

/-- kll/items_sketch.go `GetRank`. -/
def getRankQ {α : Type} (s : ItemsSketch α) (_item : α) : QueryOut × ItemsSketch α :=
  if s.n = 0 then (.err, s) else (.fromSortedView, { s with sortedViewCached := true })

/-- kll/items_sketch.go `GetRanks`. -/
def getRanksQ {α : Type} (s : ItemsSketch α) (_items : List α) : QueryOut × ItemsSketch α :=
  if s.n = 0 then (.err, s) else (.fromSortedView, { s with sortedViewCached := true })

/-- kll/items_sketch.go `GetQuantile`: empty check, then the rank-range check,
then the sorted view. -/
def getQuantileQ {α : Type} (s : ItemsSketch α) (rank : ℚ) : QueryOut × ItemsSketch α :=
  if s.n = 0 then (.err, s)
  else if rank < 0 ∨ 1 < rank then (.err, s)
  else (.fromSortedView, { s with sortedViewCached := true })

/-- kll/items_sketch.go `GetQuantiles`. -/
def getQuantilesQ {α : Type} (s : ItemsSketch α) (_ranks : List ℚ) :
    QueryOut × ItemsSketch α :=
  if s.n = 0 then (.err, s) else (.fromSortedView, { s with sortedViewCached := true })

/-- kll/items_sketch.go `GetPMF`. -/
def getPMFQ {α : Type} (s : ItemsSketch α) (_splitPoints : List α) :
    QueryOut × ItemsSketch α :=
  if s.n = 0 then (.err, s) else (.fromSortedView, { s with sortedViewCached := true })

/-- kll/items_sketch.go `GetCDF`. -/
def getCDFQ {α : Type} (s : ItemsSketch α) (_splitPoints : List α) :
    QueryOut × ItemsSketch α :=
  if s.n = 0 then (.err, s) else (.fromSortedView, { s with sortedViewCached := true })

/-- kll/items_sketch.go `GetPartitionBoundaries`. -/
def getPartitionBoundariesQ {α : Type} (s : ItemsSketch α) (_numEquallySized : ℕ) :
    QueryOut × ItemsSketch α :=
  if s.n = 0 then (.err, s) else (.fromSortedView, { s with sortedViewCached := true })

/-- kll/items_sketch.go `GetSortedView`. -/
def getSortedViewQ {α : Type} (s : ItemsSketch α) : QueryOut × ItemsSketch α :=
  if s.n = 0 then (.err, s) else (.fromSortedView, { s with sortedViewCached := true })

/-! ### Serialization (kll/items_sketch.go 332-515, kll/preamble_utils.go)

Byte arrays are `List ℕ` with little-endian multi-byte fields.  Layout
constants missing from src/ are taken from spec §6.2: data start 20
(compact-full), single-item data start 8, `N` at 8..16, `minK` at 16..18,
`numLevels` at byte 18, family id 15, flag bits 1/2/4/8. -/
inductive SkStruct where
  | compactEmpty
  | compactSingle
  | compactFull
  deriving DecidableEq

/-- Preamble ints per structure (spec §6.2: 2/2/5). -/
def structPreInts : SkStruct → ℕ
  | .compactEmpty => 2
  | .compactSingle => 2
  | .compactFull => 5

/-- Serial version per structure (spec §6.2: 1 for empty/full, 2 for single). -/
def structSerVer : SkStruct → ℕ
  | .compactEmpty => 1
  | .compactSingle => 2
  | .compactFull => 1

def putU16 (v : ℕ) : List ℕ := [v % 256, v / 256 % 256]

def putU32 (v : ℕ) : List ℕ :=
  [v % 256, v / 256 % 256, v / 256 ^ 2 % 256, v / 256 ^ 3 % 256]

def putU64 (v : ℕ) : List ℕ :=
  [v % 256, v / 256 % 256, v / 256 ^ 2 % 256, v / 256 ^ 3 % 256,
   v / 256 ^ 4 % 256, v / 256 ^ 5 % 256, v / 256 ^ 6 % 256, v / 256 ^ 7 % 256]

def readU16 (b : List ℕ) (off : ℕ) : Option ℕ := do
  let b0 ← b[off]?
  let b1 ← b[off + 1]?
  some (b0 + 256 * b1)

def readU32 (b : List ℕ) (off : ℕ) : Option ℕ := do
  let b0 ← b[off]?
  let b1 ← b[off + 1]?
  let b2 ← b[off + 2]?
  let b3 ← b[off + 3]?
  some (b0 + 256 * b1 + 256 ^ 2 * b2 + 256 ^ 3 * b3)

def readU64 (b : List ℕ) (off : ℕ) : Option ℕ := do
  let b0 ← b[off]?
  let b1 ← b[off + 1]?
  let b2 ← b[off + 2]?
  let b3 ← b[off + 3]?
  let b4 ← b[off + 4]?
  let b5 ← b[off + 5]?
  let b6 ← b[off + 6]?
  let b7 ← b[off + 7]?
  some (b0 + 256 * b1 + 256 ^ 2 * b2 + 256 ^ 3 * b3 + 256 ^ 4 * b4 +
        256 ^ 5 * b5 + 256 ^ 6 * b6 + 256 ^ 7 * b7)

/-- Go `copy(buf[off:], src)`: copies `min(len(src), len(buf)-off)` bytes,
truncating silently. -/
def writeAt (buf : List ℕ) (off : ℕ) (src : List ℕ) : List ℕ :=
  let cnt := min src.length (buf.length - off)
  buf.take off ++ src.take cnt ++ buf.drop (off + cnt)

/-- Go `binary.LittleEndian.PutUintXX(buf[off:...], v)` and direct byte
assignments: panic when the destination is too short. -/
def putAtChecked (buf : List ℕ) (off : ℕ) (src : List ℕ) : Option (List ℕ) :=
  if off + src.length ≤ buf.length then some (writeAt buf off src) else none

/-- kll/items_sketch.go `getSingleItem`: the single retained item sits at
`items[k-1]`. -/
def getSingleItem {α : Type} (s : ItemsSketch α) : Option α :=
  if s.n ≠ 1 then none
  else s.items[s.k - 1]?

/-- kll/items_sketch.go `currentSerializedSizeBytes` (lines 418-443): 8 bytes for
empty; `8 + sizeOf(item) + 4` for single (`unsafe.Sizeof(uint32)` padding);
`20 + (len(levels)-1)*4 + minMax + retained` for full. -/
def currentSerializedSizeBytes {α : Type} [Inhabited α] (ops : ItemOps α)
    (s : ItemsSketch α) : Option ℕ :=
  if s.n = 0 then some 8
  else if s.n = 1 then do
    let it ← getSingleItem s
    some (8 + (ops.sizeOf it + 4))
  else do
    let mi ← s.minItem
    let ma ← s.maxItem
    some (20 + (s.levels.length - 1) * 4 + (ops.sizeOf mi + ops.sizeOf ma) +
          (ops.serializeMany (getRetainedItemsArray s)).length)

/-- Write loop for the levels entries: entry `i < numLevels` at offset
`20 + i*4`; the multiplication `i*4` is `uint8` arithmetic in the source
(`_DATA_START_ADR + i*4`), hence the `% 256`. -/
def levelsWriteLoop (levels : List ℕ) : List ℕ → ℕ → Option (List ℕ)
  | bytes, 0 => some bytes
  | bytes, c + 1 => do
      let bytes ← levelsWriteLoop levels bytes c
      let v ← levels[c]?
      putAtChecked bytes (20 + c * 4 % 256) (putU32 v)

/-- kll/items_sketch.go `ToSlice` (lines 332-404).  The preamble is written into a
zeroed `totalBytes` buffer; the empty form stops after the 8 preamble bytes;
the single form appends the serialized item via `copy`; the full form writes
`n`, `minK`, `numLevels`, the first `numLevels` level entries (the top entry is
implicit), then min and max and the retained items in logical order.  The
min/max offset `_DATA_START_ADR + numLevels*4` is `uint8` arithmetic, the
retained-items offset `_DATA_START_ADR + int(numLevels*4) + len(minMax)`
converts to `int` only after the `uint8` multiply. -/
def toSlice {α : Type} [Inhabited α] (ops : ItemOps α) (s : ItemsSketch α) :
    Option (List ℕ) := do
  let tgt : SkStruct :=
    if s.n = 0 then .compactEmpty else if s.n = 1 then .compactSingle else .compactFull
  let totalBytes ← currentSerializedSizeBytes ops s
  let bytesOut := List.replicate totalBytes 0
  let flags := (if s.n = 0 then 1 else 0) + (if s.isLevelZeroSorted then 2 else 0) +
               (if s.n = 1 then 4 else 0)
  let header := [structPreInts tgt, structSerVer tgt, 15, flags] ++
                putU16 s.k ++ [s.m % 256]
  let bytesOut ← putAtChecked bytesOut 0 header
  match tgt with
  | .compactEmpty => some bytesOut
  | .compactSingle => do
      let it ← getSingleItem s
      some (writeAt bytesOut 8 (ops.serializeOne it))
  | .compactFull => do
      let bytesOut ← putAtChecked bytesOut 8 (putU64 s.n)
      let bytesOut ← putAtChecked bytesOut 16 (putU16 s.minK)
      let bytesOut ← putAtChecked bytesOut 18 [s.numLevels % 256]
      let bytesOut ← levelsWriteLoop s.levels bytesOut (s.numLevels % 256)
      let mi ← s.minItem
      let ma ← s.maxItem
      let minMax := ops.serializeOne mi ++ ops.serializeOne ma
      let bytesOut := writeAt bytesOut (20 + s.numLevels % 256 * 4 % 256) minMax
      some (writeAt bytesOut (20 + s.numLevels % 256 * 4 % 256 + minMax.length)
        (ops.serializeMany (getRetainedItemsArray s)))

/-- Outcome of the spec-modelled memory validation. -/
structure MemVal where
  k : ℕ
  m : ℕ
  n : ℕ
  minK : ℕ
  numLevels : ℕ
  level0SortedFlag : Bool
  sketchStructure : SkStruct
  levelsArr : List ℕ

/-- Read loop for the serialized levels entries (offsets mirror
`levelsWriteLoop`). -/
def levelsReadLoop (bytes : List ℕ) : ℕ → Option (List ℕ)
  | 0 => some []
  | c + 1 => do
      let pre ← levelsReadLoop bytes c
      let v ← readU32 bytes (20 + c * 4 % 256)
      some (pre ++ [v])

/-- Modelled from the spec: `newItemsSketchMemoryValidate` is not under src/.
Per §6.2 and §4.8 it validates the 8-byte preamble (family id 15, the
preambleInts/serialVersion/flag combinations of the three compact forms) and
extracts the sketch fields: compact-empty yields the fresh-sketch fields
(`n = 0`, `minK = k`, one level, levels `[k, k]`); compact-single yields
`n = 1`, `minK = k`, levels `[k-1, k]` with the item at offset 8; compact-full
reads `n` (8..16), `minK` (16..18), `numLevels` (byte 18) and the first
`numLevels` levels entries from offset 20, the implicit top entry being the
total item capacity for `(k, m, numLevels)`.  The updatable form is not
produced by `ToSlice` and is rejected here. -/
def newItemsSketchMemoryValidate (bytes : List ℕ) : Option MemVal := do
  let preInts ← bytes[0]?
  let serVer ← bytes[1]?
  let famId ← bytes[2]?
  let flags ← bytes[3]?
  let k ← readU16 bytes 4
  let m ← bytes[6]?
  if famId ≠ 15 then none else
  let emptyFlag := flags % 2 = 1
  let level0Sorted := flags / 2 % 2 = 1
  let singleFlag := flags / 4 % 2 = 1
  let updatableFlag := flags / 8 % 2 = 1
  if updatableFlag then none else
  if preInts = 2 ∧ serVer = 1 ∧ emptyFlag then
    some ⟨k, m, 0, k, 1, level0Sorted, .compactEmpty, [k, k]⟩
  else if preInts = 2 ∧ serVer = 2 ∧ singleFlag then
    some ⟨k, m, 1, k, 1, level0Sorted, .compactSingle, [k - 1, k]⟩
  else if preInts = 5 ∧ serVer = 1 ∧ ¬ emptyFlag ∧ ¬ singleFlag then do
    let n ← readU64 bytes 8
    let minK ← readU16 bytes 16
    let numLevels ← bytes[18]?
    let lvls ← levelsReadLoop bytes numLevels
    let cap ← computeTotalItemCapacity k m numLevels
    some ⟨k, m, n, minK, numLevels, level0Sorted, .compactFull, lvls ++ [cap]⟩
  else none

/-- kll/items_sketch.go `NewItemsSketchFromSlice` (lines 86-157): validate, then
build the sketch.  Empty: fresh `k`-buffer, no min/max.  Single: the item is
deserialized from offset 8 and placed at `items[k-1]`.  Full: min, max and the
retained items are deserialized in sequence after the levels entries (the
min→max and max→items offsets advance by `sizeOf` of the just-read items) and
the retained items are placed from `levels[0]`. -/
def newItemsSketchFromSlice {α : Type} [Inhabited α] (ops : ItemOps α)
    (bytes : List ℕ) : Option (ItemsSketch α) := do
  let memVal ← newItemsSketchMemoryValidate bytes
  let capTop ← memVal.levelsArr[memVal.numLevels]?
  match memVal.sketchStructure with
  | .compactEmpty =>
      some ⟨memVal.k, memVal.m, memVal.minK, memVal.numLevels,
            memVal.level0SortedFlag, memVal.n, memVal.levelsArr,
            List.replicate memVal.k default, none, none, false⟩
  | .compactSingle => do
      let deserItems ← ops.deserialize bytes 8 1
      let it ← deserItems[0]?
      let items ← setO (List.replicate memVal.k (default : α)) (memVal.k - 1) it
      some ⟨memVal.k, memVal.m, memVal.minK, memVal.numLevels,
            memVal.level0SortedFlag, memVal.n, memVal.levelsArr,
            items, some it, some it, false⟩
  | .compactFull => do
      let off0 := 20 + memVal.numLevels * 4 % 256
      let dmin ← ops.deserialize bytes off0 1
      let mi ← dmin[0]?
      let off1 := off0 + ops.sizeOf mi
      let dmax ← ops.deserialize bytes off1 1
      let ma ← dmax[0]?
      let off2 := off1 + ops.sizeOf ma
      let lv0 ← memVal.levelsArr[0]?
      let numRetained := capTop - lv0
      let deser ← ops.deserialize bytes off2 numRetained
      let items ← copyLoop deser (List.replicate capTop (default : α)) 0 lv0 numRetained
      some ⟨memVal.k, memVal.m, memVal.minK, memVal.numLevels,
            memVal.level0SortedFlag, memVal.n, memVal.levelsArr,
            items, some mi, some ma, false⟩

/-- Pure two-way merge characterizing the in-place merge loop: picks from the
first run exactly when `lt a b` holds (ties go to the second run), as the
source comparison does. -/
def mergeLists {α : Type} (lt : α → α → Bool) : List α → List α → List α
  | [], ys => ys
  | x :: xs, [] => x :: xs
  | x :: xs, y :: ys =>
      if lt x y then x :: mergeLists lt xs (y :: ys) else y :: mergeLists lt (x :: xs) ys

/-- A run is sorted ascending for the strict-less comparator `lt` when no
adjacent pair is inverted. -/
def sortedRun {α : Type} (lt : α → α → Bool) (l : List α) : Prop :=
  l.Chain' fun a b => lt b a = false

/-- Comparison/serde operations on ℕ used by the concrete witnesses: strict
less-than, no nil values, one byte per item. -/
def natItemOps : ItemOps ℕ where
  lt := fun a b => decide (a < b)
  isNil := fun _ => false
  serializeOne := fun a => [a]
  serializeMany := fun l => l
  sizeOf := fun _ => 1
  deserialize := fun bytes off cnt => some ((bytes.drop off).take cnt)

/-- The fresh `k = 8` sketch, as produced by `newItemsSketch ℕ 8`. -/
def c3Sketch0 : ItemsSketch ℕ :=
  ⟨8, 8, 8, 1, false, 0, [8, 8], List.replicate 8 0, none, none, false⟩

/-- The sketch after updating the fresh `k = 8` sketch with the item 5. -/
def c3Sketch1 : ItemsSketch ℕ :=
  ⟨8, 8, 8, 1, false, 1, [7, 8], [0, 0, 0, 0, 0, 0, 0, 5], some 5, some 5, false⟩

/-- Fresh `k = 50000` sketch, as produced by `newItemsSketch ℕ 50000` (C1). -/
def c1Sketch0 : ItemsSketch ℕ :=
  ⟨50000, 8, 50000, 1, false, 0, [50000, 50000], List.replicate 50000 0, none, none, false⟩

/-- The `k = 50000` sketch after updating with the item 1 (C1). -/
def c1Sketch1 : ItemsSketch ℕ :=
  ⟨50000, 8, 50000, 1, false, 1, [49999, 50000],
   (List.replicate 50000 0).set 49999 1, some 1, some 1, false⟩

/-- The `k = 50000` sketch after updating with 1 and then 2 (C1). -/
def c1Sketch2 : ItemsSketch ℕ :=
  ⟨50000, 8, 50000, 1, false, 2, [49998, 50000],
   ((List.replicate 50000 0).set 49999 1).set 49998 2, some 1, some 2, false⟩

/-- The bytes `ToSlice` produces for `c1Sketch2` (compact-full form: preamble,
`n = 2`, `minK = 50000`, `numLevels = 1`, the single levels entry 49998, min 1,
max 2 and the retained items 2, 1 — the top levels entry 50000 is omitted). -/
def c1Bytes : List ℕ :=
  [5, 1, 15, 0, 80, 195, 8, 0,
   2, 0, 0, 0, 0, 0, 0, 0,
   80, 195, 1, 0,
   78, 195, 0, 0,
   1, 2, 2, 1]

/-- The sketch `NewItemsSketchFromSlice` builds back from `c1Bytes`: the omitted
top levels entry is recomputed as the total item capacity, which the
uint16-wrapping `intCapAux` puts at 17232 instead of 50000 (C1). -/
def c1RoundTrip : ItemsSketch ℕ :=
  ⟨50000, 8, 50000, 1, false, 2, [49998, 17232], List.replicate 17232 0,
   some 1, some 2, false⟩

/-! ## Theorems -/

/-! ### Arithmetic and list helpers for the weight invariant (C3, C1) -/

theorem getD_of_getElem? {α : Type} {l : List α} {i : ℕ} {v : α} (d : α)
    (h : l[i]? = some v) : l.getD i d = v := by
  rw [List.getD_eq_getElem?_getD, h]
  rfl

theorem getElem?_some_of_lt {α : Type} [Inhabited α] {l : List α} {i : ℕ}
    (h : i < l.length) : l[i]? = some (l.getD i default) := by
  rw [List.getElem?_eq_getElem h, List.getD_eq_getElem?_getD,
      List.getElem?_eq_getElem h]
  rfl

theorem lt_length_of_getElem? {α : Type} {l : List α} {i : ℕ} {v : α}
    (h : l[i]? = some v) : i < l.length :=
  List.getElem?_eq_some_iff.mp h |>.1

theorem getD_set_self {α : Type} {l : List α} {i : ℕ} (d a : α) (h : i < l.length) :
    (l.set i a).getD i d = a := by
  rw [List.getD_eq_getElem?_getD, List.getElem?_set_self' ]
  rw [List.getElem?_eq_getElem h]
  rfl

theorem getD_set_ne {α : Type} {l : List α} {i j : ℕ} (d a : α) (h : i ≠ j) :
    (l.set i a).getD j d = l.getD j d := by
  rw [List.getD_eq_getElem?_getD, List.getElem?_set_ne h, ← List.getD_eq_getElem?_getD]

theorem setO_eq_some {α : Type} {l : List α} {i : ℕ} {a : α} {out : List α}
    (h : setO l i a = some out) : i < l.length ∧ out = l.set i a := by
  unfold setO at h
  split at h
  · exact ⟨by assumption, (Option.some.inj h).symm⟩
  · simp at h

theorem segWeight_congr {A B : List ℕ} {lo hi : ℕ}
    (h : ∀ l, lo ≤ l → l ≤ hi → A.getD l 0 = B.getD l 0) :
    segWeight A lo hi = segWeight B lo hi := by
  unfold segWeight
  refine Finset.sum_congr rfl ?_
  intro l hl
  rw [Finset.mem_Ico] at hl
  rw [h l hl.1 (by omega), h (l + 1) (by omega) (by omega)]

theorem segWeight_split (lv : List ℕ) {lo mid hi : ℕ} (h1 : lo ≤ mid) (h2 : mid ≤ hi) :
    segWeight lv lo hi = segWeight lv lo mid + segWeight lv mid hi := by
  unfold segWeight
  rw [Finset.sum_Ico_consecutive _ h1 h2]

theorem segWeight_single (lv : List ℕ) (l : ℕ) :
    segWeight lv l (l + 1) = 2 ^ l * (lv.getD (l + 1) 0 - lv.getD l 0) := by
  unfold segWeight
  rw [Finset.sum_Ico_succ_top le_rfl, Finset.Ico_self, Finset.sum_empty, zero_add]

theorem segWeight_self (lv : List ℕ) (l : ℕ) : segWeight lv l l = 0 := by
  unfold segWeight
  rw [Finset.Ico_self, Finset.sum_empty]

theorem segWeight_term_le {lv : List ℕ} {lo hi l : ℕ} (h1 : lo ≤ l) (h2 : l < hi) :
    2 ^ l * (lv.getD (l + 1) 0 - lv.getD l 0) ≤ segWeight lv lo hi := by
  unfold segWeight
  exact Finset.single_le_sum
    (f := fun l => 2 ^ l * (lv.getD (l + 1) 0 - lv.getD l 0))
    (fun i _ => Nat.zero_le _) (Finset.mem_Ico.mpr ⟨h1, h2⟩)

theorem mono_seg_le {lv : List ℕ} {lo hi : ℕ}
    (hm : ∀ j, lo ≤ j → j < hi → lv.getD j 0 ≤ lv.getD (j + 1) 0) :
    ∀ i j, lo ≤ i → i ≤ j → j ≤ hi → lv.getD i 0 ≤ lv.getD j 0 := by
  intro i j hloi hij hjhi
  induction j, hij using Nat.le_induction with
  | base => exact le_rfl
  | succ j hij ih =>
      exact le_trans (ih (by omega)) (hm j (by omega) (by omega))

theorem bumpLoop_spec (add : ℕ) :
    ∀ (cnt : ℕ) (l out : List ℕ), bumpLoop add l cnt = some out →
      cnt ≤ l.length ∧ out.length = l.length ∧
      ∀ i, out.getD i 0 = if i < cnt then l.getD i 0 + add else l.getD i 0
  | 0, l, out, h => by
      rw [bumpLoop] at h
      cases h
      exact ⟨Nat.zero_le _, rfl, fun i => by simp⟩
  | c + 1, l, out, h => by
      rw [bumpLoop] at h
      simp only [Option.bind_eq_bind, Option.bind_eq_some] at h
      obtain ⟨arr, harr, v, hv, hset⟩ := h
      obtain ⟨hc, hlen, hget⟩ := bumpLoop_spec add c l arr harr
      obtain ⟨hc2, hout⟩ := setO_eq_some hset
      subst hout
      have hvv : arr.getD c 0 = v := getD_of_getElem? 0 hv
      refine ⟨by omega, by simp [hlen], fun i => ?_⟩
      by_cases hic : i = c
      · subst hic
        rw [getD_set_self 0 _ hc2, if_pos (by omega)]
        rw [← hvv, hget i, if_neg (by omega)]
      · rw [getD_set_ne 0 _ (Ne.symm hic), hget i]
        by_cases hlt : i < c
        · rw [if_pos hlt, if_pos (by omega)]
        · rw [if_neg hlt, if_neg (by omega)]

theorem copyLoop_spec {α : Type} (src : List α) :
    ∀ (cnt : ℕ) (dst out : List α) (sOff dOff : ℕ),
      copyLoop src dst sOff dOff cnt = some out →
      out.length = dst.length ∧ (cnt = 0 ∨ (sOff + cnt ≤ src.length ∧ dOff + cnt ≤ dst.length))
  | 0, dst, out, sOff, dOff, h => by
      rw [copyLoop] at h
      cases h
      exact ⟨rfl, Or.inl rfl⟩
  | c + 1, dst, out, sOff, dOff, h => by
      rw [copyLoop] at h
      simp only [Option.bind_eq_bind, Option.bind_eq_some] at h
      obtain ⟨mid, hmid, v, hv, hset⟩ := h
      obtain ⟨hlen, hbound⟩ := copyLoop_spec src c dst mid sOff dOff hmid
      obtain ⟨hc2, hout⟩ := setO_eq_some hset
      subst hout
      have h1 : sOff + c < src.length := lt_length_of_getElem? hv
      refine ⟨by simp [hlen], Or.inr ⟨by omega, by omega⟩⟩

theorem copySelfLoop_length {α : Type} :
    ∀ (cnt : ℕ) (buf out : List α) (sOff dOff : ℕ),
      copySelfLoop buf sOff dOff cnt = some out → out.length = buf.length
  | 0, buf, out, sOff, dOff, h => by rw [copySelfLoop] at h; cases h; rfl
  | c + 1, buf, out, sOff, dOff, h => by
      rw [copySelfLoop] at h
      simp only [Option.bind_eq_bind, Option.bind_eq_some] at h
      obtain ⟨mid, hmid, v, _hv, hset⟩ := h
      obtain ⟨_, hout⟩ := setO_eq_some hset
      subst hout
      simpa using copySelfLoop_length c buf mid sOff dOff hmid

theorem halveDownLoop_length {α : Type} :
    ∀ (cnt : ℕ) (buf out : List α) (i j : ℕ),
      halveDownLoop buf i j cnt = some out → out.length = buf.length
  | 0, buf, out, i, j, h => by rw [halveDownLoop] at h; cases h; rfl
  | c + 1, buf, out, i, j, h => by
      rw [halveDownLoop] at h
      simp only [Option.bind_eq_bind, Option.bind_eq_some] at h
      obtain ⟨v, _hv, mid, hset, hrec⟩ := h
      obtain ⟨_, hmid⟩ := setO_eq_some hset
      subst hmid
      simpa using halveDownLoop_length c _ out _ _ hrec

theorem halveUpLoop_length {α : Type} :
    ∀ (cnt : ℕ) (buf out : List α) (i j : ℕ),
      halveUpLoop buf i j cnt = some out → out.length = buf.length
  | 0, buf, out, i, j, h => by rw [halveUpLoop] at h; cases h; rfl
  | c + 1, buf, out, i, j, h => by
      rw [halveUpLoop] at h
      simp only [Option.bind_eq_bind, Option.bind_eq_some] at h
      obtain ⟨v, _hv, mid, hset, hrec⟩ := h
      obtain ⟨_, hmid⟩ := setO_eq_some hset
      subst hmid
      simpa using halveUpLoop_length c _ out _ _ hrec

theorem randomlyHalveDownItems_length {α : Type} {buf out : List α} {start length : ℕ}
    (h : randomlyHalveDownItems buf start length = some out) : out.length = buf.length :=
  halveDownLoop_length _ buf out _ _ h

theorem randomlyHalveUpItems_length {α : Type} {buf out : List α} {start length : ℕ}
    (h : randomlyHalveUpItems buf start length = some out) : out.length = buf.length :=
  halveUpLoop_length _ buf out _ _ h

theorem mergeSelfLoop_length {α : Type} (lt : α → α → Bool) :
    ∀ (fuel : ℕ) (buf out : List α) (a limA b limB c : ℕ),
      mergeSelfLoop lt buf a limA b limB c fuel = some out → out.length = buf.length
  | 0, buf, out, a, limA, b, limB, c, h => by rw [mergeSelfLoop] at h; cases h; rfl
  | fuel + 1, buf, out, a, limA, b, limB, c, h => by
      rw [mergeSelfLoop] at h
      split at h
      · simp only [Option.bind_eq_bind, Option.bind_eq_some] at h
        obtain ⟨v, _hv, mid, hset, hrec⟩ := h
        obtain ⟨_, hmid⟩ := setO_eq_some hset
        subst hmid
        simpa using mergeSelfLoop_length lt fuel _ out _ _ _ _ _ hrec
      · split at h
        · simp only [Option.bind_eq_bind, Option.bind_eq_some] at h
          obtain ⟨v, _hv, mid, hset, hrec⟩ := h
          obtain ⟨_, hmid⟩ := setO_eq_some hset
          subst hmid
          simpa using mergeSelfLoop_length lt fuel _ out _ _ _ _ _ hrec
        · simp only [Option.bind_eq_bind, Option.bind_eq_some] at h
          obtain ⟨va, _hva, vb, _hvb, h⟩ := h
          split at h <;>
          · simp only [Option.bind_eq_bind, Option.bind_eq_some] at h
            obtain ⟨mid, hset, hrec⟩ := h
            obtain ⟨_, hmid⟩ := setO_eq_some hset
            subst hmid
            simpa using mergeSelfLoop_length lt fuel _ out _ _ _ _ _ hrec

theorem mergeSortedItemsArraysSelf_length {α : Type} {lt : α → α → Bool}
    {buf out : List α} {sA lA sB lB sC : ℕ}
    (h : mergeSortedItemsArraysSelf lt buf sA lA sB lB sC = some out) :
    out.length = buf.length :=
  mergeSelfLoop_length lt _ buf out _ _ _ _ _ h

theorem sortRange_length {α : Type} {lt : α → α → Bool} {arr out : List α}
    {start len : ℕ} (h : sortRange lt arr start len = some out) :
    out.length = arr.length := by
  unfold sortRange at h
  split at h
  · cases h
    simp only [List.length_append, List.length_take, List.length_drop,
      List.length_mergeSort]
    omega
  · simp at h

theorem shiftRightLoop_length {α : Type} :
    ∀ (cnt : ℕ) (buf out : List α) (base half : ℕ),
      shiftRightLoop buf base half cnt = some out → out.length = buf.length
  | 0, buf, out, base, half, h => by rw [shiftRightLoop] at h; cases h; rfl
  | c + 1, buf, out, base, half, h => by
      rw [shiftRightLoop] at h
      simp only [Option.bind_eq_bind, Option.bind_eq_some] at h
      obtain ⟨v, _hv, mid, hset, hrec⟩ := h
      obtain ⟨_, hmid⟩ := setO_eq_some hset
      subst hmid
      simpa using shiftRightLoop_length c _ out _ _ hrec

/-! ### Level-capacity facts (C3, C1) -/

theorem levelCapacity_ge_m {k nl lvl m c : ℕ} (h : levelCapacity k nl lvl m = some c) :
    m ≤ c := by
  unfold levelCapacity at h
  simp only [Option.bind_eq_bind, Option.bind_eq_some, Option.pure_def,
    Option.some.injEq] at h
  obtain ⟨v, _hv, hc⟩ := h
  subst hc
  exact le_max_left _ _

theorem levelCapacity_shift (k m nl lvl : ℕ) :
    levelCapacity k (nl + 1) (lvl + 1) m = levelCapacity k nl lvl m := by
  unfold levelCapacity
  rw [show nl + 1 - (lvl + 1) - 1 = nl - lvl - 1 from by omega]

theorem totalCapLoop_shift (k m nl : ℕ) :
    ∀ (cnt t d0 : ℕ), totalCapLoop k m nl cnt = some t →
      levelCapacity k (nl + 1) 0 m = some d0 →
      totalCapLoop k m (nl + 1) (cnt + 1) = some (d0 + t)
  | 0, t, d0, ht, hd => by
      rw [totalCapLoop] at ht
      cases ht
      rw [totalCapLoop, totalCapLoop]
      simp [hd]
  | c + 1, t, d0, ht, hd => by
      rw [totalCapLoop] at ht
      simp only [Option.bind_eq_bind, Option.bind_eq_some, Option.some.injEq] at ht
      obtain ⟨acc, hacc, cap, hcap, hres⟩ := ht
      have hrec := totalCapLoop_shift k m nl c acc d0 hacc hd
      rw [totalCapLoop]
      simp only [Option.bind_eq_bind, hrec, Option.some_bind,
        levelCapacity_shift k m nl c, hcap, Option.some_bind]
      congr 1
      omega

/-- Telescoping step of the total-capacity sum: one more level adds the new
bottom-level capacity (this is `C(k, n+1, l+1) = C(k, n, l)` level by level). -/
theorem computeTotalItemCapacity_succ {k m nl t d0 : ℕ}
    (ht : computeTotalItemCapacity k m nl = some t)
    (hd : levelCapacity k (nl + 1) 0 m = some d0) :
    computeTotalItemCapacity k m (nl + 1) = some (d0 + t) :=
  totalCapLoop_shift k m nl nl t d0 ht hd

/-! ### `findLevelToCompact` (C3) -/

theorem findLevelToCompactGo_spec (k m nl : ℕ) (levels : List ℕ) :
    ∀ (fuel start level : ℕ),
      findLevelToCompactGo k m nl levels start fuel = some level →
      start ≤ level ∧ level + 1 < levels.length ∧
      ∃ cap, levelCapacity k nl level m = some cap ∧
        cap ≤ levels.getD (level + 1) 0 - levels.getD level 0
  | 0, start, level, h => by rw [findLevelToCompactGo] at h; cases h
  | fuel + 1, start, level, h => by
      rw [findLevelToCompactGo] at h
      simp only [Option.bind_eq_bind, Option.bind_eq_some] at h
      obtain ⟨a, ha, b, hb, cap, hcap, hres⟩ := h
      split at hres
      · cases hres
        refine ⟨le_rfl, lt_length_of_getElem? hb, cap, hcap, ?_⟩
        rw [getD_of_getElem? 0 ha, getD_of_getElem? 0 hb]
        omega
      · obtain ⟨h1, h2, h3⟩ := findLevelToCompactGo_spec k m nl levels fuel (start + 1) level hres
        exact ⟨by omega, h2, h3⟩

theorem findLevelToCompact_spec {k m nl level : ℕ} {levels : List ℕ}
    (h : findLevelToCompact k m nl levels = some level) :
    level + 1 < levels.length ∧
    ∃ cap, levelCapacity k nl level m = some cap ∧
      cap ≤ levels.getD (level + 1) 0 - levels.getD level 0 :=
  (findLevelToCompactGo_spec k m nl levels _ 0 level h).2

/-! ### `addEmptyTopLevelToCompletelyFullSketch` (C3) -/

theorem addEmptyTopLevel_spec {α : Type} [Inhabited α] {s s' : ItemsSketch α}
    (hlen : s.levels.length = s.numLevels + 1)
    (h : addEmptyTopLevelToCompletelyFullSketch s = some s') :
    ∃ delta C, levelCapacity s.k (s.numLevels + 1) 0 s.m = some delta ∧
      s.levels.getD s.numLevels 0 = C ∧
      s'.k = s.k ∧ s'.m = s.m ∧ s'.minK = s.minK ∧ s'.n = s.n ∧
      s'.minItem = s.minItem ∧ s'.maxItem = s.maxItem ∧
      s'.isLevelZeroSorted = s.isLevelZeroSorted ∧
      s'.numLevels = s.numLevels + 1 ∧
      s'.levels.length = s.numLevels + 2 ∧
      (∀ i, i ≤ s.numLevels → s'.levels.getD i 0 = s.levels.getD i 0 + delta) ∧
      s'.levels.getD (s.numLevels + 1) 0 = C + delta ∧
      s'.items.length = C + delta := by
  have hg : s.levels.length < s.numLevels + 2 := by omega
  unfold addEmptyTopLevelToCompletelyFullSketch at h
  dsimp only [] at h
  rw [if_pos hg] at h
  simp only [Option.bind_eq_bind, Option.bind_eq_some, Option.some.injEq] at h
  obtain ⟨C, hC, delta, hdelta, bumped, hbump, lv2, hset, items2, hcopy, hfin⟩ := h
  subst hfin
  obtain ⟨hcnt, hblen, hbget⟩ := bumpLoop_spec delta (s.numLevels + 1) _ bumped hbump
  obtain ⟨hsetlt, hlv2⟩ := setO_eq_some hset
  subst hlv2
  obtain ⟨hclen, _⟩ := copyLoop_spec _ _ _ items2 _ _ hcopy
  have hextlen : (s.levels ++ List.replicate (s.numLevels + 2 - s.levels.length) 0).length
      = s.numLevels + 2 := by
    simp [hlen]
  have hCval : s.levels.getD s.numLevels 0 = C := getD_of_getElem? 0 hC
  refine ⟨delta, C, hdelta, hCval, rfl, rfl, rfl, rfl, rfl, rfl, rfl,
    rfl, ?_, ?_, ?_, ?_⟩
  · simp [hblen, hextlen]
  · intro i hi
    show (bumped.set (s.numLevels + 1) (C + delta)).getD i 0 = _
    rw [getD_set_ne 0 _ (by omega), hbget i, if_pos (by omega),
        List.getD_append _ _ _ _ (by omega)]
  · show (bumped.set (s.numLevels + 1) (C + delta)).getD (s.numLevels + 1) 0 = C + delta
    rw [getD_set_self 0 _ (by rw [hblen, hextlen]; omega)]
  · show items2.length = C + delta
    rw [hclen]
    simp

theorem segWeight_congr_counts {A B : List ℕ} {lo hi : ℕ}
    (h : ∀ l, lo ≤ l → l < hi →
      A.getD (l + 1) 0 - A.getD l 0 = B.getD (l + 1) 0 - B.getD l 0) :
    segWeight A lo hi = segWeight B lo hi := by
  unfold segWeight
  refine Finset.sum_congr rfl ?_
  intro l hl
  rw [Finset.mem_Ico] at hl
  rw [h l hl.1 hl.2]

/-- `compressWhileUpdatingSketch` preserves the invariant, `n`, `k`, `m`, `minK`
and the extrema; it succeeds only when at least 8 items are retained, and it
frees at least one slot at level 0. -/
theorem compress_spec {α : Type} [Inhabited α] {ops : ItemOps α} {s s' : ItemsSketch α}
    (inv : Inv s) (h : compressWhileUpdatingSketch ops s = some s') :
    Inv s' ∧ s'.n = s.n ∧ s'.k = s.k ∧ s'.m = s.m ∧ s'.minK = s.minK ∧
    s'.minItem = s.minItem ∧ s'.maxItem = s.maxItem ∧ 8 ≤ s.n ∧
    0 < s'.levels.getD 0 0 := by
  unfold compressWhileUpdatingSketch at h
  simp only [Option.bind_eq_bind, Option.bind_eq_some, Option.some.injEq] at h
  obtain ⟨level, hfind, s1, hs1, rawBeg, hrB, rawEnd, hrE, lvl2, hl2, arrS, hsort,
    arrH, hhalve, levels1, hlv1, ⟨levels2, arr2⟩, hpair, h⟩ := h
  dsimp only [] at h
  obtain ⟨arr3, hshift, levels3, hbump, hfin⟩ := h
  obtain ⟨hlt, cap, hcap, hpop⟩ := findLevelToCompact_spec hfind
  have hlenS0 := inv.hlen
  have hnlpos := inv.hnl
  have hcap8 : 8 ≤ cap := by
    have h8m := levelCapacity_ge_m hcap
    rw [inv.hm] at h8m
    exact h8m
  have hlevlt : level < s.numLevels := by omega
  have hn8 : 8 ≤ s.n := by
    calc 8 ≤ cap := hcap8
      _ ≤ s.levels.getD (level + 1) 0 - s.levels.getD level 0 := hpop
      _ = 1 * (s.levels.getD (level + 1) 0 - s.levels.getD level 0) := (one_mul _).symm
      _ ≤ 2 ^ level * (s.levels.getD (level + 1) 0 - s.levels.getD level 0) :=
            Nat.mul_le_mul_right _ (pow_pos (show (0:ℕ) < 2 from by norm_num) level)
      _ ≤ segWeight s.levels 0 s.numLevels := segWeight_term_le (Nat.zero_le level) hlevlt
      _ = s.n := inv.hweight
  have hS1 : s1.k = s.k ∧ s1.m = s.m ∧ s1.minK = s.minK ∧ s1.n = s.n ∧
      s1.minItem = s.minItem ∧ s1.maxItem = s.maxItem ∧
      1 ≤ s1.numLevels ∧ s1.levels.length = s1.numLevels + 1 ∧
      (∀ i, i < s1.numLevels → s1.levels.getD i 0 ≤ s1.levels.getD (i + 1) 0) ∧
      s1.items.length = s1.levels.getD s1.numLevels 0 ∧
      levelsWeight s1.numLevels s1.levels = s.n ∧
      level + 2 ≤ s1.numLevels ∧
      cap ≤ s1.levels.getD (level + 1) 0 - s1.levels.getD level 0 ∧
      (s1.numLevels = s.numLevels ∨
        (s1.numLevels = s.numLevels + 1 ∧ level = s.numLevels - 1)) := by
    by_cases htop : level = s.numLevels - 1
    · rw [if_pos htop] at hs1
      obtain ⟨delta, C, hdelta, hCval, pk, pm, pminK, pn, pmin, pmax, _ps, pnl, plen,
        pbump, ptop, pitems⟩ := addEmptyTopLevel_spec inv.hlen hs1
      refine ⟨pk, pm, pminK, pn, pmin, pmax, by omega, by omega, ?_, ?_, ?_,
        by omega, ?_, Or.inr ⟨pnl, htop⟩⟩
      · intro i hi
        rw [pnl] at hi
        by_cases hin : i < s.numLevels
        · rw [pbump i (by omega), pbump (i + 1) (by omega)]
          exact Nat.add_le_add_right (inv.hmono i hin) delta
        · have hieq : i = s.numLevels := by omega
          subst hieq
          rw [pbump s.numLevels le_rfl, ptop, hCval]
      · rw [pnl, ptop]
        exact pitems
      · have hw1 : segWeight s1.levels 0 s.numLevels = segWeight s.levels 0 s.numLevels := by
          refine segWeight_congr_counts ?_
          intro l _ hl
          rw [pbump l (by omega), pbump (l + 1) (by omega)]
          omega
        have hw2 : segWeight s1.levels s.numLevels (s.numLevels + 1) = 0 := by
          rw [segWeight_single, pbump s.numLevels le_rfl, ptop, hCval]
          simp
        show segWeight s1.levels 0 s1.numLevels = s.n
        rw [pnl, segWeight_split s1.levels (Nat.zero_le _) (Nat.le_succ _), hw1, hw2,
          Nat.add_zero]
        exact inv.hweight
      · rw [pbump level (by omega), pbump (level + 1) (by omega)]
        omega
    · rw [if_neg htop] at hs1
      have hseq := Option.some.inj hs1
      subst hseq
      exact ⟨rfl, rfl, rfl, rfl, rfl, rfl, inv.hnl, inv.hlen, inv.hmono,
        inv.hitems, inv.hweight, by omega, hpop, Or.inl rfl⟩
  obtain ⟨A1, A2, A3, A4, A5, A6, A8, A9, A10, A12, A13, A14, A15, A16⟩ := hS1
  have hrBv : s1.levels.getD level 0 = rawBeg := getD_of_getElem? 0 hrB
  have hrEv : s1.levels.getD (level + 1) 0 = rawEnd := getD_of_getElem? 0 hrE
  have hl2v : s1.levels.getD (level + 2) 0 = lvl2 := getD_of_getElem? 0 hl2
  have hBE : rawBeg ≤ rawEnd := by
    rw [← hrBv, ← hrEv]
    exact A10 level (by omega)
  have hE2 : rawEnd ≤ lvl2 := by
    rw [← hrEv, ← hl2v]
    exact A10 (level + 1) (by omega)
  have hpop1 : cap ≤ rawEnd - rawBeg := by
    rw [← hrBv, ← hrEv]
    exact A15
  have hs1n : s1.n ≠ 0 := by omega
  have harrTot : getTotalItemsArray s1 = s1.items := by
    unfold getTotalItemsArray
    rw [if_neg hs1n]
  rw [harrTot] at hsort
  have hlenS : arrS.length = s1.items.length := by
    by_cases h0 : level = 0
    · rw [if_pos h0] at hsort
      exact sortRange_length hsort
    · rw [if_neg h0] at hsort
      rw [← Option.some.inj hsort]
  have hlenH : arrH.length = s1.items.length := by
    by_cases hpa : lvl2 - rawEnd = 0
    · rw [if_pos hpa] at hhalve
      rw [randomlyHalveUpItems_length hhalve, hlenS]
    · rw [if_neg hpa] at hhalve
      simp only [Option.bind_eq_bind, Option.bind_eq_some] at hhalve
      obtain ⟨mid, hdown, hmerge⟩ := hhalve
      rw [mergeSortedItemsArraysSelf_length hmerge, randomlyHalveDownItems_length hdown,
        hlenS]
  obtain ⟨hl1lt, hl1eq⟩ := setO_eq_some hlv1
  subst hl1eq
  have key : ∃ half od, od ≤ 1 ∧ rawEnd - rawBeg = 2 * half + od ∧
      levels3.length = s1.levels.length ∧ arr3.length = s1.items.length ∧
      (∀ i, i ≤ level → levels3.getD i 0 = s1.levels.getD i 0 + half) ∧
      levels3.getD (level + 1) 0 = s1.levels.getD (level + 1) 0 - half ∧
      ∀ i, level + 1 < i → levels3.getD i 0 = s1.levels.getD i 0 := by
    by_cases hodd : (rawEnd - rawBeg) % 2 = 1
    · simp only [if_pos hodd] at hpair hshift hbump
      simp only [Option.bind_eq_bind, Option.bind_eq_some, Option.some.injEq,
        Prod.mk.injEq] at hpair
      obtain ⟨lv, hlv, leftover, _hleft, arr, harr, heq1, heq2⟩ := hpair
      subst heq1
      subst heq2
      obtain ⟨hlvlt2, hlveq⟩ := setO_eq_some hlv
      subst hlveq
      obtain ⟨_harrlt, harreq⟩ := setO_eq_some harr
      subst harreq
      have harr3len : arr3.length = arrH.length := by
        by_cases hl0 : 0 < level
        · rw [if_pos hl0] at hshift
          simp only [Option.bind_eq_bind, Option.bind_eq_some] at hshift
          obtain ⟨lv0, _h0, hsh⟩ := hshift
          rw [shiftRightLoop_length _ _ _ _ _ hsh, List.length_set]
        · rw [if_neg hl0] at hshift
          rw [← Option.some.inj hshift, List.length_set]
      obtain ⟨_hbcnt, hblen, hbget⟩ := bumpLoop_spec _ level _ levels3 hbump
      refine ⟨(rawEnd - rawBeg - 1) / 2, 1, le_rfl, by omega, ?_, ?_, ?_, ?_, ?_⟩
      · rw [hblen, List.length_set, List.length_set]
      · rw [harr3len, hlenH]
      · intro i hi
        rw [hbget i]
        by_cases hil : i < level
        · rw [if_pos hil, getD_set_ne 0 _ (by omega), getD_set_ne 0 _ (by omega)]
        · have hieq : i = level := by omega
          subst hieq
          rw [if_neg (lt_irrefl _),
            getD_set_self 0 _ (by rw [List.length_set, A9]; omega), hrBv]
          omega
      · rw [hbget, if_neg (by omega), getD_set_ne 0 _ (by omega),
          getD_set_self 0 _ (by rw [A9]; omega), hrEv]
      · intro i hi
        rw [hbget, if_neg (by omega), getD_set_ne 0 _ (by omega),
          getD_set_ne 0 _ (by omega)]
    · simp only [if_neg hodd] at hpair hshift hbump
      simp only [Option.bind_eq_bind, Option.bind_eq_some, Option.some.injEq,
        Prod.mk.injEq] at hpair
      obtain ⟨lv, hlv, heq1, heq2⟩ := hpair
      subst heq1
      subst heq2
      obtain ⟨hlvlt2, hlveq⟩ := setO_eq_some hlv
      subst hlveq
      have harr3len : arr3.length = arrH.length := by
        by_cases hl0 : 0 < level
        · rw [if_pos hl0] at hshift
          simp only [Option.bind_eq_bind, Option.bind_eq_some] at hshift
          obtain ⟨lv0, _h0, hsh⟩ := hshift
          rw [shiftRightLoop_length _ _ _ _ _ hsh]
        · rw [if_neg hl0] at hshift
          rw [← Option.some.inj hshift]
      obtain ⟨_hbcnt, hblen, hbget⟩ := bumpLoop_spec _ level _ levels3 hbump
      refine ⟨(rawEnd - rawBeg) / 2, 0, Nat.zero_le _, by omega, ?_, ?_, ?_, ?_, ?_⟩
      · rw [hblen, List.length_set, List.length_set]
      · rw [harr3len, hlenH]
      · intro i hi
        rw [hbget i]
        by_cases hil : i < level
        · rw [if_pos hil, getD_set_ne 0 _ (by omega), getD_set_ne 0 _ (by omega)]
        · have hieq : i = level := by omega
          subst hieq
          rw [if_neg (lt_irrefl _),
            getD_set_self 0 _ (by rw [List.length_set, A9]; omega), hrBv]
          omega
      · rw [hbget, if_neg (by omega), getD_set_ne 0 _ (by omega),
          getD_set_self 0 _ (by rw [A9]; omega), hrEv]
      · intro i hi
        rw [hbget, if_neg (by omega), getD_set_ne 0 _ (by omega),
          getD_set_ne 0 _ (by omega)]
  obtain ⟨half, od, hod, hpar, K1, K2, K3, K4, K5⟩ := key
  have h8 : 8 ≤ 2 * half + od := by
    rw [← hpar]
    exact le_trans hcap8 hpop1
  subst hfin
  refine ⟨⟨?_, ?_, ?_, ?_, ?_, ?_, ?_, ?_, ?_, ?_, ?_, ?_, ?_⟩,
    A4, A1, A2, A3, A5, A6, hn8, ?_⟩
  · show s1.m = 8
    rw [A2]
    exact inv.hm
  · show 8 ≤ s1.k
    rw [A1]
    exact inv.hkLo
  · show s1.k ≤ 65535
    rw [A1]
    exact inv.hkHi
  · show s1.minK ≤ s1.k
    rw [A1, A3]
    exact inv.hminK
  · show 1 ≤ s1.numLevels
    exact A8
  · show levels3.length = s1.numLevels + 1
    rw [K1]
    exact A9
  · intro i hi
    have hi' : i < s1.numLevels := hi
    show levels3.getD i 0 ≤ levels3.getD (i + 1) 0
    by_cases h1 : i + 1 ≤ level
    · rw [K3 i (by omega), K3 (i + 1) h1]
      exact Nat.add_le_add_right (A10 i (by omega)) _
    · by_cases h2 : i = level
      · subst h2
        rw [K3 i le_rfl, K4, hrBv, hrEv]
        omega
      · by_cases h3 : i = level + 1
        · subst h3
          rw [K4, K5 (level + 1 + 1) (by omega)]
          exact le_trans (Nat.sub_le _ _) (A10 (level + 1) (by omega))
        · rw [K5 i (by omega), K5 (i + 1) (by omega)]
          exact A10 i (by omega)
  · show arr3.length = levels3.getD s1.numLevels 0
    rw [K2, K5 s1.numLevels (by omega)]
    exact A12
  · show levelsWeight s1.numLevels levels3 = s1.n
    rw [A4]
    have e1 : segWeight levels3 0 level = segWeight s1.levels 0 level := by
      refine segWeight_congr_counts ?_
      intro l _ hl
      rw [K3 l (by omega), K3 (l + 1) (by omega)]
      omega
    have e4 : segWeight levels3 (level + 2) s1.numLevels
        = segWeight s1.levels (level + 2) s1.numLevels := by
      refine segWeight_congr_counts ?_
      intro l hl _
      rw [K5 l (by omega), K5 (l + 1) (by omega)]
    have m1' : segWeight levels3 level (level + 1) = 2 ^ level * od := by
      rw [segWeight_single, K4, K3 level le_rfl, hrBv, hrEv]
      congr 1
      omega
    have m2' : segWeight levels3 (level + 1) (level + 2) =
        2 ^ (level + 1)
          * ((s1.levels.getD (level + 2) 0 - s1.levels.getD (level + 1) 0) + half) := by
      rw [segWeight_single, K5 (level + 1 + 1) (by omega), K4, hrEv, hl2v]
      congr 1
      omega
    have m1 : segWeight s1.levels level (level + 1) = 2 ^ level * (2 * half + od) := by
      rw [segWeight_single, hrBv, hrEv, hpar]
    have m2 : segWeight s1.levels (level + 1) (level + 2) =
        2 ^ (level + 1) * (s1.levels.getD (level + 1 + 1) 0 - s1.levels.getD (level + 1) 0) :=
      segWeight_single _ _
    have hsplit3 : ∀ lv : List ℕ, segWeight lv 0 s1.numLevels =
        segWeight lv 0 level + segWeight lv level (level + 1) +
        segWeight lv (level + 1) (level + 2) + segWeight lv (level + 2) s1.numLevels := by
      intro lv
      rw [segWeight_split lv (Nat.zero_le level) (show level ≤ s1.numLevels by omega),
          segWeight_split lv (show level ≤ level + 1 by omega)
            (show level + 1 ≤ s1.numLevels by omega),
          segWeight_split lv (show level + 1 ≤ level + 2 by omega) A14]
      ring
    have A13' : segWeight s1.levels 0 s1.numLevels = s.n := A13
    show segWeight levels3 0 s1.numLevels = s.n
    rw [hsplit3, e1, e4, m1', m2', ← A13', hsplit3, m1, m2, pow_succ]
    ring
  · show s1.numLevels = 1 ∨ 2 ^ (s1.numLevels + 1) ≤ s1.n
    rw [A4]
    rcases A16 with h16 | ⟨h16, hlev⟩
    · rw [h16]
      exact inv.hJ
    · right
      rw [h16]
      have h1 : 2 ^ level * 8 ≤
          2 ^ level * (s.levels.getD (level + 1) 0 - s.levels.getD level 0) :=
        Nat.mul_le_mul_left _ (le_trans hcap8 hpop)
      have h2 : 2 ^ level * (s.levels.getD (level + 1) 0 - s.levels.getD level 0) ≤ s.n :=
        le_trans (segWeight_term_le (Nat.zero_le level) hlevlt) (le_of_eq inv.hweight)
      have h3 : (2 : ℕ) ^ (s.numLevels + 1 + 1) = 2 ^ level * 8 := by
        have hl3 : s.numLevels + 1 + 1 = level + 3 := by omega
        rw [hl3, pow_add]
        norm_num
      omega
  · intro hne
    have hne' : s1.n ≠ 0 := hne
    show (∃ a, s1.minItem = some a) ∧ ∃ b, s1.maxItem = some b
    rw [A5, A6]
    exact inv.hminmax (by omega)
  · intro h0
    exfalso
    have hz : s1.n = 0 := h0
    omega
  · intro h1
    exfalso
    have hz : s1.n = 1 := h1
    omega
  · show 0 < levels3.getD 0 0
    rw [K3 0 (Nat.zero_le _)]
    omega

/-- `updateItem` preserves the invariant; on a non-nil item it increments `n`. -/
theorem updateItem_spec {α : Type} [Inhabited α] {ops : ItemOps α} {s s' : ItemsSketch α}
    {item : α} (inv : Inv s) (h : updateItem ops s item = some s') :
    Inv s' ∧ (ops.isNil item = false → s'.n = s.n + 1) ∧
    (s.n = 0 → ops.isNil item = false →
      s'.levels = [s.k - 1, s.k] ∧ s'.minK = s.k ∧ s'.minItem = some item ∧
      s'.maxItem = some item ∧ s'.items[s.k - 1]? = some item ∧ s'.k = s.k) ∧
    s'.k = s.k ∧ s'.m = s.m ∧ s'.minK = s.minK := by
  unfold updateItem at h
  by_cases hnil : ops.isNil item = true
  · rw [if_pos hnil] at h
    replace h := Option.some.inj h
    subst h
    exact ⟨inv, fun hf => absurd hnil (by simp [hf]),
      fun _ hf => absurd hnil (by simp [hf]), rfl, rfl, rfl⟩
  · rw [if_neg hnil] at h
    simp only [Option.bind_eq_bind, Option.bind_eq_some, Option.some.injEq] at h
    obtain ⟨s2, hs2, l0, hl0, ⟨s3, l0b⟩, hmid, h⟩ := h
    dsimp only [] at h
    obtain ⟨levels4, hlev4, items4, hitems4, hfin⟩ := h
    have H2 : s2.k = s.k ∧ s2.m = s.m ∧ s2.minK = s.minK ∧ s2.n = s.n ∧
        s2.numLevels = s.numLevels ∧ s2.levels = s.levels ∧ s2.items = s.items ∧
        (∃ a, s2.minItem = some a) ∧ (∃ b, s2.maxItem = some b) ∧
        (s.n = 0 → s2.minItem = some item ∧ s2.maxItem = some item) := by
      by_cases hn0 : s.n = 0
      · rw [if_pos hn0] at hs2
        replace hs2 := Option.some.inj hs2
        subst hs2
        exact ⟨rfl, rfl, rfl, rfl, rfl, rfl, rfl, ⟨item, rfl⟩, ⟨item, rfl⟩,
          fun _ => ⟨rfl, rfl⟩⟩
      · rw [if_neg hn0] at hs2
        simp only [Option.bind_eq_bind, Option.bind_eq_some, Option.some.injEq] at hs2
        obtain ⟨mi, hmi, ma, hma, hs2⟩ := hs2
        subst hs2
        refine ⟨rfl, rfl, rfl, rfl, rfl, rfl, rfl, ?_, ?_, fun hz => absurd hz hn0⟩
        · by_cases hc : ops.lt item mi = true
          · exact ⟨item, by simp [hc]⟩
          · exact ⟨mi, by simp [hc]⟩
        · by_cases hc : ops.lt ma item = true
          · exact ⟨item, by simp [hc]⟩
          · exact ⟨ma, by simp [hc]⟩
    obtain ⟨H2k, H2m, H2mk, H2n, H2nl, H2lv, H2it, H2min, H2max, H2z⟩ := H2
    have hl0v : l0 = s2.levels.getD 0 0 := (getD_of_getElem? 0 hl0).symm
    have H3 : s3.k = s.k ∧ s3.m = s.m ∧ s3.minK = s.minK ∧ s3.n = s.n ∧
        (∃ a, s3.minItem = some a) ∧ (∃ b, s3.maxItem = some b) ∧
        1 ≤ s3.numLevels ∧ s3.levels.length = s3.numLevels + 1 ∧
        (∀ i, i < s3.numLevels → s3.levels.getD i 0 ≤ s3.levels.getD (i + 1) 0) ∧
        s3.items.length = s3.levels.getD s3.numLevels 0 ∧
        levelsWeight s3.numLevels s3.levels = s.n ∧
        (s3.numLevels = 1 ∨ 2 ^ (s3.numLevels + 1) ≤ s.n) ∧
        l0b = s3.levels.getD 0 0 ∧ 0 < l0b ∧
        (s.n = 0 → s3.levels = [s.k, s.k] ∧ s3.minK = s.k ∧
          s3.minItem = some item ∧ s3.maxItem = some item) := by
      by_cases hl0z : l0 = 0
      · rw [if_pos hl0z] at hmid
        have hinv2 : Inv s2 := by
          refine ⟨?_, ?_, ?_, ?_, ?_, ?_, ?_, ?_, ?_, ?_, ?_, ?_, ?_⟩
          · rw [H2m]; exact inv.hm
          · rw [H2k]; exact inv.hkLo
          · rw [H2k]; exact inv.hkHi
          · rw [H2k, H2mk]; exact inv.hminK
          · rw [H2nl]; exact inv.hnl
          · rw [H2nl, H2lv]; exact inv.hlen
          · rw [H2nl, H2lv]; exact inv.hmono
          · rw [H2nl, H2lv, H2it]; exact inv.hitems
          · rw [H2nl, H2lv, H2n]; exact inv.hweight
          · rw [H2nl, H2n]; exact inv.hJ
          · intro _; exact ⟨H2min, H2max⟩
          · intro hz
            exfalso
            rw [H2n] at hz
            obtain ⟨hlv, _, _, _⟩ := inv.hn0 hz
            rw [hl0v, H2lv, hlv, List.getD_cons_zero] at hl0z
            have := inv.hkLo
            omega
          · intro hz
            exfalso
            rw [H2n] at hz
            obtain ⟨hlv, _, _⟩ := inv.hn1 hz
            rw [hl0v, H2lv, hlv, List.getD_cons_zero] at hl0z
            have := inv.hkLo
            omega
        simp only [Option.bind_eq_bind, Option.bind_eq_some, Option.some.injEq,
          Prod.mk.injEq] at hmid
        obtain ⟨s4, hcomp, l0c, hl0c, he1, he2⟩ := hmid
        subst he1
        subst he2
        obtain ⟨inv3, hn3, hk3, hm3, hmk3, hmin3, hmax3, h8, hpos3⟩ :=
          compress_spec hinv2 hcomp
        have hl0cv := (getD_of_getElem? 0 hl0c).symm
        refine ⟨hk3.trans H2k, hm3.trans H2m, hmk3.trans H2mk, hn3.trans H2n,
          ?_, ?_, inv3.hnl, inv3.hlen, inv3.hmono, inv3.hitems, ?_, ?_,
          hl0cv, by omega, ?_⟩
        · rw [hmin3]; exact H2min
        · rw [hmax3]; exact H2max
        · rw [inv3.hweight, hn3, H2n]
        · have := inv3.hJ
          rw [hn3, H2n] at this
          exact this
        · intro hz
          exfalso
          rw [H2n] at h8
          omega
      · rw [if_neg hl0z] at hmid
        replace hmid := Option.some.inj hmid
        have he1 : s2 = s3 := congrArg Prod.fst hmid
        have he2 : l0 = l0b := congrArg Prod.snd hmid
        subst he1
        subst he2
        refine ⟨H2k, H2m, H2mk, H2n, H2min, H2max, ?_, ?_, ?_, ?_, ?_, ?_,
          hl0v, by omega, ?_⟩
        · rw [H2nl]; exact inv.hnl
        · rw [H2nl, H2lv]; exact inv.hlen
        · rw [H2nl, H2lv]; exact inv.hmono
        · rw [H2nl, H2lv, H2it]; exact inv.hitems
        · rw [H2nl, H2lv]; exact inv.hweight
        · rw [H2nl]; exact inv.hJ
        · intro hz
          obtain ⟨hlv, hmk, _, _⟩ := inv.hn0 hz
          exact ⟨H2lv.trans hlv, H2mk.trans hmk, (H2z hz).1, (H2z hz).2⟩
    obtain ⟨H3k, H3m, H3mk, H3n, H3min, H3max, H3nl, H3len, H3mono, H3items,
      H3w, H3J, H3l0, H3pos, H3z⟩ := H3
    obtain ⟨hlv4lt, hlv4⟩ := setO_eq_some hlev4
    subst hlv4
    obtain ⟨hit4lt, hit4⟩ := setO_eq_some hitems4
    subst hit4
    subst hfin
    have hv0 : (s3.levels.set 0 (l0b - 1)).getD 0 0 = l0b - 1 :=
      getD_set_self 0 _ (by omega)
    have hm0 : s3.levels.getD 0 0 ≤ s3.levels.getD 1 0 := H3mono 0 (by omega)
    have hone : s.n = 0 →
        s3.levels.set 0 (l0b - 1) = [s.k - 1, s.k] ∧ s3.minK = s.k ∧
        s3.minItem = some item ∧ s3.maxItem = some item ∧
        (s3.items.set (l0b - 1) item)[s.k - 1]? = some item ∧ s3.k = s.k := by
      intro hz
      obtain ⟨hlvz, hmkz, hminz, hmaxz⟩ := H3z hz
      have hl0bk : l0b = s.k := by
        rw [H3l0, hlvz, List.getD_cons_zero]
      have hkpos := inv.hkLo
      refine ⟨?_, hmkz, hminz, hmaxz, ?_, H3k⟩
      · rw [hlvz, hl0bk]
        rfl
      · rw [← hl0bk, getElem?_some_of_lt (by rw [List.length_set]; omega),
          getD_set_self default item hit4lt]
    refine ⟨⟨?_, ?_, ?_, ?_, ?_, ?_, ?_, ?_, ?_, ?_, ?_, ?_, ?_⟩, fun _ => ?_,
      fun hz _ => hone hz, H3k, H3m, H3mk⟩
    · show s3.m = 8
      rw [H3m]; exact inv.hm
    · show 8 ≤ s3.k
      rw [H3k]; exact inv.hkLo
    · show s3.k ≤ 65535
      rw [H3k]; exact inv.hkHi
    · show s3.minK ≤ s3.k
      rw [H3k, H3mk]; exact inv.hminK
    · show 1 ≤ s3.numLevels
      exact H3nl
    · show (s3.levels.set 0 (l0b - 1)).length = s3.numLevels + 1
      rw [List.length_set]; exact H3len
    · intro i hi
      have hi' : i < s3.numLevels := hi
      show (s3.levels.set 0 (l0b - 1)).getD i 0 ≤ (s3.levels.set 0 (l0b - 1)).getD (i + 1) 0
      by_cases h0 : i = 0
      · subst h0
        rw [hv0, getD_set_ne 0 _ (by omega)]
        have := H3mono 0 (by omega)
        omega
      · rw [getD_set_ne 0 _ (Ne.symm h0), getD_set_ne 0 _ (by omega)]
        exact H3mono i hi'
    · show (s3.items.set (l0b - 1) item).length = (s3.levels.set 0 (l0b - 1)).getD s3.numLevels 0
      rw [List.length_set, getD_set_ne 0 _ (by omega)]
      exact H3items
    · show levelsWeight s3.numLevels (s3.levels.set 0 (l0b - 1)) = s3.n + 1
      have hA : segWeight (s3.levels.set 0 (l0b - 1)) 0 s3.numLevels =
          segWeight (s3.levels.set 0 (l0b - 1)) 0 1 +
          segWeight (s3.levels.set 0 (l0b - 1)) 1 s3.numLevels :=
        segWeight_split _ (Nat.zero_le 1) (by omega)
      have hB : segWeight s3.levels 0 s3.numLevels =
          segWeight s3.levels 0 1 + segWeight s3.levels 1 s3.numLevels :=
        segWeight_split _ (Nat.zero_le 1) (by omega)
      have h1N : segWeight (s3.levels.set 0 (l0b - 1)) 0 1 =
          (s3.levels.set 0 (l0b - 1)).getD 1 0 - (s3.levels.set 0 (l0b - 1)).getD 0 0 := by
        have hx := segWeight_single (s3.levels.set 0 (l0b - 1)) 0
        simpa using hx
      have h1O : segWeight s3.levels 0 1 = s3.levels.getD 1 0 - s3.levels.getD 0 0 := by
        have hx := segWeight_single s3.levels 0
        simpa using hx
      have hv1 : (s3.levels.set 0 (l0b - 1)).getD 1 0 = s3.levels.getD 1 0 :=
        getD_set_ne 0 _ (by omega)
      have e2 : segWeight (s3.levels.set 0 (l0b - 1)) 1 s3.numLevels =
          segWeight s3.levels 1 s3.numLevels := by
        refine segWeight_congr ?_
        intro l hl _
        exact getD_set_ne 0 _ (by omega)
      have hwOld : segWeight s3.levels 0 s3.numLevels = s.n := H3w
      have hgoal : segWeight (s3.levels.set 0 (l0b - 1)) 0 s3.numLevels = s.n + 1 := by
        omega
      rw [H3n]
      exact hgoal
    · show s3.numLevels = 1 ∨ 2 ^ (s3.numLevels + 1) ≤ s3.n + 1
      rcases H3J with hJ1 | hJ2
      · exact Or.inl hJ1
      · right
        rw [H3n]
        omega
    · intro _
      exact ⟨H3min, H3max⟩
    · intro h0
      exact absurd h0 (Nat.succ_ne_zero _)
    · intro h1
      have hz : s.n = 0 := by
        have h1' : s3.n + 1 = 1 := h1
        omega
      obtain ⟨e1, e2, e3, e4, e5, _e6⟩ := hone hz
      refine ⟨?_, ?_, item, e3, e4, ?_⟩
      · show s3.levels.set 0 (l0b - 1) = [s3.k - 1, s3.k]
        rw [H3k]
        exact e1
      · show s3.minK = s3.k
        rw [H3k]
        exact e2
      · show (s3.items.set (l0b - 1) item)[s3.k - 1]? = some item
        rw [H3k]
        exact e5
    · show s3.n + 1 = s.n + 1
      rw [H3n]

/-- `update` preserves the invariant and increments `n` on non-nil items
(clearing the cached-view flag does not touch any invariant field). -/
theorem update_spec {α : Type} [Inhabited α] {ops : ItemOps α} {s s' : ItemsSketch α}
    {item : α} (inv : Inv s) (h : update ops s item = some s') :
    Inv s' ∧ (ops.isNil item = false → s'.n = s.n + 1) := by
  unfold update at h
  simp only [Option.map_eq_map, Option.map_eq_some'] at h
  obtain ⟨s2, hup, hfin⟩ := h
  obtain ⟨inv2, hn2, _, _⟩ := updateItem_spec inv hup
  subst hfin
  refine ⟨⟨inv2.hm, inv2.hkLo, inv2.hkHi, inv2.hminK, inv2.hnl, inv2.hlen,
    inv2.hmono, inv2.hitems, inv2.hweight, inv2.hJ, inv2.hminmax, inv2.hn0,
    inv2.hn1⟩, hn2⟩

/-- A fresh sketch satisfies the invariant. -/
theorem newItemsSketch_inv {α : Type} [Inhabited α] {k : ℕ} {s : ItemsSketch α}
    (h : newItemsSketch α k = some s) : Inv s := by
  unfold newItemsSketch at h
  split at h
  · simp at h
  · replace h := Option.some.inj h
    subst h
    rename_i hk
    push_neg at hk
    refine ⟨rfl, hk.1, hk.2, le_rfl, le_rfl, rfl, ?_, ?_, ?_, Or.inl rfl, ?_, ?_, ?_⟩
    · intro i hi
      interval_cases i
      · simp [List.getD]
    · simp [List.getD]
    · show levelsWeight 1 [k, k] = 0
      show segWeight [k, k] 0 1 = 0
      have hx := segWeight_single [k, k] 0
      simp only [pow_zero, one_mul] at hx
      rw [show (0:ℕ) + 1 = 1 from rfl] at hx
      rw [hx]
      simp [List.getD]
    · intro hz
      exact absurd rfl hz
    · exact fun _ => ⟨rfl, rfl, rfl, rfl⟩
    · intro h1
      have h1' : (0 : ℕ) = 1 := h1
      exact absurd h1' (by omega)

/-- Streaming items through `updateItem` preserves the invariant and (with no
nil items) adds exactly the trip count to `n`. -/
theorem streamLoop_spec {α : Type} [Inhabited α] {ops : ItemOps α}
    (hnil : ∀ a : α, ops.isNil a = false) :
    ∀ (c : ℕ) (s s' : ItemsSketch α) (src : List α) (idx : ℕ),
      Inv s → streamLoop ops s src idx c = some s' →
      Inv s' ∧ s'.n = s.n + c ∧ s'.k = s.k ∧ s'.m = s.m ∧ s'.minK = s.minK
  | 0, s, s', src, idx, inv, h => by
      rw [streamLoop] at h
      replace h := Option.some.inj h
      subst h
      exact ⟨inv, rfl, rfl, rfl, rfl⟩
  | c + 1, s, s', src, idx, inv, h => by
      rw [streamLoop] at h
      simp only [Option.bind_eq_bind, Option.bind_eq_some] at h
      obtain ⟨v, _hv, s2, hup, hrec⟩ := h
      obtain ⟨inv2, hn2, _, hk2, hm2, hmk2⟩ := updateItem_spec inv hup
      obtain ⟨inv', hn', hk', hm', hmk'⟩ :=
        streamLoop_spec hnil c s2 s' src (idx + 1) inv2 hrec
      refine ⟨inv', ?_, hk'.trans hk2, hm'.trans hm2, hmk'.trans hmk2⟩
      rw [hn', hn2 (hnil v)]
      omega

theorem currentLevelSizeItems_ge {lvl numLevels : ℕ} {levels : List ℕ}
    (h : numLevels ≤ lvl) : currentLevelSizeItems lvl numLevels levels = some 0 := by
  unfold currentLevelSizeItems
  rw [if_pos h]

theorem currentLevelSizeItems_lt {lvl numLevels : ℕ} {levels : List ℕ}
    (hlt : lvl < numLevels) (hlen : numLevels + 1 ≤ levels.length) :
    currentLevelSizeItems lvl numLevels levels
      = some (levels.getD (lvl + 1) 0 - levels.getD lvl 0) := by
  unfold currentLevelSizeItems
  rw [if_neg (by omega), getElem?_some_of_lt (by omega), getElem?_some_of_lt (by omega)]
  rfl

/-- The population loop of `populateItemWorkArrays`: entries at or below the
start level are untouched, and each processed boundary adds the two level
populations. -/
theorem populateLoop_spec {α : Type} (lt : α → α → Bool)
    (myNL : ℕ) (myLv : List ℕ) (myIt : List α) (oNL : ℕ) (oLv : List ℕ) (oIt : List α) :
    ∀ (c : ℕ) (wb : List α) (wl : List ℕ) (lvl : ℕ) (outBuf : List α) (outLv : List ℕ),
      populateLoop lt myNL myLv myIt oNL oLv oIt wb wl lvl c = some (outBuf, outLv) →
      (∀ j, j ≤ lvl → outLv.getD j 0 = wl.getD j 0) ∧
      (∀ i, i < c → ∃ sp op,
        currentLevelSizeItems (lvl + i) myNL myLv = some sp ∧
        currentLevelSizeItems (lvl + i) oNL oLv = some op ∧
        outLv.getD (lvl + i + 1) 0 = outLv.getD (lvl + i) 0 + sp + op)
  | 0, wb, wl, lvl, outBuf, outLv, h => by
      rw [populateLoop] at h
      simp only [Option.some.injEq, Prod.mk.injEq] at h
      obtain ⟨h1, h2⟩ := h
      subst h1
      subst h2
      exact ⟨fun j _ => rfl, fun i hi => absurd hi (by omega)⟩
  | c + 1, wb, wl, lvl, outBuf, outLv, h => by
      rw [populateLoop] at h
      simp only [Option.bind_eq_bind, Option.bind_eq_some] at h
      obtain ⟨sp, hsp, op, hop, wlv, hwlv, wl2, hset, wb2, _hwb, hrec⟩ := h
      obtain ⟨hsetlt, hseteq⟩ := setO_eq_some hset
      subst hseteq
      obtain ⟨hpre, hcnt⟩ := populateLoop_spec lt myNL myLv myIt oNL oLv oIt c
        wb2 _ (lvl + 1) outBuf outLv hrec
      have hwlvv : wl.getD lvl 0 = wlv := getD_of_getElem? 0 hwlv
      refine ⟨?_, ?_⟩
      · intro j hj
        rw [hpre j (by omega), getD_set_ne 0 _ (by omega)]
      · intro i hi
        rcases Nat.eq_zero_or_pos i with hi0 | hipos
        · subst hi0
          refine ⟨sp, op, by simpa using hsp, by simpa using hop, ?_⟩
          have h1 : outLv.getD (lvl + 0 + 1) 0 = wlv + sp + op := by
            have := hpre (lvl + 1) le_rfl
            rw [show lvl + 0 + 1 = lvl + 1 from by omega, this,
              getD_set_self 0 _ hsetlt]
          have h2 : outLv.getD (lvl + 0) 0 = wlv := by
            rw [show lvl + 0 = lvl from by omega, hpre lvl (by omega),
              getD_set_ne 0 _ (by omega), hwlvv]
          rw [h1, h2]
        · obtain ⟨i', rfl⟩ : ∃ i', i = i' + 1 := ⟨i - 1, by omega⟩
          obtain ⟨sp', op', e1, e2, e3⟩ := hcnt i' (by omega)
          refine ⟨sp', op', ?_, ?_, ?_⟩
          · rw [show lvl + (i' + 1) = lvl + 1 + i' from by omega]
            exact e1
          · rw [show lvl + (i' + 1) = lvl + 1 + i' from by omega]
            exact e2
          · rw [show lvl + (i' + 1) + 1 = lvl + 1 + i' + 1 from by omega,
              show lvl + (i' + 1) = lvl + 1 + i' from by omega]
            exact e3

/-- `buildLevelsLoop`: the first `cnt` entries become `outlevels[j] + shift`, the
rest keep the base array values. -/
theorem buildLevelsLoop_spec (outlevels : List ℕ) (shift : ℕ) :
    ∀ (cnt : ℕ) (dst out : List ℕ), buildLevelsLoop outlevels shift cnt dst = some out →
      out.length = dst.length ∧
      ∀ j, out.getD j 0 = if j < cnt then outlevels.getD j 0 + shift else dst.getD j 0
  | 0, dst, out, h => by
      rw [buildLevelsLoop] at h
      replace h := Option.some.inj h
      subst h
      exact ⟨rfl, fun j => by simp⟩
  | c + 1, dst, out, h => by
      rw [buildLevelsLoop] at h
      simp only [Option.bind_eq_bind, Option.bind_eq_some] at h
      obtain ⟨mid, hmid, v, hv, hset⟩ := h
      obtain ⟨hlen, hget⟩ := buildLevelsLoop_spec outlevels shift c dst mid hmid
      obtain ⟨hc2, hout⟩ := setO_eq_some hset
      subst hout
      have hvv : outlevels.getD c 0 = v := getD_of_getElem? 0 hv
      refine ⟨by simp [hlen], fun j => ?_⟩
      by_cases hjc : j = c
      · subst hjc
        rw [getD_set_self 0 _ hc2, if_pos (by omega), hvv]
      · rw [getD_set_ne 0 _ (Ne.symm hjc), hget j]
        by_cases hlt : j < c
        · rw [if_pos hlt, if_pos (by omega)]
        · rw [if_neg hlt, if_neg (by omega)]

set_option maxHeartbeats 1000000 in
/-- Loop invariant of `generalItemsCompress`: processing levels `cl, cl+1, …`
never shrinks the level count, leaves the output boundaries at or below `cl`
untouched, produces monotone output boundaries, preserves the total weight of
the remaining levels, keeps `cur` equal to the retained count, and only grows
the level count when the weight justifies it. -/
theorem gcLoop_spec {α : Type} [Inhabited α] (lt : α → α → Bool) (k m : ℕ) (lz : Bool)
    (hm8 : 8 ≤ m) :
    ∀ (fuel : ℕ) (nl cur tgt cl : ℕ) (buf : List α) (inL outL : List ℕ)
      (resNl resTgt resCur : ℕ) (outBuf : List α) (outInL outOutL : List ℕ),
      gcLoop lt k m lz nl cur tgt buf inL outL cl fuel
        = some (resNl, resTgt, resCur, outBuf, outInL, outOutL) →
      1 ≤ nl → cl < nl →
      (∀ j, cl ≤ j → j < nl → inL.getD j 0 ≤ inL.getD (j + 1) 0) →
      outL.getD 0 0 ≤ outL.getD cl 0 →
      cur = (outL.getD cl 0 - outL.getD 0 0) + (inL.getD nl 0 - inL.getD cl 0) →
      nl ≤ resNl ∧
      (∀ j, j ≤ cl → outOutL.getD j 0 = outL.getD j 0) ∧
      (∀ j, cl ≤ j → j < resNl → outOutL.getD j 0 ≤ outOutL.getD (j + 1) 0) ∧
      segWeight outOutL cl resNl = segWeight inL cl nl ∧
      resCur = outOutL.getD resNl 0 - outOutL.getD 0 0 ∧
      (resNl = nl ∨ 2 ^ (resNl + 1) ≤ segWeight inL cl nl) := by
  intro fuel
  induction fuel with
  | zero =>
      intro nl cur tgt cl buf inL outL resNl resTgt resCur outBuf outInL outOutL h
      rw [gcLoop] at h
      cases h
  | succ fuel IH =>
      intro nl cur tgt cl buf inL outL resNl resTgt resCur outBuf outInL outOutL h
        hnl hcl hmonoIn hout0 hcur
      rw [gcLoop] at h
      simp only [Option.bind_eq_bind, Option.bind_eq_some] at h
      obtain ⟨inL1, hext, rawBeg, hrB, rawLim, hrL, cap, hcap, outBase, hoB, h⟩ := h
      have hExt1 : ∀ j, j ≤ nl → inL1.getD j 0 = inL.getD j 0 := by
        intro j hj
        by_cases hT : cl = nl - 1
        · rw [if_pos hT] at hext
          simp only [Option.bind_eq_bind, Option.bind_eq_some] at hext
          obtain ⟨v, _hv, hset⟩ := hext
          obtain ⟨hlt2, heq⟩ := setO_eq_some hset
          subst heq
          exact getD_set_ne 0 _ (by omega)
        · rw [if_neg hT] at hext
          rw [← Option.some.inj hext]
      have hExtTop : cl = nl - 1 → inL1.getD (nl + 1) 0 = inL.getD nl 0 := by
        intro hT
        rw [if_pos hT] at hext
        simp only [Option.bind_eq_bind, Option.bind_eq_some] at hext
        obtain ⟨v, hv, hset⟩ := hext
        obtain ⟨hlt2, heq⟩ := setO_eq_some hset
        subst heq
        have hv' : inL.getD (cl + 1) 0 = v := getD_of_getElem? 0 hv
        have hcl1 : cl + 1 = nl := by omega
        rw [show nl + 1 = cl + 2 from by omega, getD_set_self 0 _ hlt2, ← hv', hcl1]
      have hExtEq : cl ≠ nl - 1 → inL1 = inL := by
        intro hT
        rw [if_neg hT] at hext
        exact (Option.some.inj hext).symm
      have hrBv : inL.getD cl 0 = rawBeg := by
        rw [← hExt1 cl (by omega)]
        exact getD_of_getElem? 0 hrB
      have hrLv : inL.getD (cl + 1) 0 = rawLim := by
        rw [← hExt1 (cl + 1) (by omega)]
        exact getD_of_getElem? 0 hrL
      have hoBv : outL.getD cl 0 = outBase := getD_of_getElem? 0 hoB
      have houtB : outL.getD 0 0 ≤ outBase := by
        rw [← hoBv]
        exact hout0
      have hBL : rawBeg ≤ rawLim := by
        rw [← hrBv, ← hrLv]
        exact hmonoIn cl le_rfl hcl
      have hLnl : rawLim ≤ inL.getD nl 0 := by
        rw [← hrLv]
        exact mono_seg_le hmonoIn (cl + 1) nl (by omega) (by omega) le_rfl
      by_cases hkeep : cur < tgt ∨ rawLim - rawBeg < cap
      · rw [if_pos hkeep] at h
        simp only [Option.bind_eq_bind, Option.bind_eq_some] at h
        obtain ⟨buf2, _hcopy, outL2, hset2, h⟩ := h
        obtain ⟨hset2lt, hset2eq⟩ := setO_eq_some hset2
        subst hset2eq
        by_cases hTop : cl = nl - 1
        · rw [if_pos hTop] at h
          simp only [Option.some.injEq, Prod.mk.injEq] at h
          obtain ⟨e1, e2, e3, e4, e5, e6⟩ := h
          subst e1
          subst e2
          subst e3
          subst e4
          subst e5
          subst e6
          have hcl1 : cl + 1 = nl := by omega
          have hinnl : inL.getD nl 0 = rawLim := by
            rw [← hcl1]
            exact hrLv
          refine ⟨le_rfl, ?_, ?_, ?_, ?_, Or.inl rfl⟩
          · intro j hj
            exact getD_set_ne 0 _ (by omega)
          · intro j hj1 hj2
            have hj : j = cl := by omega
            subst hj
            rw [getD_set_ne 0 _ (by omega), getD_set_self 0 _ hset2lt, hoBv]
            omega
          · rw [← hcl1, segWeight_single, segWeight_single,
              getD_set_self 0 _ hset2lt, getD_set_ne 0 _ (by omega), hoBv,
              hrLv, hrBv]
            congr 1
            omega
          · rw [← hcl1, getD_set_self 0 _ hset2lt, getD_set_ne 0 _ (by omega)]
            rw [← hcl1] at hinnl
            rw [← hcl1] at hcur
            omega
        · rw [if_neg hTop] at h
          have hinL1 : inL1 = inL := hExtEq hTop
          subst hinL1
          have hmono2 : ∀ j, cl + 1 ≤ j → j < nl →
              inL1.getD j 0 ≤ inL1.getD (j + 1) 0 :=
            fun j h1 h2 => hmonoIn j (by omega) h2
          have hout2 : (outL.set (cl + 1) (outBase + (rawLim - rawBeg))).getD 0 0 ≤
              (outL.set (cl + 1) (outBase + (rawLim - rawBeg))).getD (cl + 1) 0 := by
            rw [getD_set_ne 0 _ (by omega), getD_set_self 0 _ hset2lt]
            omega
          have hcur2 : cur =
              ((outL.set (cl + 1) (outBase + (rawLim - rawBeg))).getD (cl + 1) 0
                - (outL.set (cl + 1) (outBase + (rawLim - rawBeg))).getD 0 0)
              + (inL1.getD nl 0 - inL1.getD (cl + 1) 0) := by
            rw [getD_set_self 0 _ hset2lt, getD_set_ne 0 _ (by omega), hrLv]
            omega
          obtain ⟨p1, p2, p3, p4, p5, p6⟩ := IH nl cur tgt (cl + 1) buf2 inL1
            (outL.set (cl + 1) (outBase + (rawLim - rawBeg)))
            resNl resTgt resCur outBuf outInL outOutL h hnl (by omega) hmono2
            hout2 hcur2
          have ha : outOutL.getD cl 0 = outL.getD cl 0 := by
            rw [p2 cl (by omega), getD_set_ne 0 _ (by omega)]
          have hb : outOutL.getD (cl + 1) 0 = outBase + (rawLim - rawBeg) := by
            rw [p2 (cl + 1) le_rfl, getD_set_self 0 _ hset2lt]
          refine ⟨by omega, ?_, ?_, ?_, p5, ?_⟩
          · intro j hj
            rw [p2 j (by omega), getD_set_ne 0 _ (by omega)]
          · intro j hj1 hj2
            by_cases hjc : j = cl
            · subst hjc
              rw [ha, hb, hoBv]
              omega
            · exact p3 j (by omega) hj2
          · have hsO : segWeight outOutL cl (cl + 1) = 2 ^ cl * (rawLim - rawBeg) := by
              rw [segWeight_single, ha, hb, hoBv]
              congr 1
              omega
            have hsI : segWeight inL1 cl (cl + 1) = 2 ^ cl * (rawLim - rawBeg) := by
              rw [segWeight_single, hrLv, hrBv]
            rw [segWeight_split outOutL (show cl ≤ cl + 1 by omega) (show cl + 1 ≤ resNl by omega),
              segWeight_split inL1 (show cl ≤ cl + 1 by omega) (show cl + 1 ≤ nl by omega),
              hsO, hsI, p4]
          · rcases p6 with p6 | p6
            · exact Or.inl p6
            · right
              refine le_trans p6 ?_
              have := segWeight_split inL1 (show cl ≤ cl + 1 by omega)
                (show cl + 1 ≤ nl by omega)
              omega
      · rw [if_neg hkeep] at h
        push_neg at hkeep
        obtain ⟨hct, hpc⟩ := hkeep
        have hcap8 : 8 ≤ cap := le_trans hm8 (levelCapacity_ge_m hcap)
        simp only [Option.bind_eq_bind, Option.bind_eq_some] at h
        obtain ⟨lvl2, hl2, ⟨buf3, outL3⟩, hp1, buf4, _hsortg, buf5, _hhalveg,
          inL2, hsetIn, ⟨nl2, tgt2⟩, hp2, h⟩ := h
        dsimp only [] at h hp2 hsetIn
        have hl2v : inL1.getD (cl + 2) 0 = lvl2 := getD_of_getElem? 0 hl2
        obtain ⟨hsetInLt, hsetInEq⟩ := setO_eq_some hsetIn
        have key : ∃ half od, od ≤ 1 ∧ rawLim - rawBeg = 2 * half + od ∧
            cl + 1 < outL.length ∧
            outL3 = outL.set (cl + 1) (outBase + od) ∧
            inL2 = inL1.set (cl + 1) (rawLim - half) ∧
            (if cl = nl2 - 1 then
               some (nl2, tgt2, cur - half, buf5, inL2, outL3)
             else gcLoop lt k m lz nl2 (cur - half) tgt2 buf5 inL2 outL3 (cl + 1) fuel)
              = some (resNl, resTgt, resCur, outBuf, outInL, outOutL) := by
          by_cases hodd : (rawLim - rawBeg) % 2 = 1
          · simp only [if_pos hodd] at hp1 hsetInEq h
            simp only [Option.bind_eq_bind, Option.bind_eq_some, Option.some.injEq,
              Prod.mk.injEq] at hp1
            obtain ⟨v, _hv, bufx, _hbufx, outLx, hsetx, he1, he2⟩ := hp1
            obtain ⟨hxlt, hxeq⟩ := setO_eq_some hsetx
            subst he2
            subst hxeq
            exact ⟨(rawLim - rawBeg - 1) / 2, 1, le_rfl, by omega, hxlt, rfl,
              hsetInEq, h⟩
          · simp only [if_neg hodd] at hp1 hsetInEq h
            simp only [Option.bind_eq_bind, Option.bind_eq_some, Option.some.injEq,
              Prod.mk.injEq] at hp1
            obtain ⟨outLx, hsetx, he1, he2⟩ := hp1
            obtain ⟨hxlt, hxeq⟩ := setO_eq_some hsetx
            subst he2
            subst hxeq
            refine ⟨(rawLim - rawBeg) / 2, 0, Nat.zero_le _, ?_, hxlt, ?_,
              hsetInEq, h⟩
            · omega
            · exact congrArg (outL.set (cl + 1)) (Nat.add_zero outBase).symm
        obtain ⟨half, od, hod, hpar, houtlt, hO3, hI2, h⟩ := key
        subst hO3
        subst hI2
        by_cases hTop : cl = nl - 1
        · rw [if_pos hTop] at hp2
          simp only [Option.bind_eq_bind, Option.bind_eq_some, Option.some.injEq,
            Prod.mk.injEq] at hp2
          obtain ⟨newCap, _hnewCap, hnl2, htgt2⟩ := hp2
          subst hnl2
          subst htgt2
          rw [if_neg (show cl ≠ nl + 1 - 1 from by omega)] at h
          have hcl1 : cl + 1 = nl := by omega
          have hinnl : inL.getD nl 0 = rawLim := by
            rw [← hcl1]
            exact hrLv
          have hI2top : (inL1.set (cl + 1) (rawLim - half)).getD (nl + 1) 0
              = rawLim := by
            rw [getD_set_ne 0 _ (by omega), hExtTop hTop, hinnl]
          have hI2cl1 : (inL1.set (cl + 1) (rawLim - half)).getD (cl + 1) 0
              = rawLim - half := getD_set_self 0 _ hsetInLt
          have hmono2 : ∀ j, cl + 1 ≤ j → j < nl + 1 →
              (inL1.set (cl + 1) (rawLim - half)).getD j 0 ≤
              (inL1.set (cl + 1) (rawLim - half)).getD (j + 1) 0 := by
            intro j hj1 hj2
            have hj : j = cl + 1 := by omega
            subst hj
            rw [hI2cl1, show cl + 1 + 1 = nl + 1 from by omega, hI2top]
            omega
          have hout2 : (outL.set (cl + 1) (outBase + od)).getD 0 0 ≤
              (outL.set (cl + 1) (outBase + od)).getD (cl + 1) 0 := by
            rw [getD_set_ne 0 _ (by omega), getD_set_self 0 _ houtlt]
            omega
          have hcur2 : cur - half =
              ((outL.set (cl + 1) (outBase + od)).getD (cl + 1) 0
                - (outL.set (cl + 1) (outBase + od)).getD 0 0) +
              ((inL1.set (cl + 1) (rawLim - half)).getD (nl + 1) 0
                - (inL1.set (cl + 1) (rawLim - half)).getD (cl + 1) 0) := by
            rw [getD_set_self 0 _ houtlt, getD_set_ne 0 _ (by omega), hI2top, hI2cl1]
            have hx : cur = (outBase - outL.getD 0 0) + (2 * half + od) := by
              rw [hcur, hinnl, hrBv, hoBv, hpar]
            omega
          obtain ⟨p1, p2, p3, p4, p5, p6⟩ := IH (nl + 1) (cur - half) (tgt + newCap)
            (cl + 1) buf5 (inL1.set (cl + 1) (rawLim - half))
            (outL.set (cl + 1) (outBase + od))
            resNl resTgt resCur outBuf outInL outOutL h (by omega) (by omega)
            hmono2 hout2 hcur2
          have ha : outOutL.getD cl 0 = outL.getD cl 0 := by
            rw [p2 cl (by omega), getD_set_ne 0 _ (by omega)]
          have hb : outOutL.getD (cl + 1) 0 = outBase + od := by
            rw [p2 (cl + 1) le_rfl, getD_set_self 0 _ houtlt]
          have hwI2 : segWeight (inL1.set (cl + 1) (rawLim - half)) (cl + 1) (nl + 1)
              = 2 ^ (cl + 1) * half := by
            rw [show nl + 1 = cl + 1 + 1 from by omega, segWeight_single, hI2cl1,
              show cl + 1 + 1 = nl + 1 from by omega, hI2top]
            congr 1
            omega
          have hwIn : segWeight inL cl nl = 2 ^ cl * (2 * half + od) := by
            rw [← hcl1, segWeight_single, hrLv, hrBv, hpar]
          refine ⟨by omega, ?_, ?_, ?_, p5, ?_⟩
          · intro j hj
            rw [p2 j (by omega), getD_set_ne 0 _ (by omega)]
          · intro j hj1 hj2
            by_cases hjc : j = cl
            · subst hjc
              rw [ha, hb, hoBv]
              omega
            · exact p3 j (by omega) hj2
          · have hsO : segWeight outOutL cl (cl + 1) = 2 ^ cl * od := by
              rw [segWeight_single, ha, hb, hoBv]
              congr 1
              omega
            rw [segWeight_split outOutL (show cl ≤ cl + 1 by omega)
                (show cl + 1 ≤ resNl by omega), hsO, p4, hwI2, hwIn, pow_succ]
            ring
          · right
            rcases p6 with p6 | p6
            · subst p6
              rw [hwIn]
              have h8 : 8 ≤ 2 * half + od := by omega
              have hxx : (2 : ℕ) ^ (nl + 1 + 1) = 2 ^ cl * 8 := by
                rw [show nl + 1 + 1 = cl + 3 from by omega, pow_add]
                norm_num
              rw [hxx]
              exact Nat.mul_le_mul_left _ h8
            · refine le_trans p6 ?_
              rw [hwI2, hwIn, pow_succ]
              have : 2 ^ cl * 2 * half ≤ 2 ^ cl * (2 * half + od) := by
                rw [show 2 ^ cl * 2 * half = 2 ^ cl * (2 * half) from by ring]
                exact Nat.mul_le_mul_left _ (by omega)
              omega
        · rw [if_neg hTop] at hp2
          replace hp2 := Option.some.inj hp2
          have hnl2 : nl = nl2 := congrArg Prod.fst hp2
          subst hnl2
          rw [if_neg hTop] at h
          have hinL1 : inL1 = inL := hExtEq hTop
          subst hinL1
          have hcl2 : cl + 2 ≤ nl := by omega
          have hL2 : rawLim ≤ lvl2 := by
            rw [← hrLv, ← hl2v]
            exact hmonoIn (cl + 1) (by omega) (by omega)
          have hI2cl1 : (inL1.set (cl + 1) (rawLim - half)).getD (cl + 1) 0
              = rawLim - half := getD_set_self 0 _ hsetInLt
          have hI2rest : ∀ j, cl + 1 < j →
              (inL1.set (cl + 1) (rawLim - half)).getD j 0 = inL1.getD j 0 := by
            intro j hj
            exact getD_set_ne 0 _ (by omega)
          have hmono2 : ∀ j, cl + 1 ≤ j → j < nl →
              (inL1.set (cl + 1) (rawLim - half)).getD j 0 ≤
              (inL1.set (cl + 1) (rawLim - half)).getD (j + 1) 0 := by
            intro j hj1 hj2
            by_cases hjc : j = cl + 1
            · subst hjc
              rw [hI2cl1, hI2rest (cl + 1 + 1) (by omega), hl2v]
              omega
            · rw [hI2rest j (by omega), hI2rest (j + 1) (by omega)]
              exact hmonoIn j (by omega) hj2
          have hout2 : (outL.set (cl + 1) (outBase + od)).getD 0 0 ≤
              (outL.set (cl + 1) (outBase + od)).getD (cl + 1) 0 := by
            rw [getD_set_ne 0 _ (by omega), getD_set_self 0 _ houtlt]
            omega
          have hcur2 : cur - half =
              ((outL.set (cl + 1) (outBase + od)).getD (cl + 1) 0
                - (outL.set (cl + 1) (outBase + od)).getD 0 0) +
              ((inL1.set (cl + 1) (rawLim - half)).getD nl 0
                - (inL1.set (cl + 1) (rawLim - half)).getD (cl + 1) 0) := by
            rw [getD_set_self 0 _ houtlt, getD_set_ne 0 _ (by omega),
              hI2rest nl (by omega), hI2cl1]
            have hx : cur = (outBase - outL.getD 0 0) +
                (inL1.getD nl 0 - rawBeg) := by
              rw [hcur, hrBv, hoBv]
            omega
          obtain ⟨p1, p2, p3, p4, p5, p6⟩ := IH nl (cur - half) tgt2 (cl + 1) buf5
            (inL1.set (cl + 1) (rawLim - half)) (outL.set (cl + 1) (outBase + od))
            resNl resTgt resCur outBuf outInL outOutL h hnl (by omega) hmono2
            hout2 hcur2
          have ha : outOutL.getD cl 0 = outL.getD cl 0 := by
            rw [p2 cl (by omega), getD_set_ne 0 _ (by omega)]
          have hb : outOutL.getD (cl + 1) 0 = outBase + od := by
            rw [p2 (cl + 1) le_rfl, getD_set_self 0 _ houtlt]
          have hwI2 : segWeight (inL1.set (cl + 1) (rawLim - half)) (cl + 1) nl
              = 2 ^ (cl + 1) * ((lvl2 - rawLim) + half) + segWeight inL1 (cl + 2) nl := by
            rw [segWeight_split _ (show cl + 1 ≤ cl + 2 by omega) hcl2,
              segWeight_single, hI2cl1, hI2rest (cl + 1 + 1) (by omega), hl2v]
            have he : segWeight (inL1.set (cl + 1) (rawLim - half)) (cl + 2) nl
                = segWeight inL1 (cl + 2) nl := by
              refine segWeight_congr ?_
              intro l hl _
              exact getD_set_ne 0 _ (by omega)
            rw [he]
            congr 2
            omega
          have hwIn : segWeight inL1 cl nl
              = 2 ^ cl * (2 * half + od) + (2 ^ (cl + 1) * (lvl2 - rawLim)
                + segWeight inL1 (cl + 2) nl) := by
            rw [segWeight_split _ (show cl ≤ cl + 1 by omega) (show cl + 1 ≤ nl by omega),
              segWeight_split _ (show cl + 1 ≤ cl + 2 by omega) hcl2,
              segWeight_single, segWeight_single, hrLv, hrBv, hpar,
              show cl + 1 + 1 = cl + 2 from by omega, hl2v]
          refine ⟨by omega, ?_, ?_, ?_, p5, ?_⟩
          · intro j hj
            rw [p2 j (by omega), getD_set_ne 0 _ (by omega)]
          · intro j hj1 hj2
            by_cases hjc : j = cl
            · subst hjc
              rw [ha, hb, hoBv]
              omega
            · exact p3 j (by omega) hj2
          · have hsO : segWeight outOutL cl (cl + 1) = 2 ^ cl * od := by
              rw [segWeight_single, ha, hb, hoBv]
              congr 1
              omega
            rw [segWeight_split outOutL (show cl ≤ cl + 1 by omega)
                (show cl + 1 ≤ resNl by omega), hsO, p4, hwI2, hwIn, pow_succ]
            ring
          · rcases p6 with p6 | p6
            · exact Or.inl p6
            · right
              refine le_trans p6 ?_
              rw [hwI2, hwIn, pow_succ]
              have h1 : 2 ^ cl * 2 * ((lvl2 - rawLim) + half)
                  ≤ 2 ^ cl * (2 * half + od) + 2 ^ cl * 2 * (lvl2 - rawLim) := by
                have h2 : 2 ^ cl * 2 * ((lvl2 - rawLim) + half)
                    = 2 ^ cl * 2 * (lvl2 - rawLim) + 2 ^ cl * (2 * half) := by ring
                have h3 : 2 ^ cl * (2 * half) ≤ 2 ^ cl * (2 * half + od) :=
                  Nat.mul_le_mul_left _ (by omega)
                omega
              omega

/-! ### The merge path and the weight invariant (C3) -/

theorem getD_replicate (n j : ℕ) : (List.replicate n (0 : ℕ)).getD j 0 = 0 := by
  rw [List.getD_eq_getElem?_getD, List.getElem?_replicate]
  split <;> rfl

/-- `currentLevelSizeItems` always returns the boundary difference when the
levels array has its minimal length: beyond `numLevels` both the population
and the truncated difference are zero. -/
theorem currentLevelSizeItems_count {lvl numLevels : ℕ} {levels : List ℕ} {v : ℕ}
    (hlen : levels.length = numLevels + 1)
    (h : currentLevelSizeItems lvl numLevels levels = some v) :
    v = levels.getD (lvl + 1) 0 - levels.getD lvl 0 := by
  by_cases hge : numLevels ≤ lvl
  · rw [currentLevelSizeItems_ge hge] at h
    replace h := Option.some.inj h
    subst h
    rw [List.getD_eq_default _ _ (by omega)]
    omega
  · rw [currentLevelSizeItems_lt (by omega) (by omega)] at h
    exact (Option.some.inj h).symm

theorem segWeight_zero {lv : List ℕ} {lo hi : ℕ}
    (h : ∀ l, lo ≤ l → l < hi → lv.getD (l + 1) 0 - lv.getD l 0 = 0) :
    segWeight lv lo hi = 0 := by
  unfold segWeight
  refine Finset.sum_eq_zero ?_
  intro l hl
  rw [Finset.mem_Ico] at hl
  rw [h l hl.1 hl.2, Nat.mul_zero]

/-- When the `A`-counts are the sums of the `B`- and `C`-counts on `[lo, hi)`,
the segment weights add. -/
theorem segWeight_add_counts {A B C : List ℕ} (lo : ℕ) :
    ∀ hi, lo ≤ hi →
      (∀ l, lo ≤ l → l < hi →
        A.getD (l + 1) 0 - A.getD l 0
          = (B.getD (l + 1) 0 - B.getD l 0) + (C.getD (l + 1) 0 - C.getD l 0)) →
      segWeight A lo hi = segWeight B lo hi + segWeight C lo hi := by
  intro hi hle
  induction hi, hle using Nat.le_induction with
  | base =>
      intro _
      rw [segWeight_self, segWeight_self, segWeight_self]
  | succ u hu ih =>
      intro hcnt
      have iha := ih (fun l h1 h2 => hcnt l h1 (by omega))
      rw [segWeight_split A hu (Nat.le_succ u), segWeight_split B hu (Nat.le_succ u),
        segWeight_split C hu (Nat.le_succ u), iha, segWeight_single, segWeight_single,
        segWeight_single, hcnt u hu (by omega), Nat.mul_add]
      ring

set_option maxHeartbeats 1000000 in
/-- `mergeItemsSketch` preserves the invariant and adds the stream lengths. -/
theorem mergeItemsSketch_spec {α : Type} [Inhabited α] {ops : ItemOps α}
    {s other s' : ItemsSketch α} (hnil : ∀ a : α, ops.isNil a = false)
    (invS : Inv s) (invO : Inv other)
    (h : mergeItemsSketch ops s other = some s') :
    Inv s' ∧ s'.n = s.n + other.n := by
  unfold mergeItemsSketch at h
  by_cases ho0 : other.n = 0
  · rw [if_pos ho0] at h
    replace h := Option.some.inj h
    subst h
    exact ⟨invS, by omega⟩
  · rw [if_neg ho0] at h
    simp only [Option.bind_eq_bind, Option.bind_eq_some] at h
    obtain ⟨mm, hmm, lo, hlo, hi, hhi, s2, hstream, ⟨newNl, newLv, newIt⟩, hbig, hrest⟩ := h
    dsimp only [] at hrest
    obtain ⟨⟨nmin, nmax⟩, hmm2, hfin⟩ := hrest
    dsimp only [] at hfin
    replace hfin := Option.some.inj hfin
    obtain ⟨inv2, hn2, hk2, hm2, hmk2⟩ :=
      streamLoop_spec hnil (hi - lo) s s2 (getTotalItemsArray other) lo invS hstream
    have hlov : other.levels.getD 0 0 = lo := getD_of_getElem? 0 hlo
    have hhiv : other.levels.getD 1 0 = hi := getD_of_getElem? 0 hhi
    have h01 : other.levels.getD 0 0 ≤ other.levels.getD 1 0 := by
      have := invO.hmono 0 (by have := invO.hnl; omega)
      simpa using this
    have hlohi : lo ≤ hi := by omega
    have hcount0 : hi - lo ≤ other.n := by
      have ht : 2 ^ 0 * (other.levels.getD (0 + 1) 0 - other.levels.getD 0 0)
          ≤ segWeight other.levels 0 other.numLevels :=
        segWeight_term_le le_rfl (by have := invO.hnl; omega)
      have hw : segWeight other.levels 0 other.numLevels = other.n := invO.hweight
      simp only [pow_zero, one_mul, Nat.zero_add] at ht
      omega
    have hOsplit : other.n = (hi - lo) + segWeight other.levels 1 other.numLevels := by
      have hs : segWeight other.levels 0 other.numLevels =
          segWeight other.levels 0 1 + segWeight other.levels 1 other.numLevels :=
        segWeight_split _ (by omega) (by have := invO.hnl; omega)
      have h1 : segWeight other.levels 0 1 = hi - lo := by
        have hx := segWeight_single other.levels 0
        simp only [pow_zero, one_mul, Nat.zero_add] at hx
        rw [hx, hlov, hhiv]
      have hw : segWeight other.levels 0 other.numLevels = other.n := invO.hweight
      omega
    have hminmaxP : (∃ a, nmin = some a) ∧ (∃ b, nmax = some b) := by
      by_cases hE : s.n = 0
      · rw [if_pos hE] at hmm2
        simp only [Option.some.injEq, Prod.mk.injEq] at hmm2
        obtain ⟨f1, f2⟩ := hmm2
        obtain ⟨⟨a, ha⟩, b, hb⟩ := invO.hminmax ho0
        exact ⟨⟨a, by rw [← f1]; exact ha⟩, ⟨b, by rw [← f2]; exact hb⟩⟩
      · rw [if_neg hE] at hmm2
        rw [if_neg hE] at hmm
        simp only [Option.bind_eq_bind, Option.bind_eq_some, Option.some.injEq] at hmm
        obtain ⟨mi, hmi, ma, hma, hmmv⟩ := hmm
        subst hmmv
        dsimp only [] at hmm2
        simp only [Option.bind_eq_bind, Option.bind_eq_some, Option.some.injEq,
          Prod.mk.injEq] at hmm2
        obtain ⟨omin, homin, omax, homax, g1, g2⟩ := hmm2
        constructor
        · by_cases hc : ops.lt mi omin = true
          · exact ⟨mi, by rw [← g1, if_pos hc]⟩
          · exact ⟨omin, by rw [← g1, if_neg hc]⟩
        · by_cases hc : ops.lt omax ma = true
          · exact ⟨ma, by rw [← g2, if_pos hc]⟩
          · exact ⟨omax, by rw [← g2, if_neg hc]⟩
    by_cases hbig1 : 1 < other.numLevels
    · -- the other sketch has levels above zero: the work-array compression path
      rw [if_pos hbig1] at hbig
      simp only [Option.bind_eq_bind, Option.bind_eq_some, Option.some.injEq,
        Prod.mk.injEq] at hbig
      obtain ⟨aboveZero, hAZ, ra, hra, rb, hrb, ⟨wb2, wl2⟩, hpop,
        ⟨resNl, resTgt, resCur, wb3, inlx, outlv⟩, hgc, ol0, hol0, newIt2, hcopyN,
        newLv2, hbuild, e1, e2, e3⟩ := hbig
      dsimp only [] at hgc hol0 hcopyN hbuild hfin e1 e2 e3
      subst e1
      subst e2
      subst e3
      unfold populateItemWorkArrays at hpop
      simp only [Option.bind_eq_bind, Option.bind_eq_some] at hpop
      obtain ⟨wlA, hwlA, sp0, hsp0, src0, hsrc0, wbA, hcopy0, wlB, hwlB, hploop⟩ := hpop
      obtain ⟨hwlAlt, hwlAeq⟩ := setO_eq_some hwlA
      subst hwlAeq
      obtain ⟨hwlBlt, hwlBeq⟩ := setO_eq_some hwlB
      subst hwlBeq
      obtain ⟨hpre, hcnt⟩ := populateLoop_spec ops.lt s2.numLevels s2.levels
        (getTotalItemsArray s2) other.numLevels other.levels (getTotalItemsArray other)
        (max s2.numLevels other.numLevels - 1) wbA _ 1 wb2 wl2 hploop
      have hsp0v : sp0 = s2.levels.getD 1 0 - s2.levels.getD 0 0 := by
        have := currentLevelSizeItems_count inv2.hlen hsp0
        simpa using this
      have hwl0 : wl2.getD 0 0 = 0 := by
        rw [hpre 0 (by omega), getD_set_ne 0 _ (by omega), getD_set_self 0 _ hwlAlt]
      have hwl1 : wl2.getD 1 0 = sp0 := by
        rw [hpre 1 le_rfl, getD_set_self 0 _ hwlBlt]
      have hwadd : ∀ l, 1 ≤ l → l < max s2.numLevels other.numLevels →
          wl2.getD (l + 1) 0 = wl2.getD l 0 +
            ((s2.levels.getD (l + 1) 0 - s2.levels.getD l 0) +
             (other.levels.getD (l + 1) 0 - other.levels.getD l 0)) := by
        intro l h1 h2
        obtain ⟨sp, op, hspx, hopx, hbd⟩ := hcnt (l - 1) (by omega)
        rw [show 1 + (l - 1) = l from by omega] at hspx hopx hbd
        have hspv := currentLevelSizeItems_count inv2.hlen hspx
        have hopv := currentLevelSizeItems_count invO.hlen hopx
        omega
      have hmonoW : ∀ j, j < max s2.numLevels other.numLevels →
          wl2.getD j 0 ≤ wl2.getD (j + 1) 0 := by
        intro j hj
        rcases Nat.eq_zero_or_pos j with h0 | hp
        · subst h0
          rw [hwl0]
          exact Nat.zero_le _
        · have := hwadd j (by omega) hj
          omega
      have hW : segWeight wl2 0 (max s2.numLevels other.numLevels) = s.n + other.n := by
        have hsplitW : segWeight wl2 0 (max s2.numLevels other.numLevels) =
            segWeight wl2 0 1 + segWeight wl2 1 (max s2.numLevels other.numLevels) :=
          segWeight_split _ (by omega) (le_trans inv2.hnl (le_max_left _ _))
        have h01W : segWeight wl2 0 1 = sp0 := by
          have hx := segWeight_single wl2 0
          simp only [pow_zero, one_mul, Nat.zero_add] at hx
          rw [hx, hwl0, hwl1]
          omega
        have hadds : segWeight wl2 1 (max s2.numLevels other.numLevels) =
            segWeight s2.levels 1 (max s2.numLevels other.numLevels) +
            segWeight other.levels 1 (max s2.numLevels other.numLevels) :=
          segWeight_add_counts 1 _ (le_trans inv2.hnl (le_max_left _ _))
            (fun l h1 h2 => by
              have := hwadd l h1 h2
              omega)
        have hs2stable :
            segWeight s2.levels s2.numLevels (max s2.numLevels other.numLevels) = 0 := by
          refine segWeight_zero ?_
          intro l h1 h2
          have hd1 : s2.levels.getD (l + 1) 0 = 0 :=
            List.getD_eq_default _ _ (by rw [inv2.hlen]; omega)
          omega
        have hs2seg : segWeight s2.levels 1 (max s2.numLevels other.numLevels)
            = segWeight s2.levels 1 s2.numLevels := by
          rw [segWeight_split s2.levels inv2.hnl (le_max_left _ _), hs2stable, Nat.add_zero]
        have hsp0W : segWeight s2.levels 0 1 = sp0 := by
          have hx := segWeight_single s2.levels 0
          simp only [pow_zero, one_mul, Nat.zero_add] at hx
          rw [hx]
          omega
        have hs2w : sp0 + segWeight s2.levels 1 s2.numLevels = s2.n := by
          have hf : segWeight s2.levels 0 s2.numLevels =
              segWeight s2.levels 0 1 + segWeight s2.levels 1 s2.numLevels :=
            segWeight_split _ (by omega) inv2.hnl
          have hw2 : segWeight s2.levels 0 s2.numLevels = s2.n := inv2.hweight
          omega
        have hostable :
            segWeight other.levels other.numLevels (max s2.numLevels other.numLevels) = 0 := by
          refine segWeight_zero ?_
          intro l h1 h2
          have hd1 : other.levels.getD (l + 1) 0 = 0 :=
            List.getD_eq_default _ _ (by rw [invO.hlen]; omega)
          omega
        have hoseg : segWeight other.levels 1 (max s2.numLevels other.numLevels)
            = segWeight other.levels 1 other.numLevels := by
          rw [segWeight_split other.levels invO.hnl (le_max_right _ _), hostable,
            Nat.add_zero]
        omega
      unfold generalItemsCompress at hgc
      simp only [Option.bind_eq_bind, Option.bind_eq_some] at hgc
      obtain ⟨aT, haT, bT, hbT, tgt0, htgt0, olvA, holvA, hgcl⟩ := hgc
      obtain ⟨holvAlt, holvAeq⟩ := setO_eq_some holvA
      subst holvAeq
      have haTv : wl2.getD (max s2.numLevels other.numLevels) 0 = aT :=
        getD_of_getElem? 0 haT
      have hbTv : wl2.getD 0 0 = bT := getD_of_getElem? 0 hbT
      have hprov1 : 1 ≤ max s2.numLevels other.numLevels :=
        le_trans inv2.hnl (le_max_left _ _)
      obtain ⟨p1, p2, p3, p4, p5, p6⟩ := gcLoop_spec ops.lt s2.k s2.m s2.isLevelZeroSorted
        (by have := inv2.hm; omega) (wl2.length + 1) (max s2.numLevels other.numLevels)
        (aT - bT) tgt0 0 wb2 wl2 _ resNl resTgt resCur wb3 inlx outlv hgcl
        hprov1 (by omega) (fun j h1 h2 => hmonoW j h2) le_rfl (by omega)
      have hout0 : outlv.getD 0 0 = 0 := by
        rw [p2 0 le_rfl, getD_set_self 0 _ holvAlt]
      have hol0v : outlv.getD 0 0 = ol0 := getD_of_getElem? 0 hol0
      have hol0z : ol0 = 0 := by omega
      obtain ⟨hcopylen, hcopybound⟩ :=
        copyLoop_spec wb3 resCur _ newIt2 ol0 (resTgt - resCur) hcopyN
      have hdstlen : (if resTgt = (getTotalItemsArray s2).length then getTotalItemsArray s2
          else List.replicate resTgt (default : α)).length = resTgt := by
        by_cases hx : resTgt = (getTotalItemsArray s2).length
        · rw [if_pos hx]
          exact hx.symm
        · rw [if_neg hx]
          simp
      have hcurle : resCur ≤ resTgt := by
        rcases hcopybound with h0 | ⟨hb1, hb2⟩
        · omega
        · rw [hdstlen] at hb2
          omega
      have hnewItLen : newIt2.length = resTgt := by
        rw [hcopylen, hdstlen]
      have hfinalLenEq : (if s2.levels.length < resNl + 1 then resNl + 1
          else s2.levels.length) = resNl + 1 := by
        have h1 := inv2.hlen
        have h2 : s2.numLevels ≤ max s2.numLevels other.numLevels := le_max_left _ _
        by_cases hx : s2.levels.length < resNl + 1
        · rw [if_pos hx]
        · rw [if_neg hx]
          omega
      obtain ⟨hbuildLen, hbuildGet⟩ := buildLevelsLoop_spec outlv (resTgt - resCur - ol0)
        (resNl + 1) _ newLv2 hbuild
      have hnewLvLen : newLv2.length = resNl + 1 := by
        rw [hbuildLen]
        simp only [List.length_replicate]
        exact hfinalLenEq
      have hLv : ∀ j, j ≤ resNl →
          newLv2.getD j 0 = outlv.getD j 0 + (resTgt - resCur - ol0) := by
        intro j hj
        rw [hbuildGet j, if_pos (by omega)]
      subst hfin
      refine ⟨⟨?_, ?_, ?_, ?_, ?_, ?_, ?_, ?_, ?_, ?_, ?_, ?_, ?_⟩, ?_⟩
      · exact inv2.hm
      · exact inv2.hkLo
      · exact inv2.hkHi
      · show (if 1 < other.numLevels then min s.minK other.minK else s.minK) ≤ s2.k
        rw [if_pos hbig1, hk2]
        exact le_trans (min_le_left _ _) invS.hminK
      · show 1 ≤ resNl
        omega
      · exact hnewLvLen
      · show ∀ i, i < resNl → newLv2.getD i 0 ≤ newLv2.getD (i + 1) 0
        intro i hi
        rw [hLv i (by omega), hLv (i + 1) (by omega)]
        exact Nat.add_le_add_right (p3 i (Nat.zero_le _) hi) _
      · show newIt2.length = newLv2.getD resNl 0
        rw [hnewItLen, hLv resNl le_rfl]
        omega
      · show levelsWeight resNl newLv2 = s.n + other.n
        have hcc : segWeight newLv2 0 resNl = segWeight outlv 0 resNl :=
          segWeight_congr_counts (fun l _ hl => by
            rw [hLv l (by omega), hLv (l + 1) (by omega)]
            omega)
        show segWeight newLv2 0 resNl = s.n + other.n
        rw [hcc, p4, hW]
      · show resNl = 1 ∨ 2 ^ (resNl + 1) ≤ s.n + other.n
        rcases p6 with p6 | p6
        · rcases Nat.le_total s2.numLevels other.numLevels with hmx | hmx
          · rcases invO.hJ with hj | hj
            · left
              omega
            · right
              have hre : resNl = other.numLevels := by omega
              rw [hre]
              exact le_trans hj (by omega)
          · rcases inv2.hJ with hj | hj
            · left
              omega
            · right
              have hre : resNl = s2.numLevels := by omega
              rw [hre]
              exact le_trans hj (by omega)
        · right
          exact le_trans p6 (le_of_eq hW)
      · exact fun _ => hminmaxP
      · intro h0
        have h0' : s.n + other.n = 0 := h0
        exact absurd (by omega : other.n = 0) ho0
      · intro h1
        have h1' : s.n + other.n = 1 := h1
        have hOn1 : other.n = 1 := by omega
        obtain ⟨holv, -, -⟩ := invO.hn1 hOn1
        have hx := invO.hlen
        rw [holv] at hx
        exfalso
        have h2nl : (2 : ℕ) = other.numLevels + 1 := by simpa using hx
        omega
      · show s.n + other.n = s.n + other.n
        rfl
    · -- the other sketch has a single level: only the level-zero stream happened
      rw [if_neg hbig1] at hbig
      simp only [Option.some.injEq, Prod.mk.injEq] at hbig
      obtain ⟨e1, e2, e3⟩ := hbig
      subst e1
      subst e2
      subst e3
      have hoNL : other.numLevels = 1 := by
        have := invO.hnl
        omega
      have hone : other.n = hi - lo := by
        have h2 : segWeight other.levels 1 other.numLevels = 0 := by
          rw [hoNL, segWeight_self]
        omega
      have hs2ne : s2.n ≠ 0 := by omega
      have hTot : getTotalItemsArray s2 = s2.items := by
        unfold getTotalItemsArray
        rw [if_neg hs2ne]
      rw [hTot] at hfin
      subst hfin
      refine ⟨⟨?_, ?_, ?_, ?_, ?_, ?_, ?_, ?_, ?_, ?_, ?_, ?_, ?_⟩, ?_⟩
      · exact inv2.hm
      · exact inv2.hkLo
      · exact inv2.hkHi
      · show (if 1 < other.numLevels then min s.minK other.minK else s.minK) ≤ s2.k
        rw [if_neg hbig1, hk2]
        exact invS.hminK
      · exact inv2.hnl
      · exact inv2.hlen
      · exact inv2.hmono
      · exact inv2.hitems
      · show levelsWeight s2.numLevels s2.levels = s.n + other.n
        rw [inv2.hweight]
        omega
      · rcases inv2.hJ with hj | hj
        · exact Or.inl hj
        · refine Or.inr ?_
          show 2 ^ (s2.numLevels + 1) ≤ s.n + other.n
          omega
      · exact fun _ => hminmaxP
      · intro h0
        have h0' : s.n + other.n = 0 := h0
        exact absurd (by omega : other.n = 0) ho0
      · intro h1
        have h1' : s.n + other.n = 1 := h1
        have hz : s.n = 0 := by omega
        have hOn1 : other.n = 1 := by omega
        obtain ⟨holv, homk, it, homin, homax, hoit⟩ := invO.hn1 hOn1
        have e1v : ([other.k - 1, other.k] : List ℕ).getD 0 0 = other.k - 1 := rfl
        have e2v : ([other.k - 1, other.k] : List ℕ).getD 1 0 = other.k := rfl
        have hlo1 : lo = other.k - 1 := by rw [← hlov, holv, e1v]
        have hhi1 : hi = other.k := by rw [← hhiv, holv, e2v]
        have hk8 := invO.hkLo
        have hcnt1 : hi - lo = 1 := by omega
        rw [hcnt1] at hstream
        have hTotO : getTotalItemsArray other = other.items := by
          unfold getTotalItemsArray
          rw [if_neg ho0]
        rw [hTotO] at hstream
        rw [show (1 : ℕ) = 0 + 1 from rfl, streamLoop] at hstream
        simp only [Option.bind_eq_bind, Option.bind_eq_some] at hstream
        obtain ⟨v, hv, s3, hup, htail⟩ := hstream
        rw [streamLoop] at htail
        replace htail := Option.some.inj htail
        subst htail
        rw [hlo1] at hv
        have hvit : v = it := by
          have hvv := hoit.symm.trans hv
          exact (Option.some.inj hvv).symm
        obtain ⟨-, -, hshape, -, -, -⟩ := updateItem_spec invS hup
        obtain ⟨slv, smk, smin, smax, sit, skk⟩ := hshape hz (hnil v)
        rw [if_pos hz] at hmm2
        simp only [Option.some.injEq, Prod.mk.injEq] at hmm2
        obtain ⟨f1, f2⟩ := hmm2
        refine ⟨?_, ?_, it, ?_, ?_, ?_⟩
        · show s3.levels = [s3.k - 1, s3.k]
          rw [skk]
          exact slv
        · show (if 1 < other.numLevels then min s.minK other.minK else s.minK) = s3.k
          rw [if_neg hbig1, skk]
          exact (invS.hn0 hz).2.1
        · show nmin = some it
          rw [← f1, homin]
        · show nmax = some it
          rw [← f2, homax]
        · show s3.items[s3.k - 1]? = some it
          rw [skk, sit, hvit]
      · show s.n + other.n = s.n + other.n
        rfl

/-- `Merge` (empty-argument no-op plus cache clear) preserves the invariant and
adds the stream lengths. -/
theorem mergeSketch_spec {α : Type} [Inhabited α] {ops : ItemOps α}
    {s other s' : ItemsSketch α} (hnil : ∀ a : α, ops.isNil a = false)
    (invS : Inv s) (invO : Inv other)
    (h : mergeSketch ops s other = some s') :
    Inv s' ∧ s'.n = s.n + other.n := by
  unfold mergeSketch at h
  by_cases h0 : other.n = 0
  · rw [if_pos h0] at h
    replace h := Option.some.inj h
    subst h
    exact ⟨invS, by omega⟩
  · rw [if_neg h0] at h
    simp only [Option.map_eq_map, Option.map_eq_some'] at h
    obtain ⟨s2, hmg, hfin⟩ := h
    obtain ⟨inv2, hn2⟩ := mergeItemsSketch_spec hnil invS invO hmg
    subst hfin
    exact ⟨⟨inv2.hm, inv2.hkLo, inv2.hkHi, inv2.hminK, inv2.hnl, inv2.hlen,
      inv2.hmono, inv2.hitems, inv2.hweight, inv2.hJ, inv2.hminmax, inv2.hn0,
      inv2.hn1⟩, hn2⟩

/-- Every reachable sketch (under an item type with no nil values) satisfies the
well-formedness invariant. -/
theorem reachable_inv {α : Type} [Inhabited α] {ops : ItemOps α}
    (hnil : ∀ a : α, ops.isNil a = false) :
    ∀ {s : ItemsSketch α}, Reachable ops s → Inv s := by
  intro s h
  induction h with
  | new k s hnew => exact newItemsSketch_inv hnew
  | update s s2 item hr hup ih => exact (update_spec ih hup).1
  | merge s other s2 hr hro hm ihs iho => exact (mergeSketch_spec hnil ihs iho hm).1

/-- C3: for every sketch state reachable by any sequence of updates and merges,
the total weight of the retained items — `levels[l+1] − levels[l]` items of
weight `2^l` for each level `l` — equals `n`, the total number of items
inserted; in particular the compaction steps inside
`compressWhileUpdatingSketch` and `generalItemsCompress` preserve the total
weight. -/
theorem c3_weight_invariant {α : Type} [Inhabited α] {ops : ItemOps α}
    {s : ItemsSketch α} (hnil : ∀ a : α, ops.isNil a = false)
    (hr : Reachable ops s) :
    levelsWeight s.numLevels s.levels = s.n :=
  (reachable_inv hnil hr).hweight

/-- Witness for C3: the sketch reached from `newItemsSketch ℕ 8` by one update
carries total weight 1 = n. -/
theorem c3_weight_invariant_witness :
    levelsWeight c3Sketch1.numLevels c3Sketch1.levels = c3Sketch1.n :=
  @c3_weight_invariant ℕ _ natItemOps c3Sketch1 (fun _ => rfl)
    (Reachable.update c3Sketch0 c3Sketch1 5
      (Reachable.new 8 c3Sketch0 (by decide))
      (by decide))

/-! ### Serialization round-trip counterexample (C1) -/

/-- `updateItem` on a single-level sketch with `n = 0` and a free slot: min and
max become the item, which lands at `levels[0] - 1`. -/
theorem updateItem_fresh {α : Type} [Inhabited α] (ops : ItemOps α)
    (k m minK a b : ℕ) (lz sv : Bool) (items : List α) (item : α)
    (hnil : ops.isNil item = false) (ha : a ≠ 0) (hlen : a - 1 < items.length) :
    updateItem ops ⟨k, m, minK, 1, lz, 0, [a, b], items, none, none, sv⟩ item
      = some ⟨k, m, minK, 1, false, 1, [a - 1, b], items.set (a - 1) item,
          some item, some item, sv⟩ := by
  unfold updateItem
  rw [if_neg (by simp [hnil]), if_pos rfl]
  dsimp only []
  simp only [Option.bind_eq_bind, Option.some_bind, List.getElem?_cons_zero]
  rw [if_neg ha]
  simp only [Option.bind_eq_bind, Option.some_bind]
  unfold setO
  rw [if_pos (by simp), if_pos (by simpa using hlen)]
  simp only [Option.some_bind]
  rfl

/-- `updateItem` on a single-level non-empty sketch with a free slot: min/max
comparison updates, and the item lands at `levels[0] - 1`. -/
theorem updateItem_step {α : Type} [Inhabited α] (ops : ItemOps α)
    (k m minK n a b : ℕ) (lz sv : Bool) (items : List α) (mi ma item : α)
    (hnil : ops.isNil item = false) (hn : n ≠ 0) (ha : a ≠ 0)
    (hlen : a - 1 < items.length) :
    updateItem ops ⟨k, m, minK, 1, lz, n, [a, b], items, some mi, some ma, sv⟩ item
      = some ⟨k, m, minK, 1, false, n + 1, [a - 1, b], items.set (a - 1) item,
          if ops.lt item mi = true then some item else some mi,
          if ops.lt ma item = true then some item else some ma, sv⟩ := by
  unfold updateItem
  rw [if_neg (by simp [hnil]), if_neg hn]
  dsimp only []
  simp only [Option.bind_eq_bind, Option.some_bind, List.getElem?_cons_zero]
  rw [if_neg ha]
  simp only [Option.bind_eq_bind, Option.some_bind]
  unfold setO
  rw [if_pos (by simp), if_pos (by simpa using hlen)]
  simp only [Option.some_bind]
  rfl

/-- `newItemsSketch` at `k = 50000` yields `c1Sketch0`. -/
theorem c1_new : newItemsSketch ℕ 50000 = some c1Sketch0 := by
  unfold newItemsSketch
  rw [if_neg (by norm_num)]
  rfl

/-- Updating `c1Sketch0` with 1 yields `c1Sketch1`. -/
theorem c1_update1 : update natItemOps c1Sketch0 1 = some c1Sketch1 := by
  unfold update c1Sketch0
  rw [updateItem_fresh natItemOps 50000 8 50000 50000 50000 false false
    (List.replicate 50000 0) 1 rfl (by norm_num) (by norm_num)]
  rfl

/-- Updating `c1Sketch1` with 2 yields `c1Sketch2`. -/
theorem c1_update2 : update natItemOps c1Sketch1 2 = some c1Sketch2 := by
  unfold update c1Sketch1
  rw [updateItem_step natItemOps 50000 8 50000 1 49999 50000 false false
    ((List.replicate 50000 0).set 49999 1) 1 1 2 rfl (by norm_num) (by norm_num)
    (by norm_num)]
  rfl

/-- The retained items of `c1Sketch2` in logical order. -/
theorem c1_retained : getRetainedItemsArray c1Sketch2 = [2, 1] := by
  unfold getRetainedItemsArray getNumRetained c1Sketch2
  dsimp only []
  norm_num [List.getD]

/-- `ToSlice` serializes `c1Sketch2` to `c1Bytes`. -/
theorem c1_toSlice : toSlice natItemOps c1Sketch2 = some c1Bytes := by
  unfold toSlice currentSerializedSizeBytes
  rw [c1_retained]
  rfl

/-- `NewItemsSketchFromSlice` deserializes `c1Bytes` to `c1RoundTrip`. -/
theorem c1_fromSlice : newItemsSketchFromSlice natItemOps c1Bytes = some c1RoundTrip := by
  rfl

/-- The round-tripped sketch retains no items: its top boundary 17232 lies far
below `levels[0] = 49998`. -/
theorem c1_retained_rt : getRetainedItemsArray c1RoundTrip = [] := by
  unfold getRetainedItemsArray getNumRetained c1RoundTrip
  dsimp only []
  norm_num [List.getD]

/-- C1: the claim states that deserializing the serialized form yields a sketch
equal to the original in n, k, m, minK, the levels array, the retained items
in logical order, min and max.  It fails for `k ≥ 32768`: `ToSlice` omits the
top levels entry and `NewItemsSketchFromSlice` reconstructs it as the total
item capacity, but `intCapAux` wraps `2k` in uint16 arithmetic (the C4
defect), so for the reachable `k = 50000` sketch holding the items 1 and 2 the
deserialized sketch has levels `[49998, 17232]` instead of `[49998, 50000]`
and retains no items at all (n, k, m and minK do survive). -/
theorem c1_serialization_roundtrip_fails :
    Reachable natItemOps c1Sketch2 ∧
    toSlice natItemOps c1Sketch2 = some c1Bytes ∧
    newItemsSketchFromSlice natItemOps c1Bytes = some c1RoundTrip ∧
    c1RoundTrip.n = c1Sketch2.n ∧ c1RoundTrip.k = c1Sketch2.k ∧
    c1RoundTrip.minK = c1Sketch2.minK ∧
    c1RoundTrip.levels ≠ c1Sketch2.levels ∧
    getRetainedItemsArray c1RoundTrip ≠ getRetainedItemsArray c1Sketch2 :=
  ⟨Reachable.update c1Sketch1 c1Sketch2 2
      (Reachable.update c1Sketch0 c1Sketch1 1
        (Reachable.new 50000 c1Sketch0 c1_new) c1_update1) c1_update2,
   c1_toSlice, c1_fromSlice, rfl, rfl, rfl,
   by
     rw [show c1RoundTrip.levels = [49998, 17232] from rfl,
         show c1Sketch2.levels = [49998, 50000] from rfl]
     decide,
   by
     rw [c1_retained_rt, c1_retained]
     decide⟩

/-! ### Lemmas for the in-place sorted merge (C10) -/

theorem mergeLists_nil_left {α : Type} (lt : α → α → Bool) (ys : List α) :
    mergeLists lt [] ys = ys := by
  rw [mergeLists]

theorem mergeLists_nil_right {α : Type} (lt : α → α → Bool) (xs : List α) :
    mergeLists lt xs [] = xs := by
  cases xs with
  | nil => rw [mergeLists]
  | cons x xs => rw [mergeLists]

theorem mergeLists_cons_cons {α : Type} (lt : α → α → Bool) (x : α) (xs : List α)
    (y : α) (ys : List α) :
    mergeLists lt (x :: xs) (y :: ys) =
      if lt x y then x :: mergeLists lt xs (y :: ys)
      else y :: mergeLists lt (x :: xs) ys := by
  rw [mergeLists]

theorem mergeLists_length {α : Type} (lt : α → α → Bool) :
    ∀ xs ys : List α, (mergeLists lt xs ys).length = xs.length + ys.length
  | [], ys => by rw [mergeLists_nil_left]; simp
  | x :: xs, [] => by rw [mergeLists_nil_right]; simp
  | x :: xs, y :: ys => by
      rw [mergeLists_cons_cons]
      by_cases h : lt x y = true
      · rw [if_pos h, List.length_cons, mergeLists_length lt xs (y :: ys)]
        simp only [List.length_cons]
        omega
      · rw [if_neg h, List.length_cons, mergeLists_length lt (x :: xs) ys]
        simp only [List.length_cons]
        omega
  termination_by xs ys => xs.length + ys.length

theorem mergeLists_perm {α : Type} (lt : α → α → Bool) :
    ∀ xs ys : List α, (mergeLists lt xs ys).Perm (xs ++ ys)
  | [], ys => by rw [mergeLists_nil_left, List.nil_append]
  | x :: xs, [] => by rw [mergeLists_nil_right, List.append_nil]
  | x :: xs, y :: ys => by
      rw [mergeLists_cons_cons]
      by_cases h : lt x y = true
      · simpa [h] using (mergeLists_perm lt xs (y :: ys)).cons x
      · rw [if_neg h]
        have hp := (mergeLists_perm lt (x :: xs) ys).cons y
        exact hp.trans
          (show List.Perm ((x :: xs) ++ y :: ys) (y :: ((x :: xs) ++ ys))
            from List.perm_middle).symm
  termination_by xs ys => xs.length + ys.length

theorem mergeLists_head? {α : Type} (lt : α → α → Bool) (xs ys : List α) :
    (mergeLists lt xs ys).head? = xs.head? ∨ (mergeLists lt xs ys).head? = ys.head? := by
  cases xs with
  | nil => right; rw [mergeLists_nil_left]
  | cons x xs =>
      cases ys with
      | nil => left; rw [mergeLists_nil_right]
      | cons y ys =>
          rw [mergeLists_cons_cons]
          by_cases h : lt x y = true
          · left; rw [if_pos h]; rfl
          · right; rw [if_neg h]; rfl

theorem mergeLists_sorted {α : Type} (lt : α → α → Bool)
    (hasym : ∀ x y, lt x y = true → lt y x = false) :
    ∀ xs ys : List α, sortedRun lt xs → sortedRun lt ys →
      sortedRun lt (mergeLists lt xs ys)
  | [], ys, _, hys => by rw [mergeLists_nil_left]; exact hys
  | x :: xs, [], hxs, _ => by rw [mergeLists_nil_right]; exact hxs
  | x :: xs, y :: ys, hxs, hys => by
      rw [mergeLists_cons_cons]
      by_cases h : lt x y = true
      · rw [if_pos h]
        rw [sortedRun, List.chain'_cons']
        have htail : sortedRun lt (mergeLists lt xs (y :: ys)) :=
          mergeLists_sorted lt hasym xs (y :: ys) (List.Chain'.tail hxs) hys
        refine ⟨?_, htail⟩
        intro z hz
        rcases mergeLists_head? lt xs (y :: ys) with hh | hh
        · rw [hh] at hz
          cases xs with
          | nil => simp at hz
          | cons w ws =>
              simp only [List.head?_cons, Option.mem_def, Option.some.injEq] at hz
              subst hz
              exact (List.chain'_cons.mp hxs).1
        · rw [hh] at hz
          simp only [List.head?_cons, Option.mem_def, Option.some.injEq] at hz
          subst hz
          exact hasym x y h
      · rw [if_neg h]
        rw [sortedRun, List.chain'_cons']
        have htail : sortedRun lt (mergeLists lt (x :: xs) ys) :=
          mergeLists_sorted lt hasym (x :: xs) ys hxs (List.Chain'.tail hys)
        refine ⟨?_, htail⟩
        intro z hz
        rcases mergeLists_head? lt (x :: xs) ys with hh | hh
        · rw [hh] at hz
          simp only [List.head?_cons, Option.mem_def, Option.some.injEq] at hz
          subst hz
          exact eq_false_of_ne_true h
        · rw [hh] at hz
          cases ys with
          | nil => simp at hz
          | cons w ws =>
              simp only [List.head?_cons, Option.mem_def, Option.some.injEq] at hz
              subst hz
              exact (List.chain'_cons.mp hys).1
  termination_by xs ys => xs.length + ys.length

/-- A write at or above the extracted window leaves the window unchanged. -/
theorem extract_set_of_ge {α : Type} {l : List α} {s n c : ℕ} (v : α)
    (h : s + n ≤ c) : (((l.set c v).drop s).take n) = ((l.drop s).take n) := by
  apply List.ext_getElem?
  intro i
  by_cases hi : i < n
  · rw [List.getElem?_take_of_lt hi, List.getElem?_take_of_lt hi,
        List.getElem?_drop, List.getElem?_drop, List.getElem?_set_ne]
    omega
  · rw [List.getElem?_take_eq_none (by omega), List.getElem?_take_eq_none (by omega)]

/-- A write strictly below the extracted window leaves the window unchanged. -/
theorem extract_set_of_lt {α : Type} {l : List α} {s n c : ℕ} (v : α)
    (h : c < s) : (((l.set c v).drop s).take n) = ((l.drop s).take n) := by
  rw [List.drop_set_of_lt _ _ h]

theorem take_set_succ {α : Type} {l : List α} {c : ℕ} (v : α) (h : c < l.length) :
    (l.set c v).take (c + 1) = l.take c ++ [v] := by
  rw [List.take_succ]
  congr 1
  · rw [List.set_take]
    apply List.set_eq_of_length_le
    simp
  · rw [List.getElem?_set_self']
    simp [List.getElem?_eq_getElem h]

/-- Glue step: a single element written at the cursor, followed by a window
rewrite and the shifted tail, re-associates into the cons form. -/
theorem merge_assemble {α : Type} (buf : List α) (c m : ℕ) (v : α) (rest : List α)
    (h : c < buf.length) :
    (buf.set c v).take (c + 1) ++ rest ++ (buf.set c v).drop (c + 1 + m) =
      buf.take c ++ (v :: rest) ++ buf.drop (c + (m + 1)) := by
  rw [take_set_succ v h, List.drop_set_of_lt _ _ (by omega),
      show c + 1 + m = c + (m + 1) by omega]
  simp [List.append_assoc]

/-- Characterization of the in-place merge loop: starting from cursors `a`, `b`,
`c` with the A-window entirely below the write cursor and the write cursor at
least the remaining-A distance below `b`, the loop succeeds and rewrites
`[c, c+fuel)` with the pure merge of the two remaining windows, leaving
everything else in place. -/
theorem mergeSelfLoop_eq {α : Type} (lt : α → α → Bool) :
    ∀ (fuel : ℕ) (buf : List α) (a limA b limB c : ℕ),
      a ≤ limA → b ≤ limB → limA ≤ c → c + (limA - a) ≤ b → limB ≤ buf.length →
      fuel = (limA - a) + (limB - b) →
      mergeSelfLoop lt buf a limA b limB c fuel =
        some (buf.take c ++
              mergeLists lt ((buf.drop a).take (limA - a)) ((buf.drop b).take (limB - b)) ++
              buf.drop (c + fuel))
  | 0, buf, a, limA, b, limB, c, ha, hb, _hAc, _hcb, _hlen, hfuel => by
      have haa : limA = a := by omega
      have hbb : limB = b := by omega
      subst haa hbb
      simp only [Nat.sub_self, List.take_zero, mergeLists_nil_left, Nat.add_zero,
        List.append_nil, List.take_append_drop, mergeSelfLoop]
  | fuel + 1, buf, a, limA, b, limB, c, ha, hb, hAc, hcb, hlen, hfuel => by
      have hclen : c < buf.length := by omega
      by_cases haA : a = limA
      · -- A exhausted: copy from B
        subst haA
        have hbB : b < limB := by omega
        have hbl : b < buf.length := by omega
        have hg : buf[b]? = some buf[b] := List.getElem?_eq_getElem hbl
        rw [mergeSelfLoop, if_pos rfl]
        simp only [hg, Option.bind_eq_bind, Option.some_bind, setO, if_pos hclen]
        rw [mergeSelfLoop_eq lt fuel (buf.set c buf[b]) a a (b + 1) limB (c + 1)
            le_rfl (by omega) (by omega) (by omega) (by simpa using hlen) (by omega)]
        simp only [Nat.sub_self, List.take_zero, mergeLists_nil_left]
        rw [List.drop_set_of_lt _ _ (show c < b + 1 by omega),
            merge_assemble buf c fuel buf[b] _ hclen,
            List.drop_eq_getElem_cons hbl,
            show limB - b = (limB - (b + 1)) + 1 by omega, List.take_succ_cons]
      · by_cases hbb : b = limB
        · -- B exhausted: copy from A
          subst hbb
          have haL : a < limA := by omega
          have hal : a < buf.length := by omega
          have hg : buf[a]? = some buf[a] := List.getElem?_eq_getElem hal
          rw [mergeSelfLoop, if_neg haA, if_pos rfl]
          simp only [hg, Option.bind_eq_bind, Option.some_bind, setO, if_pos hclen]
          rw [mergeSelfLoop_eq lt fuel (buf.set c buf[a]) (a + 1) limA b b (c + 1)
              (by omega) le_rfl (by omega) (by omega) (by simpa using hlen) (by omega)]
          simp only [Nat.sub_self, List.take_zero, mergeLists_nil_right]
          rw [extract_set_of_ge _ (show (a + 1) + (limA - (a + 1)) ≤ c by omega),
              merge_assemble buf c fuel buf[a] _ hclen,
              List.drop_eq_getElem_cons hal,
              show limA - a = (limA - (a + 1)) + 1 by omega, List.take_succ_cons]
        · -- both runs non-empty
          have haL : a < limA := by omega
          have hbB : b < limB := by omega
          have hal : a < buf.length := by omega
          have hbl : b < buf.length := by omega
          have hga : buf[a]? = some buf[a] := List.getElem?_eq_getElem hal
          have hgb : buf[b]? = some buf[b] := List.getElem?_eq_getElem hbl
          have hxs : (buf.drop a).take (limA - a) =
              buf[a] :: (buf.drop (a + 1)).take (limA - (a + 1)) := by
            rw [List.drop_eq_getElem_cons hal,
                show limA - a = (limA - (a + 1)) + 1 by omega, List.take_succ_cons]
          have hys : (buf.drop b).take (limB - b) =
              buf[b] :: (buf.drop (b + 1)).take (limB - (b + 1)) := by
            rw [List.drop_eq_getElem_cons hbl,
                show limB - b = (limB - (b + 1)) + 1 by omega, List.take_succ_cons]
          rw [mergeSelfLoop, if_neg haA, if_neg hbb]
          simp only [hga, hgb, Option.bind_eq_bind, Option.some_bind]
          by_cases hlt : lt buf[a] buf[b] = true
          · rw [if_pos hlt]
            simp only [setO, if_pos hclen, Option.some_bind]
            rw [mergeSelfLoop_eq lt fuel (buf.set c buf[a]) (a + 1) limA b limB (c + 1)
                (by omega) hb (by omega) (by omega) (by simpa using hlen) (by omega)]
            rw [extract_set_of_ge _ (show (a + 1) + (limA - (a + 1)) ≤ c by omega),
                List.drop_set_of_lt _ _ (show c < b by omega),
                merge_assemble buf c fuel buf[a] _ hclen,
                hxs, hys, mergeLists_cons_cons, if_pos hlt, ← hys]
          · rw [if_neg hlt]
            simp only [setO, if_pos hclen, Option.some_bind]
            rw [mergeSelfLoop_eq lt fuel (buf.set c buf[b]) a limA (b + 1) limB (c + 1)
                ha (by omega) (by omega) (by omega) (by simpa using hlen) (by omega)]
            rw [extract_set_of_ge _ (show a + (limA - a) ≤ c by omega),
                List.drop_set_of_lt _ _ (show c < b + 1 by omega),
                merge_assemble buf c fuel buf[b] _ hclen,
                hxs, hys, mergeLists_cons_cons, if_neg hlt, ← hxs]

theorem extract_middle {α : Type} (l mid r : List α) (c n : ℕ)
    (hc : c ≤ l.length) (hn : mid.length = n) :
    (((l.take c ++ mid ++ r).drop c).take n) = mid := by
  rw [List.append_assoc, List.drop_left' (by simp [hc]), List.take_left' hn]

/-- C10: for every strict-less comparator and index ranges with the two source
windows sorted ascending and laid out so the destination never overlaps the
not-yet-consumed part of either source (the in-place compaction layout: the A
window below the destination start, the B window at least `lenA` above it),
`mergeSortedItemsArrays` succeeds and fills the destination window
`[startC, startC+lenA+lenB)` with a sorted ascending sequence that is a
multiset permutation of the two source windows
(kll/items_sketch.go 886-912, and the identical `mergeSortedDoubleArrays`). -/
theorem c10_merge_sorted_arrays_correct {α : Type} (lt : α → α → Bool)
    (hasym : ∀ x y, lt x y = true → lt y x = false)
    (buf : List α) (startA lenA startB lenB startC : ℕ)
    (h1 : startA + lenA ≤ startC) (h2 : startC + lenA ≤ startB)
    (h3 : startB + lenB ≤ buf.length)
    (hsA : sortedRun lt ((buf.drop startA).take lenA))
    (hsB : sortedRun lt ((buf.drop startB).take lenB)) :
    ∃ out, mergeSortedItemsArraysSelf lt buf startA lenA startB lenB startC = some out ∧
      sortedRun lt ((out.drop startC).take (lenA + lenB)) ∧
      ((out.drop startC).take (lenA + lenB)).Perm
        (((buf.drop startA).take lenA) ++ ((buf.drop startB).take lenB)) := by
  have heq := mergeSelfLoop_eq lt (lenA + lenB) buf startA (startA + lenA) startB
    (startB + lenB) startC (by omega) (by omega) (by omega) (by omega) (by omega)
    (by omega)
  simp only [Nat.add_sub_cancel_left] at heq
  rw [mergeSortedItemsArraysSelf]
  refine ⟨_, heq, ?_, ?_⟩
  all_goals
    rw [extract_middle _ _ _ _ _ (by omega)
        (by rw [mergeLists_length]
            simp only [List.length_take, List.length_drop]
            omega)]
  · exact mergeLists_sorted lt hasym _ _ hsA hsB
  · exact mergeLists_perm lt _ _

theorem natLtBoolAsym : ∀ x y : ℕ, decide (x < y) = true → decide (y < x) = false :=
  fun _ _ h => decide_eq_false (Nat.lt_asymm (of_decide_eq_true h))

/-- Witness for C10: merging the windows `[1,3]` (at 0) and `[2,4]` (at 4) of an
8-slot buffer into the window starting at 2. -/
theorem c10_merge_sorted_arrays_correct_witness :
    (∀ x y : ℕ, (decide (x < y)) = true → (decide (y < x)) = false) ∧
    ∃ out, mergeSortedItemsArraysSelf (fun a b : ℕ => decide (a < b))
        [1, 3, 0, 0, 2, 4, 0, 0] 0 2 4 2 2 = some out ∧
      sortedRun (fun a b : ℕ => decide (a < b)) ((out.drop 2).take 4) ∧
      ((out.drop 2).take 4).Perm
        ((([1, 3, 0, 0, 2, 4, 0, 0].drop 0).take 2) ++
          (([1, 3, 0, 0, 2, 4, 0, 0].drop 4).take 2)) :=
  ⟨natLtBoolAsym,
   c10_merge_sorted_arrays_correct (fun a b : ℕ => decide (a < b)) natLtBoolAsym
     [1, 3, 0, 0, 2, 4, 0, 0] 0 2 4 2 2 (by decide) (by decide) (by decide)
     (by rw [sortedRun, show (([1, 3, 0, 0, 2, 4, 0, 0] : List ℕ).drop 0).take 2 =
           [1, 3] from rfl]
         exact List.chain'_pair.mpr (by decide))
     (by rw [sortedRun, show (([1, 3, 0, 0, 2, 4, 0, 0] : List ℕ).drop 4).take 2 =
           [2, 4] from rfl]
         exact List.chain'_pair.mpr (by decide))⟩

/-- C2: the claim states that `getMinItem`/`getMaxItem` are always the exact
stream minimum/maximum.  It fails on `updateDouble` of src/unnamed/part_003
(lines 313-347): when updating the maximum the code reads `GetMinItem` a second
time instead of `GetMaxItem`, so after the two-item stream 5, 3 the stored
maximum is 3 (the freshly-lowered minimum) although the exact stream maximum is
`max 5 3 = 5`. -/
theorem c2_double_update_max_not_exact :
    (do
      let s ← newKllDoubleSketch 8 8
      let s ← updateDoubleP3 s 5
      let s ← updateDoubleP3 s 3
      pure (s.minDoubleItem, s.maxDoubleItem) : Option (Option ℚ × Option ℚ)) =
      some (some 3, some 3) ∧ max (5 : ℚ) 3 = 5 := by
  constructor
  · rfl
  · decide

/-- C4: the claim states the level-capacity computation returns exactly
`max(M, ⌈(2K·(2/3)^depth + 1)/2⌉ clamped at K)` with the 2K product in a 64-bit
intermediate.  In the generic items version (kll/items_sketch.go 854-862) the
product `k << 1` is computed in `uint16` and wraps before the widening: for
K = 40000 (depth 0, numLevels 1, M 8) the code yields 7232 while the spec
formula yields 40000. -/
theorem c4_intcap_uint16_wrap :
    levelCapacity 40000 1 0 8 = some 7232 ∧ specLevelCapacity 40000 1 0 8 = 40000 := by
  constructor
  · rfl
  · decide

/-- C5: the claim states the halving step keeps offset 0 or offset 1 chosen by a
uniformly random bit per call.  In the generic items versions
(kll/items_sketch.go 864-884) the draw is commented out and `offset := 1` is
hard-coded, so the functions are deterministic: on the buffer
`[10, 20, 30, 40]` the down-halving always keeps `[20, 40]` (offset 1) and the
up-halving always keeps `[10, 30]`; a run keeping the other offset is
impossible. -/
theorem c5_halving_offset_constant :
    randomlyHalveDownItems [10, 20, 30, 40] 0 4 = some [20, 40, 30, 40] ∧
    randomlyHalveUpItems [10, 20, 30, 40] 0 4 = some [10, 20, 10, 30] := by
  constructor
  · rfl
  · rfl

/-- C6: the claim states `getPMF(s, crit)` returns the successive differences of
`getCDF(s, crit)`.  On the doubles sorted view it cannot: `getRank` — which
`getCDF` calls for every split point — is `panic("not implemented")`
(double_sketch_sorted_view.go 107), so `getPMF` on a non-empty view with the
single split `[0]` produces no result; and independently, the difference loop of
`getPMF` (lines 78-80) starts at index `len(buckets)`, one past the end, so even
on an explicit two-entry buckets array it faults instead of differencing. -/
theorem c6_pmf_not_cdf_differences :
    getPMFSV ⟨[1], [1], 1, 1, 1⟩ [0] = none ∧
    pmfLoopGo [1 / 2, 1] 2 1 = none := by
  constructor
  · simp [getPMFSV, getCDFSV, cdfLoop, getRankSV, checkDoublesSplitPointsOrder]
  · rfl

/-- C7: the claim states `convertToCumulative` produces prefix sums with total
`Σ W`.  The source (src/unnamed/part_000 182-190) resets its running subtotal to
the current element (`subtotal = array[i]`) instead of the new subtotal: on
`[1, 1, 1]` it returns `([1, 2, 2], 1)` while the cumulative array is
`[1, 2, 3]` with total 3. -/
theorem c7_convert_to_cumulative_not_cumulative :
    convertToCumulative [1, 1, 1] = ([1, 2, 2], 1) ∧
    specCumulative [1, 1, 1] = ([1, 2, 3], 3) := by
  constructor
  · rfl
  · rfl

/-- C9: the claim states `addEmptyTopLevelToCompletelyFullSketch` performs no
out-of-bounds access on a levels array of minimal length `numLevels + 1`.  The
doubles version (src/unnamed/part_003 466) computes
`growLevelsArr := myCurLevelsArr[myCurNumLevels+1] < myCurNumLevels+2`,
*indexing* the array at `numLevels + 1` (the Java original compares the array
length): on the completely full minimal sketch `levels = [0, 8]`,
`numLevels = 1`, the read `levelsArr[2]` is out of bounds. -/
theorem c9_add_top_level_oob :
    addEmptyTopLevelDoubleP3
      ⟨8, 8, 8, 8, false, false, some 1, some 5, [0, 8], List.replicate 8 0⟩ =
      .error .oob := by
  rfl

/-- C8: on an empty sketch every quantile-domain query returns an error and
leaves the sketch unchanged, and `GetQuantile` errors for every normalized rank
outside `[0, 1]` on any sketch (kll/items_sketch.go 175-314, and the doubles
`GetMinItem`/`GetMaxItem` of src/unnamed/part_003). -/
theorem c8_empty_sketch_queries_fail {α : Type} [Inhabited α]
    (s : ItemsSketch α) (d : DoubleSketch) (item : α) (ranks : List ℚ)
    (splits : List α) (np : ℕ) (hs : s.n = 0) (hd : d.n = 0) :
    getMinItemQ s = none ∧ getMaxItemQ s = none ∧
    getRankQ s item = (.err, s) ∧ getRanksQ s splits = (.err, s) ∧
    (∀ r : ℚ, getQuantileQ s r = (.err, s)) ∧
    getQuantilesQ s ranks = (.err, s) ∧
    getPMFQ s splits = (.err, s) ∧ getCDFQ s splits = (.err, s) ∧
    getPartitionBoundariesQ s np = (.err, s) ∧ getSortedViewQ s = (.err, s) ∧
    (∀ (s₂ : ItemsSketch α) (r : ℚ), r < 0 ∨ 1 < r → getQuantileQ s₂ r = (.err, s₂)) ∧
    getMinItemDbl d = .error () ∧ getMaxItemDbl d = .error () := by
  refine ⟨by simp [getMinItemQ, hs], by simp [getMaxItemQ, hs],
          by simp [getRankQ, hs], by simp [getRanksQ, hs],
          by intro r; simp [getQuantileQ, hs], by simp [getQuantilesQ, hs],
          by simp [getPMFQ, hs], by simp [getCDFQ, hs],
          by simp [getPartitionBoundariesQ, hs], by simp [getSortedViewQ, hs],
          ?_, by simp [getMinItemDbl, hd], by simp [getMaxItemDbl, hd]⟩
  intro s₂ r hr
  by_cases h0 : s₂.n = 0 <;> rcases hr with hr | hr <;>
    simp [getQuantileQ, h0, hr]

/-- Witness for C8 at the freshly created items sketch (k = 8) and doubles
sketch. -/
theorem c8_empty_sketch_queries_fail_witness :
    getMinItemQ (⟨8, 8, 8, 1, false, 0, [8, 8], List.replicate 8 0, none, none,
        false⟩ : ItemsSketch ℕ) = none ∧
    getMinItemDbl ⟨8, 8, 0, 8, false, false, none, none, [8, 8],
        List.replicate 8 0⟩ = .error () :=
  ⟨(c8_empty_sketch_queries_fail
      (⟨8, 8, 8, 1, false, 0, [8, 8], List.replicate 8 0, none, none, false⟩ :
        ItemsSketch ℕ)
      ⟨8, 8, 0, 8, false, false, none, none, [8, 8], List.replicate 8 0⟩
      0 [] [] 1 rfl rfl).1,
   (c8_empty_sketch_queries_fail
      (⟨8, 8, 8, 1, false, 0, [8, 8], List.replicate 8 0, none, none, false⟩ :
        ItemsSketch ℕ)
      ⟨8, 8, 0, 8, false, false, none, none, [8, 8], List.replicate 8 0⟩
      0 [] [] 1 rfl rfl).2.2.2.2.2.2.2.2.2.2.2.1⟩

end DS
